import Mathlib

/-!
# SmartSkip: shallow embedding and verification

This file embeds the two set implementations of the SmartSkip repository in
Lean 4 and proves properties of them:

* `MLList`  — the single-level linked list of `src/ML-list/list.cpp`;
* `MLSkip`  — the Fraser-style skip list of `src/ML-skiplist/skiplist.cpp`.

Modelling conventions, shared by both embeddings:

* The heap is an explicit allocation list `nodes : List (Option Node)`;
  a node id is its index, `malloc` appends, `free` overwrites with `none`.
* A C pointer-with-mark-bit is `Ptr`: an optional target id plus the mark
  bit that the code stores in the low address bit.  `NULL` is
  `⟨none, false⟩`.
* Machine `int` values are `Int` (no arithmetic in the sources overflows on
  the inputs the theorems quantify over); `INT_MAX`/`INT_MIN` are the
  2^31 constants from `<limits.h>`.
* The learned-index collaborator `RadixSpline::GetEstimatedPosition`
  returns `double p ∈ [0,1)`; it is modelled as a function `pos : Int → ℚ`
  and the C conversion `int k = p * (table_size-1)` as exact rational
  truncation toward zero (`bucketOf`).
* Every loop that chases heap pointers takes explicit fuel and returns
  `Option`; `none` models undefined behaviour (dereference of null, of a
  marked pointer, an out-of-bounds access) or fuel exhaustion.  Theorems
  supply enough fuel and prove the result is `some`.
* The xorshift level generator keeps hidden static state; operations that
  allocate a node take the generated level as an explicit argument
  (theorems quantify over it, constrained to `[1, levelmax]` exactly as
  `get_rand_level` guarantees).
-/

namespace SmartSkip

/-- `MAXLEVEL` / the global `levelmax` (hardwired max 32 per the generator). -/
def levelmax : Nat := 32

/-- `VAL_MIN = INT_MIN`, the head sentinel's value. -/
def VAL_MIN : Int := -2147483648

/-- `VAL_MAX = INT_MAX`, the tail sentinel's value. -/
def VAL_MAX : Int := 2147483647

/-- `INT_MAX` from `<limits.h>` (initial `delta` of a shift-table entry). -/
def INT_MAX : Int := 2147483647

/-- A node id: index into the allocation list. -/
abbrev NodeId := Nat

/-- A raw forward reference: optional target plus the low-bit mark.
`NULL` is `⟨none, false⟩`. -/
structure Ptr where
  target : Option NodeId
  marked : Bool
deriving DecidableEq, Repr

/-- The null pointer. -/
def Ptr.null : Ptr := ⟨none, false⟩

/-- `is_marked`: test the low bit. -/
def Ptr.is_marked (p : Ptr) : Bool := p.marked

/-- `unset_mark`: clear the low bit. -/
def Ptr.unset_mark (p : Ptr) : Ptr := ⟨p.target, false⟩

/-- `set_mark`: set the low bit. -/
def Ptr.set_mark (p : Ptr) : Ptr := ⟨p.target, true⟩

/-- The bucket index `int k = GetEstimatedPosition(v) * (table_size - 1)`
computed by both variants: C truncation toward zero of `p * (T-1)`, where
`p = pos v` is the exact-rational stand-in for the returned `double`.
For `p = a/b` in lowest terms, `trunc(a*(T-1)/b) = (a*(T-1)).tdiv b`
(`Int.tdiv` rounds toward zero exactly as C integer conversion does). -/
def bucketOf (pos : Int → ℚ) (tableSize : Nat) (v : Int) : Nat :=
  (((pos v).num * ((tableSize : Int) - 1)).tdiv ((pos v).den : Int)).toNat

/-- A shift-table entry (`shift_node_t`): observation count, rank offset,
and a non-owning node reference. -/
structure ShiftEntry where
  count : Int
  delta : Int
  node : Option NodeId
deriving DecidableEq, Repr

/-- `new_shift_table`: `table_size` entries, each `count=0, delta=INT_MAX,
node=NULL`. -/
def new_shift_table (tableSize : Nat) : List ShiftEntry :=
  List.replicate tableSize ⟨0, INT_MAX, none⟩

/-- Fetch `shift_table[k].node` (`none` models an out-of-bounds read or a
null entry whose dereference would fault). -/
def entryNode (tbl : List ShiftEntry) (k : Nat) : Option NodeId :=
  (tbl.get? k).bind (·.node)

/-! ## The single-level list variant (`src/ML-list/list.cpp`) -/

namespace MLList

/-- `sl_node_t` of `list.h`: value, deleted flag, single successor. -/
structure Node where
  val : Int
  deleted : Bool
  next : Option NodeId
deriving DecidableEq, Repr

/-- The allocation heap for list nodes. -/
structure Heap where
  nodes : List (Option Node)
deriving DecidableEq, Repr

/-- Dereference a node id. -/
def Heap.get (h : Heap) (i : NodeId) : Option Node := (h.nodes.getD i none)

/-- `malloc` a node: append at the end, return its id. -/
def Heap.alloc (h : Heap) (n : Node) : Heap × NodeId :=
  (⟨h.nodes ++ [some n]⟩, h.nodes.length)

/-- Overwrite the node stored at an id. -/
def Heap.setNode (h : Heap) (i : NodeId) (n : Node) : Heap :=
  ⟨h.nodes.set i (some n)⟩

/-- `sl_intset_t` plus its heap. -/
structure IntSet where
  heap : Heap
  head : NodeId
deriving DecidableEq, Repr

/-- `sl_set_new()`: allocate the tail (`VAL_MAX`, next `NULL`) and the head
(`VAL_MIN`, next tail) in an empty heap. -/
def sl_set_new : IntSet :=
  let (h1, maxId) := (Heap.mk []).alloc ⟨VAL_MAX, false, none⟩
  let (h2, minId) := h1.alloc ⟨VAL_MIN, false, some maxId⟩
  ⟨h2, minId⟩

/-- The shortcut-start loop
`while (pred->val > val && k-- > 0) pred = shift_table[k].node;`
shared by `sl_contains`, `sl_add`, `sl_remove` of the list variant.
Structural recursion on `k`; the final dereference of `pred->val` is
required even when the loop exits at once. -/
def shortcut (h : Heap) (tbl : List ShiftEntry) (v : Int) (pred : NodeId) :
    Nat → Option NodeId
  | 0 => do
    let _ ← h.get pred
    pure pred
  | k+1 => do
    let n ← h.get pred
    if n.val > v then do
      let p ← entryNode tbl k
      shortcut h tbl v p k
    else
      pure pred

/-- The forward scan `while (curr->val < val) { pred = curr; curr = curr->next; }`,
returning the final `(pred, curr)` pair.  Fuel-indexed. -/
def scan (h : Heap) (v : Int) : NodeId → NodeId → Nat → Option (NodeId × NodeId)
  | _, _, 0 => none
  | pred, curr, fuel+1 => do
    let c ← h.get curr
    if c.val < v then do
      let nxt ← c.next
      scan h v curr nxt fuel
    else
      pure (pred, curr)

/-- `sl_add` of `list.cpp`: run the shortcut loop (its result is then
discarded: `pred = set->head`), scan from the head, resurrect a deleted
node in place, report an existing live one, or splice a fresh node in. -/
def sl_add (s : IntSet) (tbl : List ShiftEntry) (pos : Int → ℚ)
    (tableSize : Nat) (v : Int) : Option (Int × IntSet) := do
  let k := bucketOf pos tableSize v
  let p0 ← entryNode tbl k
  let _ ← shortcut s.heap tbl v p0 k
  let pred := s.head
  let hd ← s.heap.get pred
  let c0 ← hd.next
  let (pred, curr) ← scan s.heap v pred c0 (s.heap.nodes.length + 1)
  let c ← s.heap.get curr
  if c.val = v then
    if c.deleted then
      pure (1, ⟨s.heap.setNode curr { c with deleted := false }, s.head⟩)
    else
      pure (0, s)
  else do
    let (h1, newId) := s.heap.alloc ⟨v, false, some curr⟩
    let p ← h1.get pred
    pure (1, ⟨h1.setNode pred { p with next := some newId }, s.head⟩)

end MLList

/-! ## The skip-list variant (`src/ML-skiplist/skiplist.cpp`) -/

namespace MLSkip

/-- `sl_node_t` of the skip-list variant: value, deleted flag, tower height,
and `toplevel` forward slots (`levelmax` for sentinels). -/
structure Node where
  val : Int
  deleted : Bool
  toplevel : Nat
  next : List Ptr
deriving DecidableEq, Repr

/-- Allocation heap for skip-list nodes: id = index, `free` stores `none`. -/
structure Heap where
  nodes : List (Option Node)
deriving DecidableEq, Repr

/-- Dereference a node id. -/
def Heap.get (h : Heap) (i : NodeId) : Option Node := (h.nodes.getD i none)

/-- `malloc` a node. -/
def Heap.alloc (h : Heap) (n : Node) : Heap × NodeId :=
  (⟨h.nodes ++ [some n]⟩, h.nodes.length)

/-- Overwrite the node stored at an id. -/
def Heap.setNode (h : Heap) (i : NodeId) (n : Node) : Heap :=
  ⟨h.nodes.set i (some n)⟩

/-- `sl_delete_node` / `free`. -/
def Heap.free (h : Heap) (i : NodeId) : Heap := ⟨h.nodes.set i none⟩

/-- Read forward slot `i` of a node (`node->next[i]`). -/
def Heap.nextAt (h : Heap) (a : NodeId) (i : Nat) : Option Ptr :=
  (h.get a).bind fun n => n.next.get? i

/-- Write forward slot `i` of a node; `none` if the slot does not exist
(an out-of-bounds store in the C code). -/
def Heap.setNext (h : Heap) (a : NodeId) (i : Nat) (p : Ptr) : Option Heap :=
  (h.get a).bind fun n =>
    if i < n.next.length then some (h.setNode a { n with next := n.next.set i p })
    else none

/-- `ATOMIC_CAS_MB` on a forward slot: compare the stored pointer word
(target and mark bit) with `old`; on success store `new`. -/
def Heap.cas (h : Heap) (a : NodeId) (i : Nat) (old new : Ptr) :
    Option (Bool × Heap) := do
  let cur ← h.nextAt a i
  if cur = old then do
    let h2 ← h.setNext a i new
    pure (true, h2)
  else
    pure (false, h)

/-- `sl_intset_t` plus its heap. -/
structure IntSet where
  heap : Heap
  head : NodeId
deriving DecidableEq, Repr

/-- `sl_new_simple_node(val, toplevel, _)`: allocates `toplevel` next slots
and does not initialize them (uninitialized slots modeled as null;
every caller overwrites a slot before reading it). -/
def sl_new_simple_node (val : Int) (toplevel : Nat) : Node :=
  ⟨val, false, toplevel, List.replicate toplevel Ptr.null⟩

/-- The loop of `sl_new_node`: `for (i = 0; i < levelmax; i++) node->next[i] = next;`
over an array of `toplevel` slots.  Fails (`none`) at the first
out-of-bounds store. -/
def writeSlots (slots : List Ptr) (p : Ptr) : Nat → Option (List Ptr)
  | 0 => some slots
  | i+1 => do
    let s ← writeSlots slots p i
    if i < s.length then some (s.set i p) else none

/-- `sl_new_node(val, next, toplevel, _)`: create a simple node, then write
all `levelmax` forward slots. -/
def sl_new_node (val : Int) (next : Ptr) (toplevel : Nat) : Option Node := do
  let n := sl_new_simple_node val toplevel
  let slots ← writeSlots n.next next levelmax
  pure { n with next := slots }

/-- `sl_set_new()`: tail sentinel (`VAL_MAX`, all-null next, `levelmax`
levels) at id 0, head sentinel (`VAL_MIN`, all slots to the tail) at id 1. -/
def sl_set_new : Option IntSet := do
  let mx ← sl_new_node VAL_MAX Ptr.null levelmax
  let (h1, maxId) := (Heap.mk []).alloc mx
  let mn ← sl_new_node VAL_MIN (Ptr.mk (some maxId) false) levelmax
  let (h2, minId) := h1.alloc mn
  pure ⟨h2, minId⟩

/-! ### populate_shift_table -/

/-- Checked store into the shift table (`none` = out-of-bounds write). -/
def setE (tbl : List ShiftEntry) (k : Nat) (e : ShiftEntry) :
    Option (List ShiftEntry) :=
  if k < tbl.length then some (tbl.set k e) else none

/-- The chain walk of `populate_shift_table`:
`while (node->next[0]->next[0] != NULL) { node = node->next[0]; … }`.
Returns the updated table and the node on which the loop stopped (the last
interior node, or the head for an empty list).  The condition dereferences
`node->next[0]`, so a marked or null level-0 pointer is undefined
behaviour (`none`). -/
def populateWalk (h : Heap) (pos : Int → ℚ) (T : Nat) :
    Nat → NodeId → Nat → List ShiftEntry → Option (List ShiftEntry × NodeId)
  | 0, _, _, _ => none
  | fuel+1, node, j, tbl => do
    let p ← h.nextAt node 0
    if p.marked then none
    else
      match p.target with
      | none => none
      | some nxt => do
        let nn ← h.get nxt
        let q ← nn.next.get? 0
        if q = Ptr.null then
          pure (tbl, node)
        else do
          let k := bucketOf pos T nn.val
          let e ← tbl.get? k
          let delta : Int := (j : Int) - (k : Int)
          let e2 := if delta ≤ e.delta then { e with delta := delta, node := some nxt } else e
          let e3 := { e2 with count := e2.count + 1 }
          populateWalk h pos T fuel nxt (j+1) (tbl.set k e3)

/-- One iteration of the backward fill: if `tbl[j].count == 0`, copy
`tbl[j+1]`, with `delta+1`.  Reading `tbl[j+1]` out of bounds is `none`. -/
def backfillStep (tbl : List ShiftEntry) (j : Nat) : Option (List ShiftEntry) := do
  let e ← tbl.get? j
  if e.count = 0 then do
    let r ← tbl.get? (j+1)
    pure (tbl.set j ⟨r.count, r.delta + 1, r.node⟩)
  else
    pure tbl

/-- The backward fill `for (j = table_size-1; j >= 0; j--)`, processing
indices `j, j-1, …, 0`. -/
def backfillFrom : List ShiftEntry → Nat → Option (List ShiftEntry)
  | tbl, 0 => backfillStep tbl 0
  | tbl, j+1 => do
    let t ← backfillStep tbl (j+1)
    backfillFrom t j

/-- `populate_shift_table`: seed bucket 0 with the head, walk the level-0
chain with the overwrite rule, seed bucket `T-1` with the tail
(`node->next[0]` where the walk stopped), then backward-fill. -/
def populate_shift_table (s : IntSet) (pos : Int → ℚ) (T : Nat)
    (tbl : List ShiftEntry) : Option (List ShiftEntry) := do
  let tbl0 ← setE tbl 0 ⟨1, 0, some s.head⟩
  let (tbl1, last) ← populateWalk s.heap pos T (s.heap.nodes.length + 1) s.head 0 tbl0
  let p ← s.heap.nextAt last 0
  match p.target with
  | none => none
  | some tailId => do
    let tbl2 ← setE tbl1 (T - 1) ⟨1, 0, some tailId⟩
    backfillFrom tbl2 (T - 1)

/-- `Modelled from the spec:` the shift-table build algorithm of spec
§4.3 in its stated step order (the repository's `populate_shift_table`
seeds bucket `T-1` only after the walk): seed bucket 0 with the head
sentinel and bucket `T-1` with the tail sentinel first, then walk the
level-0 chain applying the same overwrite rule, then backward-fill.
Used as the reference side of the refinement claim C4. -/
def spec_shift_table (s : IntSet) (pos : Int → ℚ) (T : Nat)
    (tbl : List ShiftEntry) : Option (List ShiftEntry) := do
  let (_, last) ← populateWalk s.heap pos T (s.heap.nodes.length + 1) s.head 0 tbl
  let p ← s.heap.nextAt last 0
  match p.target with
  | none => none
  | some tailId => do
    let tbl0 ← setE tbl 0 ⟨1, 0, some s.head⟩
    let tbl1 ← setE tbl0 (T - 1) ⟨1, 0, some tailId⟩
    let (tbl2, _) ← populateWalk s.heap pos T (s.heap.nodes.length + 1) s.head 0 tbl1
    backfillFrom tbl2 (T - 1)

/-! ### fraser_search -/

/-- The skip-list shortcut loop, including the `(*iterations)++` counts:
`left = unset_mark(tbl[k].node); (*iterations)++;`
`while (left->val > val && k-- > 0) { left = unset_mark(tbl[k].node); (*iterations)++; }`.
Structural recursion on `k`; the condition dereferences `left->val` even
on the exiting iteration. -/
def sk_shortcut (h : Heap) (tbl : List ShiftEntry) (v : Int) :
    NodeId → Nat → Nat → Option (NodeId × Nat)
  | left, 0, it => do
    let _ ← h.get left
    pure (left, it)
  | left, k+1, it => do
    let n ← h.get left
    if n.val > v then do
      let l2 ← entryNode tbl k
      sk_shortcut h tbl v l2 k (it+1)
    else
      pure (left, it)

/-- The inner skip of a run of marked nodes:
`while(1) { right_next = right->next[i]; if (!is_marked(right_next)) break; right = unset_mark(right_next); }`.
Returns the final `(right, right_next)` with `right_next` unmarked.
A marked null pointer makes the next iteration dereference null (`none`). -/
def skipMarked (h : Heap) (i : Nat) : NodeId → Nat → Option (NodeId × Ptr)
  | _, 0 => none
  | r, fuel+1 => do
    let rn ← h.nextAt r i
    if rn.marked then
      match rn.target with
      | some r2 => skipMarked h i r2 fuel
      | none => none
    else
      pure (r, rn)

/-- The level scan
`for (right = left_next; ; right = right_next) { …skip…; if (right->val >= val) break; left = right; left_next = right_next; }`.
Returns the final `(left, left_next, right, right_next)`. -/
def findPair (h : Heap) (i : Nat) (v : Int) :
    NodeId → Ptr → NodeId → Nat → Option (NodeId × Ptr × NodeId × Ptr)
  | _, _, _, 0 => none
  | left, leftNext, right, fuel+1 => do
    let (r, rn) ← skipMarked h i right (fuel+1)
    let nd ← h.get r
    if nd.val ≥ v then
      pure (left, leftNext, r, rn)
    else
      match rn.target with
      | some r2 => findPair h i v r rn r2 fuel
      | none => none

/-- Result of the per-level loop of `fraser_search`: either `goto retry`
or fall through, in both cases with the (possibly CAS-updated) heap and
the `left_list`/`right_list` arrays. -/
inductive LoopRes where
  | retry (h : Heap) (preds succs : List (Option NodeId)) : LoopRes
  | done (h : Heap) (preds succs : List (Option NodeId)) : LoopRes
deriving DecidableEq, Repr

/-- The level descent `for (i = left->toplevel - 1; i >= 0; i--) { … }` of
`fraser_search`: at each level find the adjacent unmarked pair, CAS-unlink
any marked run between them (retrying the whole search if the CAS fails or
`left->next[i]` is already marked), and record the pair in the arrays when
requested (`wp`/`ws` model `left_list`/`right_list` being non-null). -/
def levelLoop (v : Int) (wp ws : Bool) (fuel : Nat) :
    Nat → Heap → NodeId → List (Option NodeId) → List (Option NodeId) →
    Option LoopRes
  | 0, h, _, preds, succs => pure (.done h preds succs)
  | i+1, h, left, preds, succs => do
    let ln ← h.nextAt left i
    if ln.marked then
      pure (.retry h preds succs)
    else
      match ln.target with
      | none => none
      | some r0 => do
        let (left2, ln2, right, _) ← findPair h i v left ln r0 fuel
        if ln2 = Ptr.mk (some right) false then
          let preds2 := if wp then preds.set i (some left2) else preds
          let succs2 := if ws then succs.set i (some right) else succs
          levelLoop v wp ws fuel i h left2 preds2 succs2
        else do
          let (ok, h2) ← h.cas left2 i ln2 (Ptr.mk (some right) false)
          if ok then
            let preds2 := if wp then preds.set i (some left2) else preds
            let succs2 := if ws then succs.set i (some right) else succs
            levelLoop v wp ws fuel i h2 left2 preds2 succs2
          else
            pure (.retry h2 preds succs)

/-- Output of `fraser_search`: final heap, the two (partially) filled
arrays, and the iteration counter. -/
structure SearchOut where
  heap : Heap
  preds : List (Option NodeId)
  succs : List (Option NodeId)
  iters : Nat
deriving DecidableEq, Repr

/-- `fraser_search` (the `set` parameter of the C function is unused by its
body; the start node comes from the shift table alone).  `rf` is fuel for
the `goto retry` loop; `fuel` bounds each pointer chase.  The
`left_list`/`right_list` arrays persist across retries exactly as the
caller's `malloc`ed arrays do. -/
def fraser_search (pos : Int → ℚ) (tbl : List ShiftEntry) (T : Nat)
    (v : Int) (wp ws : Bool) (fuel : Nat) :
    Nat → Heap → List (Option NodeId) → List (Option NodeId) → Nat →
    Option SearchOut
  | 0, _, _, _, _ => none
  | rf+1, h, preds, succs, it => do
    let k := bucketOf pos T v
    let l0 ← entryNode tbl k
    let (left, it2) ← sk_shortcut h tbl v l0 k (it + 1)
    let ln ← h.get left
    match ← levelLoop v wp ws fuel ln.toplevel h left preds succs with
    | .retry h2 preds2 succs2 =>
      fraser_search pos tbl T v wp ws fuel rf h2 preds2 succs2 it2
    | .done h2 preds2 succs2 => pure ⟨h2, preds2, succs2, it2⟩

/-! ### mark_node_ptrs, sl_contains, sl_add, sl_remove, seq_add -/

/-- One level of `mark_node_ptrs`: read the slot; if already marked stop,
otherwise CAS in the marked pointer (in this sequential model the CAS of a
just-read value always succeeds). -/
def markLevel (h : Heap) (n : NodeId) (i : Nat) : Option Heap := do
  let p ← h.nextAt n i
  if p.marked then
    pure h
  else do
    let (ok, h2) ← h.cas n i p p.set_mark
    if ok then pure h2 else none

/-- Levels `i-1, i-2, …, 0` of `mark_node_ptrs`. -/
def markLevels (n : NodeId) : Heap → Nat → Option Heap
  | h, 0 => pure h
  | h, i+1 => do
    let h2 ← markLevel h n i
    markLevels n h2 i

/-- `mark_node_ptrs(n)`: mark every forward pointer of `n`, from
`n->toplevel - 1` down to 0. -/
def mark_node_ptrs (h : Heap) (n : NodeId) : Option Heap := do
  let nd ← h.get n
  markLevels n h nd.toplevel

/-- `sl_contains`: search collecting `succs` only; member iff
`succs[0]->val == val && !succs[0]->deleted`.  Reading an array slot the
search never wrote (malloc garbage) is `none`. -/
def sl_contains (s : IntSet) (pos : Int → ℚ) (tbl : List ShiftEntry)
    (T : Nat) (v : Int) (fuel rf : Nat) : Option (Int × IntSet × Nat) := do
  let out ← fraser_search pos tbl T v false true fuel rf s.heap
      (List.replicate levelmax none) (List.replicate levelmax none) 0
  let s0 ← (out.succs.get? 0).bind id
  let nd ← out.heap.get s0
  pure (if nd.val = v ∧ nd.deleted = false then 1 else 0, ⟨out.heap, s.head⟩, out.iters)

/-- The pre-link loop of `sl_add`:
`for (i = 0; i < new_n->toplevel; i++) new_n->next[i] = succs[i];`. -/
def setNewNexts (newId : NodeId) (succs : List (Option NodeId)) :
    Heap → Nat → Option Heap
  | h, 0 => pure h
  | h, i+1 => do
    let h1 ← setNewNexts newId succs h i
    let sid ← (succs.get? i).bind id
    h1.setNext newId i (Ptr.mk (some sid) false)

/-- The `while (1)` body of `sl_add`'s upper-level linking at level `i`,
with fuel `lf` for its own retries.  The branch taken when
`succ->val == v` computes `unset_mark(succ->next)` where `succ->next`
decays to the address of the slot array itself, not a stored pointer;
that bogus pointer value is outside this model (`none`). -/
def linkLoop (pos : Int → ℚ) (tbl : List ShiftEntry) (T : Nat) (v : Int)
    (newId : NodeId) (i : Nat) (fuel rf : Nat) :
    Nat → Heap → List (Option NodeId) → List (Option NodeId) → Nat →
    Option (Heap × List (Option NodeId) × List (Option NodeId) × Nat)
  | 0, _, _, _, _ => none
  | lf+1, h, preds, succs, it => do
    let pid ← (preds.get? i).bind id
    let sid ← (succs.get? i).bind id
    let nn ← h.nextAt newId i
    let step : Option (Bool × Heap) :=
      if nn ≠ Ptr.mk (some sid) false then do
        let (ok, h2) ← h.cas newId i nn.unset_mark (Ptr.mk (some sid) false)
        pure (ok, h2)
      else
        pure (true, h)
    let (goOn, h2) ← step
    if goOn = false then
      pure (h2, preds, succs, it)
    else do
      let sn ← h2.get sid
      if sn.val = v then
        none
      else do
        let (ok2, h3) ← h2.cas pid i (Ptr.mk (some sid) false) (Ptr.mk (some newId) false)
        if ok2 then
          pure (h3, preds, succs, it)
        else do
          let out ← fraser_search pos tbl T v true true fuel rf h3 preds succs it
          linkLoop pos tbl T v newId i fuel rf lf out.heap out.preds out.succs out.iters

/-- The upper-level linking `for (i = 1; i < new_n->toplevel; i++)`:
`linkLevels … k` runs `linkLoop` at levels `1, 2, …, k` in order. -/
def linkLevels (pos : Int → ℚ) (tbl : List ShiftEntry) (T : Nat) (v : Int)
    (newId : NodeId) (fuel rf lf : Nat) :
    Nat → Heap → List (Option NodeId) → List (Option NodeId) → Nat →
    Option (Heap × List (Option NodeId) × List (Option NodeId) × Nat)
  | 0, h, preds, succs, it => pure (h, preds, succs, it)
  | k+1, h, preds, succs, it => do
    let (h1, p1, s1, it1) ← linkLevels pos tbl T v newId fuel rf lf k h preds succs it
    linkLoop pos tbl T v newId (k+1) fuel rf lf h1 p1 s1 it1

/-- The `retry:`-labelled tail of `sl_add` (everything after the one-time
allocation of `new_n`), with fuel `arf` for the `goto retry` loop. -/
def sl_add_loop (pos : Int → ℚ) (tbl : List ShiftEntry) (T : Nat) (v : Int)
    (newId : NodeId) (lvl : Nat) (fuel rf : Nat) :
    Nat → Heap → List (Option NodeId) → List (Option NodeId) → Nat →
    Option (Int × Heap × Nat)
  | 0, _, _, _, _ => none
  | arf+1, h, preds, succs, it => do
    let out ← fraser_search pos tbl T v true true fuel rf h preds succs it
    let s0 ← (out.succs.get? 0).bind id
    let sn ← out.heap.get s0
    if sn.val = v then
      if sn.deleted then do
        let h2 ← mark_node_ptrs out.heap s0
        sl_add_loop pos tbl T v newId lvl fuel rf arf h2 out.preds out.succs out.iters
      else
        pure (0, (out.heap.free newId), out.iters)
    else do
      let h2 ← setNewNexts newId out.succs out.heap lvl
      let p0 ← (out.preds.get? 0).bind id
      let (ok, h3) ← h2.cas p0 0 (Ptr.mk (some s0) false) (Ptr.mk (some newId) false)
      if ok then do
        let (h4, _, _, it2) ← linkLevels pos tbl T v newId fuel rf fuel (lvl - 1) h3
            out.preds out.succs out.iters
        pure (1, h4, it2)
      else
        sl_add_loop pos tbl T v newId lvl fuel rf arf h3 out.preds out.succs out.iters

/-- `sl_add`: allocate `new_n` with the generated level `lvl` once, then
run the retry loop.  Fuel: `fuel` per pointer chase, `rf` per
search-retry, `arf` for the outer `goto retry`. -/
def sl_add (s : IntSet) (pos : Int → ℚ) (tbl : List ShiftEntry) (T : Nat)
    (v : Int) (lvl : Nat) (fuel rf arf : Nat) : Option (Int × IntSet × Nat) := do
  let (h1, newId) := s.heap.alloc (sl_new_simple_node v lvl)
  let (res, h2, it) ← sl_add_loop pos tbl T v newId lvl fuel rf arf h1
      (List.replicate levelmax none) (List.replicate levelmax none) 0
  pure (res, ⟨h2, s.head⟩, it)

/-- `sl_remove`: search; absent or already-deleted report 0; otherwise set
the deleted flag, mark the forward pointers, and run one more search (with
null lists) to trigger physical unlinking. -/
def sl_remove (s : IntSet) (pos : Int → ℚ) (tbl : List ShiftEntry)
    (T : Nat) (v : Int) (fuel rf : Nat) : Option (Int × IntSet × Nat) := do
  let out ← fraser_search pos tbl T v false true fuel rf s.heap
      (List.replicate levelmax none) (List.replicate levelmax none) 0
  let s0 ← (out.succs.get? 0).bind id
  let nd ← out.heap.get s0
  if nd.val = v then
    if nd.deleted then
      pure (0, ⟨out.heap, s.head⟩, out.iters)
    else do
      let h2 := out.heap.setNode s0 { nd with deleted := true }
      let h3 ← mark_node_ptrs h2 s0
      let out2 ← fraser_search pos tbl T v false false fuel rf h3
          (List.replicate levelmax none) (List.replicate levelmax none) out.iters
      pure (1, ⟨out2.heap, s.head⟩, out2.iters)
  else
    pure (0, ⟨out.heap, s.head⟩, out.iters)

/-- The inner scan of `seq_add` at level `i`:
`next = node->next[i]; while (next->val < val) { node = next; next = node->next[i]; }`,
returning the final `node`.  `seq_add` uses plain loads, so a marked or
null pointer dereference is undefined behaviour (`none`). -/
def seq_scan (h : Heap) (v : Int) (i : Nat) : NodeId → Nat → Option NodeId
  | _, 0 => none
  | node, fuel+1 => do
    let p ← h.nextAt node i
    if p.marked then none
    else
      match p.target with
      | none => none
      | some nxt => do
        let nd ← h.get nxt
        if nd.val < v then seq_scan h v i nxt fuel
        else pure node

/-- The level descent of `seq_add`, recording `preds[i]`/`succs[i]` for
`i = toplevel-1 … 0`. -/
def seq_levels (h : Heap) (v : Int) (fuel : Nat) :
    Nat → NodeId → List (Option NodeId) → List Ptr →
    Option (NodeId × List (Option NodeId) × List Ptr)
  | 0, node, preds, succs => pure (node, preds, succs)
  | i+1, node, preds, succs => do
    let node2 ← seq_scan h v i node fuel
    let nx ← h.nextAt node2 i
    seq_levels h v fuel i node2 (preds.set i (some node2)) (succs.set i nx)

/-- The splice loop of `seq_add`:
`for (i = 0; i < l; i++) { node->next[i] = succs[i]; preds[i]->next[i] = node; }`. -/
def seq_link (newId : NodeId) (preds : List (Option NodeId))
    (succs : List Ptr) : Heap → Nat → Option Heap
  | h, 0 => pure h
  | h, i+1 => do
    let h1 ← seq_link newId preds succs h i
    let sp ← succs.get? i
    let h2 ← h1.setNext newId i sp
    let pid ← (preds.get? i).bind id
    h2.setNext pid i (Ptr.mk (some newId) false)

/-- `seq_add`: the sequential bulk-load insert (plain pointer reads and
writes, no marking, no CAS).  `lvl` is the level `get_rand_level`
produced. -/
def seq_add (s : IntSet) (v : Int) (lvl : Nat) : Option (Int × IntSet) := do
  let hd ← s.heap.get s.head
  let (node, preds, succs) ← seq_levels s.heap v (s.heap.nodes.length + 1)
      hd.toplevel s.head (List.replicate levelmax none)
      (List.replicate levelmax Ptr.null)
  let p0 ← s.heap.nextAt node 0
  if p0.marked then none
  else
    match p0.target with
    | none => none
    | some t => do
      let nd ← s.heap.get t
      if nd.val ≠ v then do
        let (h1, newId) := s.heap.alloc (sl_new_simple_node v lvl)
        let h2 ← seq_link newId preds succs h1 lvl
        pure (1, ⟨h2, s.head⟩)
      else
        pure (0, s)

end MLSkip

/-! ## C10: node-construction slot bounds -/

namespace MLSkip

theorem writeSlots_length (p : Ptr) :
    ∀ (m : Nat) (slots s : List Ptr), writeSlots slots p m = some s →
      s.length = slots.length := by
  intro m
  induction m with
  | zero =>
    intro slots s hs
    simp [writeSlots] at hs
    simp [hs.symm]
  | succ i ih =>
    intro slots s hs
    simp only [writeSlots, Option.bind_eq_bind] at hs
    rcases h1 : writeSlots slots p i with _ | s1
    · rw [h1] at hs; simp at hs
    · rw [h1] at hs
      simp only [Option.some_bind] at hs
      by_cases hlt : i < s1.length
      · simp [hlt] at hs
        have := ih slots s1 h1
        simp [hs.symm, this]
      · simp [hlt] at hs

theorem writeSlots_isSome (p : Ptr) (slots : List Ptr) (m : Nat) :
    (writeSlots slots p m).isSome ↔ m ≤ slots.length := by
  induction m with
  | zero => simp [writeSlots]
  | succ i ih =>
    simp only [writeSlots, Option.bind_eq_bind]
    constructor
    · intro h
      rcases h1 : writeSlots slots p i with _ | s1
      · rw [h1] at h; simp at h
      · have hi : i ≤ slots.length := ih.mp (by simp [h1])
        rw [h1] at h
        simp only [Option.some_bind] at h
        by_cases hlt : i < s1.length
        · have := writeSlots_length p i slots s1 h1
          omega
        · simp [hlt] at h
    · intro h
      have hi : (writeSlots slots p i).isSome := ih.mpr (by omega)
      rcases h1 : writeSlots slots p i with _ | s1
      · rw [h1] at hi; simp at hi
      · have hlen := writeSlots_length p i slots s1 h1
        have hlt : i < s1.length := by omega
        simp [h1, hlt]

/-- C10: `sl_new_node` writes all `levelmax` forward slots while the
allocation of `sl_new_simple_node` provides only `toplevel` slots; under
the precondition `toplevel ≤ levelmax` every write is in bounds exactly
when `toplevel = levelmax`, and both sentinel constructions in
`sl_set_new` (which pass `toplevel = levelmax`) succeed. -/
theorem sl_new_node_bounds :
    (∀ (val : Int) (next : Ptr) (top : Nat), top ≤ levelmax →
      ((sl_new_node val next top).isSome ↔ top = levelmax)) ∧
    sl_set_new.isSome := by
  constructor
  · intro val next top htop
    have hlen : (sl_new_simple_node val top).next.length = top := by
      simp [sl_new_simple_node]
    have hiff := writeSlots_isSome next (sl_new_simple_node val top).next levelmax
    rw [hlen] at hiff
    have hmain : (sl_new_node val next top).isSome
        ↔ (writeSlots (sl_new_simple_node val top).next next levelmax).isSome := by
      unfold sl_new_node
      rcases hw : writeSlots (sl_new_simple_node val top).next next levelmax with _ | s
      · simp [hw]
      · simp [hw]
    rw [hmain, hiff]
    omega
  · decide

theorem sl_new_node_bounds_witness :
    ((sl_new_node 0 Ptr.null levelmax).isSome ↔ levelmax = levelmax) ∧
      sl_set_new.isSome :=
  ⟨sl_new_node_bounds.1 0 Ptr.null levelmax (Nat.le_refl _), sl_new_node_bounds.2⟩

end MLSkip

/-! ## C9: the list variant's `sl_add` ignores the shift table -/

namespace MLList

/-- The table-independent tail of `MLList.sl_add` (everything from the
unconditional `pred = set->head;` on). -/
def sl_add_tail (s : IntSet) (v : Int) : Option (Int × IntSet) := do
  let pred := s.head
  let hd ← s.heap.get pred
  let c0 ← hd.next
  let (pred, curr) ← scan s.heap v pred c0 (s.heap.nodes.length + 1)
  let c ← s.heap.get curr
  if c.val = v then
    if c.deleted then
      pure (1, ⟨s.heap.setNode curr { c with deleted := false }, s.head⟩)
    else
      pure (0, s)
  else do
    let (h1, newId) := s.heap.alloc ⟨v, false, some curr⟩
    let p ← h1.get pred
    pure (1, ⟨h1.setNode pred { p with next := some newId }, s.head⟩)

theorem sl_add_eq_tail (s : IntSet) (tbl : List ShiftEntry) (pos : Int → ℚ)
    (T : Nat) (v : Int) (h : (sl_add s tbl pos T v).isSome) :
    sl_add s tbl pos T v = sl_add_tail s v := by
  simp only [sl_add] at h ⊢
  rcases h0 : entryNode tbl (bucketOf pos T v) with _ | p0
  · rw [h0] at h; simp at h
  · rw [h0] at h
    simp only [Option.bind_eq_bind, Option.some_bind] at h ⊢
    rcases h1 : shortcut s.heap tbl v p0 (bucketOf pos T v) with _ | w
    · rw [h1] at h; simp at h
    · simp only [Option.some_bind]
      rfl

/-- C9: the list variant's `sl_add` is noninterferent with respect to the
shift table and estimator: two completing runs on the same list state and
value, with arbitrary table contents, table sizes and estimators, return
the same result and produce the same resulting list. -/
theorem sl_add_noninterference (s : IntSet) (t1 t2 : List ShiftEntry)
    (p1 p2 : Int → ℚ) (T1 T2 : Nat) (v : Int)
    (h1 : (sl_add s t1 p1 T1 v).isSome) (h2 : (sl_add s t2 p2 T2 v).isSome) :
    sl_add s t1 p1 T1 v = sl_add s t2 p2 T2 v := by
  rw [sl_add_eq_tail s t1 p1 T1 v h1, sl_add_eq_tail s t2 p2 T2 v h2]

theorem sl_add_noninterference_witness :
    sl_add sl_set_new [⟨1, 0, some 1⟩] (fun _ => 0) 1 5
      = sl_add sl_set_new [⟨1, 0, some 0⟩, ⟨1, 0, some 0⟩] (fun _ => 0) 2 5 :=
  sl_add_noninterference sl_set_new _ _ _ _ 1 2 5 (by decide) (by decide)

end MLList

/-! ## Shift-table build: C4 (order refinement) and C8 (fill bounds) -/

theorem isSome_get {α : Type _} (l : List α) (i : Nat) :
    (l.get? i).isSome ↔ i < l.length := by
  constructor
  · intro h
    by_contra hc
    push_neg at hc
    rw [List.get?_eq_none.mpr hc] at h
    simp at h
  · intro h
    by_contra hc
    rw [Option.not_isSome_iff_eq_none, List.get?_eq_none] at hc
    omega

theorem bucketOf_lt (pos : Int → ℚ) (T : Nat) (v : Int) (hT : 2 ≤ T)
    (h0 : 0 ≤ pos v) (h1 : pos v < 1) : bucketOf pos T v < T - 1 := by
  have hnum : 0 ≤ (pos v).num := Rat.num_nonneg.mpr h0
  have hden : (0 : Int) < ((pos v).den : Int) := by
    exact_mod_cast (pos v).den_pos
  have hlt : (pos v).num < ((pos v).den : Int) :=
    Rat.lt_one_iff_num_lt_denom.mp h1
  have hT1 : (0 : Int) < (T : Int) - 1 := by
    have : (2 : Int) ≤ (T : Int) := by exact_mod_cast hT
    omega
  have hq0 : 0 ≤ (pos v).num * ((T : Int) - 1) := mul_nonneg hnum (le_of_lt hT1)
  have heq : ((pos v).num * ((T : Int) - 1)).tdiv ((pos v).den : Int)
      = ((pos v).num * ((T : Int) - 1)) / ((pos v).den : Int) :=
    Int.tdiv_eq_ediv hq0 (le_of_lt hden)
  have hdiv : ((pos v).num * ((T : Int) - 1)) / ((pos v).den : Int) < (T : Int) - 1 := by
    rw [Int.ediv_lt_iff_lt_mul hden]
    calc (pos v).num * ((T : Int) - 1)
        < ((pos v).den : Int) * ((T : Int) - 1) := by
          exact mul_lt_mul_of_pos_right hlt hT1
      _ = ((T : Int) - 1) * ((pos v).den : Int) := mul_comm _ _
  unfold bucketOf
  rw [heq]
  omega

namespace MLSkip

theorem populateWalk_length (h : Heap) (pos : Int → ℚ) (T : Nat) :
    ∀ (fuel : Nat) (node j : NodeId) (tbl out : List ShiftEntry) (lst : NodeId),
      populateWalk h pos T fuel node j tbl = some (out, lst) →
      out.length = tbl.length := by
  intro fuel
  induction fuel with
  | zero => intro node j tbl out lst hw; simp [populateWalk] at hw
  | succ f ih =>
    intro node j tbl out lst hw
    rw [populateWalk] at hw
    rcases hp : h.nextAt node 0 with _ | p <;> rw [hp] at hw
    · simp at hw
    · simp only [Option.bind_eq_bind, Option.some_bind] at hw
      by_cases hm : p.marked = true
      · rw [if_pos hm] at hw; simp at hw
      · rw [if_neg hm] at hw
        rcases ht : p.target with _ | nxt <;> rw [ht] at hw
        · simp at hw
        · simp only at hw
          rcases hn : h.get nxt with _ | nn <;> rw [hn] at hw
          · simp at hw
          · simp only [Option.bind_eq_bind, Option.some_bind] at hw
            rcases hq : nn.next.get? 0 with _ | q <;> rw [hq] at hw
            · simp at hw
            · simp only [Option.bind_eq_bind, Option.some_bind] at hw
              by_cases hnull : q = Ptr.null
              · rw [if_pos hnull] at hw
                simp at hw
                rw [← hw.1]
              · rw [if_neg hnull] at hw
                rcases he : tbl.get? (bucketOf pos T nn.val) with _ | e <;> rw [he] at hw
                · simp at hw
                · simp only [Option.bind_eq_bind, Option.some_bind] at hw
                  have := ih nxt (j+1) _ out lst hw
                  rw [this, List.length_set]

theorem populateWalk_set_high (h : Heap) (pos : Int → ℚ) (T : Nat)
    (hpos : ∀ x, 0 ≤ pos x ∧ pos x < 1) (hT : 2 ≤ T) (e : ShiftEntry) :
    ∀ (fuel : Nat) (node j : NodeId) (tbl : List ShiftEntry),
      populateWalk h pos T fuel node j (tbl.set (T-1) e)
        = (populateWalk h pos T fuel node j tbl).map (fun r => (r.1.set (T-1) e, r.2)) := by
  intro fuel
  induction fuel with
  | zero => intro node j tbl; simp [populateWalk]
  | succ f ih =>
    intro node j tbl
    rw [populateWalk, populateWalk]
    rcases hp : h.nextAt node 0 with _ | p
    · simp
    · simp only [Option.bind_eq_bind, Option.some_bind]
      by_cases hm : p.marked = true
      · rw [if_pos hm, if_pos hm]; simp
      · rw [if_neg hm, if_neg hm]
        rcases ht : p.target with _ | nxt
        · simp
        · simp only
          rcases hn : h.get nxt with _ | nn
          · simp
          · simp only [Option.bind_eq_bind, Option.some_bind]
            rcases hq : nn.next.get? 0 with _ | q
            · simp
            · simp only [Option.bind_eq_bind, Option.some_bind]
              by_cases hnull : q = Ptr.null
              · rw [if_pos hnull, if_pos hnull]; simp
              · rw [if_neg hnull, if_neg hnull]
                have hk : T - 1 ≠ bucketOf pos T nn.val := by
                  have := bucketOf_lt pos T nn.val hT (hpos nn.val).1 (hpos nn.val).2
                  omega
                rw [List.get?_set_ne e tbl hk]
                rcases he : tbl.get? (bucketOf pos T nn.val) with _ | en
                · simp
                · simp only [Option.bind_eq_bind, Option.some_bind]
                  rw [List.set_comm _ _ _ hk, ih]

theorem populateWalk_snd_congr (h : Heap) (pos : Int → ℚ) (T : Nat) :
    ∀ (fuel : Nat) (node j : NodeId) (t1 t2 : List ShiftEntry),
      t1.length = t2.length →
      (populateWalk h pos T fuel node j t1).map Prod.snd
        = (populateWalk h pos T fuel node j t2).map Prod.snd := by
  intro fuel
  induction fuel with
  | zero => intro node j t1 t2 _; simp [populateWalk]
  | succ f ih =>
    intro node j t1 t2 hlen
    rw [populateWalk, populateWalk]
    rcases hp : h.nextAt node 0 with _ | p
    · simp
    · simp only [Option.bind_eq_bind, Option.some_bind]
      by_cases hm : p.marked = true
      · rw [if_pos hm, if_pos hm]
      · rw [if_neg hm, if_neg hm]
        rcases ht : p.target with _ | nxt
        · simp
        · simp only
          rcases hn : h.get nxt with _ | nn
          · simp
          · simp only [Option.bind_eq_bind, Option.some_bind]
            rcases hq : nn.next.get? 0 with _ | q
            · simp
            · simp only [Option.bind_eq_bind, Option.some_bind]
              by_cases hnull : q = Ptr.null
              · rw [if_pos hnull, if_pos hnull]; simp
              · rw [if_neg hnull, if_neg hnull]
                rcases he1 : t1.get? (bucketOf pos T nn.val) with _ | e1
                · have he2 : t2.get? (bucketOf pos T nn.val) = none := by
                    rw [List.get?_eq_none] at he1 ⊢
                    omega
                  rw [he2]
                  rfl
                · have hlt : bucketOf pos T nn.val < t2.length := by
                    have h1 : (t1.get? (bucketOf pos T nn.val)).isSome := by rw [he1]; rfl
                    rw [isSome_get] at h1
                    omega
                  have h2 : (t2.get? (bucketOf pos T nn.val)).isSome := (isSome_get _ _).mpr hlt
                  rcases he2 : t2.get? (bucketOf pos T nn.val) with _ | e2
                  · rw [he2] at h2; simp at h2
                  · simp only [Option.bind_eq_bind, Option.some_bind]
                    apply ih
                    rw [List.length_set, List.length_set]
                    exact hlen

end MLSkip

namespace MLSkip

theorem backfillStep_length : ∀ (tbl out : List ShiftEntry) (j : Nat),
    backfillStep tbl j = some out → out.length = tbl.length := by
  intro tbl out j h
  simp only [backfillStep, Option.bind_eq_bind] at h
  rcases he : tbl.get? j with _ | e <;> rw [he] at h
  · simp at h
  · simp only [Option.some_bind] at h
    by_cases hc : e.count = 0
    · rw [if_pos hc] at h
      rcases hr : tbl.get? (j+1) with _ | r <;> rw [hr] at h
      · simp at h
      · simp at h
        rw [← h, List.length_set]
    · rw [if_neg hc] at h
      simp at h
      rw [← h]

theorem backfillStep_isSome_of_lt (tbl : List ShiftEntry) (j : Nat)
    (hj : j + 1 < tbl.length) : (backfillStep tbl j).isSome := by
  have h0 : (tbl.get? j).isSome := (isSome_get _ _).mpr (by omega)
  rcases he : tbl.get? j with _ | e
  · rw [he] at h0; simp at h0
  · simp only [backfillStep, Option.bind_eq_bind, he, Option.some_bind]
    by_cases hc : e.count = 0
    · rw [if_pos hc]
      have h1 : (tbl.get? (j+1)).isSome := (isSome_get _ _).mpr hj
      rcases hr : tbl.get? (j+1) with _ | r
      · rw [hr] at h1; simp at h1
      · simp
    · rw [if_neg hc]; simp

theorem backfillStep_nonzero (tbl : List ShiftEntry) (j : Nat) (e : ShiftEntry)
    (he : tbl.get? j = some e) (hc : ¬ e.count = 0) :
    backfillStep tbl j = some tbl := by
  simp only [backfillStep, Option.bind_eq_bind, he, Option.some_bind, if_neg hc]
  rfl

theorem backfillFrom_isSome_of_lt :
    ∀ (j : Nat) (tbl : List ShiftEntry), j + 1 < tbl.length →
      (backfillFrom tbl j).isSome := by
  intro j
  induction j with
  | zero =>
    intro tbl hj
    rw [backfillFrom]
    exact backfillStep_isSome_of_lt tbl 0 hj
  | succ i ih =>
    intro tbl hj
    rw [backfillFrom]
    have hs := backfillStep_isSome_of_lt tbl (i+1) hj
    rcases hstep : backfillStep tbl (i+1) with _ | t1
    · rw [hstep] at hs; simp at hs
    · simp only [Option.bind_eq_bind, Option.some_bind]
      have hlen := backfillStep_length tbl t1 (i+1) hstep
      exact ih t1 (by omega)

theorem backfillFrom_isSome_top (tbl : List ShiftEntry) (T : Nat) (hT : 1 ≤ T)
    (hlen : tbl.length = T) (e : ShiftEntry) (he : tbl.get? (T-1) = some e)
    (hc : ¬ e.count = 0) : (backfillFrom tbl (T-1)).isSome := by
  rcases T with _ | T2
  · omega
  · rcases T2 with _ | T3
    · rw [backfillFrom, backfillStep_nonzero tbl 0 e (by simpa using he) hc]
      rfl
    · have hT1 : T3 + 2 - 1 = T3 + 1 := by omega
      rw [hT1] at he ⊢
      rw [backfillFrom, backfillStep_nonzero tbl (T3+1) e he hc]
      simp only [Option.bind_eq_bind, Option.some_bind]
      exact backfillFrom_isSome_of_lt T3 tbl (by omega)

/-- C8: the backward fill of `populate_shift_table` stays inside the table:
its only potentially out-of-bounds read (`shift_table[j+1]` at
`j = table_size-1`) sits in the `count == 0` branch, which is unreachable
there because the tail sentinel was just stored at bucket `table_size-1`
with `count = 1`.  Hence the build succeeds exactly when everything before
the fill does: the fill itself never fails an access. -/
theorem populate_fill_in_bounds (s : IntSet) (pos : Int → ℚ) (T : Nat)
    (tbl : List ShiftEntry) (hT : 1 ≤ T) (hlen : tbl.length = T) :
    (populate_shift_table s pos T tbl).isSome ↔
      (do
        let tbl0 ← setE tbl 0 ⟨1, 0, some s.head⟩
        let wk ← populateWalk s.heap pos T (s.heap.nodes.length + 1) s.head 0 tbl0
        let p ← s.heap.nextAt wk.2 0
        p.target).isSome := by
  simp only [populate_shift_table, Option.bind_eq_bind]
  rcases h0 : setE tbl 0 ⟨1, 0, some s.head⟩ with _ | tbl0
  · simp
  · simp only [Option.some_bind]
    rcases hw : populateWalk s.heap pos T (s.heap.nodes.length + 1) s.head 0 tbl0
        with _ | wk
    · simp
    · simp only [Option.some_bind]
      rcases hp : s.heap.nextAt wk.2 0 with _ | p
      · simp
      · simp only [Option.some_bind]
        rcases ht : p.target with _ | tailId
        · simp
        · simp only
          have hlen0 : tbl0.length = T := by
            have : tbl0 = tbl.set 0 ⟨1, 0, some s.head⟩ := by
              simp only [setE] at h0
              by_cases hc : 0 < tbl.length
              · rw [if_pos hc] at h0; exact (Option.some_inj.mp h0).symm
              · rw [if_neg hc] at h0; exact Option.noConfusion h0
            rw [this, List.length_set, hlen]
          have hlen1 : wk.1.length = T := by
            obtain ⟨t1, lst⟩ := wk
            have := populateWalk_length s.heap pos T (s.heap.nodes.length + 1)
              s.head 0 tbl0 t1 lst hw
            simp at this ⊢
            omega
          have hset : setE wk.1 (T-1) ⟨1, 0, some tailId⟩
              = some (wk.1.set (T-1) ⟨1, 0, some tailId⟩) := by
            simp only [setE]
            rw [if_pos (by omega)]
          rw [hset]
          simp only [Option.some_bind]
          have hget : (wk.1.set (T-1) ⟨1, 0, some tailId⟩).get? (T-1)
              = some ⟨1, 0, some tailId⟩ := by
            rw [List.get?_set_eq_of_lt]
            omega
          have := backfillFrom_isSome_top (wk.1.set (T-1) ⟨1, 0, some tailId⟩) T hT
            (by rw [List.length_set]; exact hlen1) ⟨1, 0, some tailId⟩ hget (by simp)
          simp [this]

end MLSkip

namespace MLSkip

/-- C4: `populate_shift_table` (which seeds bucket `T-1` only after the
chain walk) computes the same table as the spec §4.3 reference algorithm
in its stated step order (both seeds first, then the walk, then the
backward fill), for any table of size `T ≥ 2` and any monotone estimator
with values in `[0,1)`: the walk can only touch buckets `0 … T-2`, so the
two seeding orders commute. -/
theorem populate_refines_spec (s : IntSet) (pos : Int → ℚ) (T : Nat)
    (tbl : List ShiftEntry) (hT : 2 ≤ T) (hlen : tbl.length = T)
    (hpos : ∀ x, 0 ≤ pos x ∧ pos x < 1) (hmono : Monotone pos) :
    populate_shift_table s pos T tbl = spec_shift_table s pos T tbl := by
  have h0 : setE tbl 0 ⟨1, 0, some s.head⟩
      = some (tbl.set 0 ⟨1, 0, some s.head⟩) := by
    simp only [setE]
    rw [if_pos (by omega)]
  have hcongr := populateWalk_snd_congr s.heap pos T (s.heap.nodes.length + 1)
    s.head 0 (tbl.set 0 ⟨1, 0, some s.head⟩) tbl (by rw [List.length_set])
  simp only [populate_shift_table, spec_shift_table, Option.bind_eq_bind, h0,
    Option.some_bind]
  rcases hw : populateWalk s.heap pos T (s.heap.nodes.length + 1) s.head 0
      (tbl.set 0 ⟨1, 0, some s.head⟩) with _ | wk
  · rcases hw2 : populateWalk s.heap pos T (s.heap.nodes.length + 1) s.head 0 tbl
        with _ | wk2
    · rfl
    · rw [hw, hw2] at hcongr; simp at hcongr
  · rcases hw2 : populateWalk s.heap pos T (s.heap.nodes.length + 1) s.head 0 tbl
        with _ | wk2
    · rw [hw, hw2] at hcongr; simp at hcongr
    · rw [hw, hw2] at hcongr
      have hsnd : wk.2 = wk2.2 := Option.some_inj.mp hcongr
      simp only [Option.some_bind, ← hsnd]
      rcases hp : s.heap.nextAt wk.2 0 with _ | p
      · rfl
      · simp only [Option.some_bind]
        rcases ht : p.target with _ | tailId
        · rfl
        · simp only
          have hlen1 : wk.1.length = T := by
            obtain ⟨t1, lst⟩ := wk
            have := populateWalk_length s.heap pos T (s.heap.nodes.length + 1)
              s.head 0 (tbl.set 0 ⟨1, 0, some s.head⟩) t1 lst hw
            simp only at this
            rw [this, List.length_set, hlen]
          have hset1 : setE wk.1 (T-1) ⟨1, 0, some tailId⟩
              = some (wk.1.set (T-1) ⟨1, 0, some tailId⟩) := by
            simp only [setE]
            rw [if_pos (by omega)]
          have hset2 : setE (tbl.set 0 ⟨1, 0, some s.head⟩) (T-1) ⟨1, 0, some tailId⟩
              = some ((tbl.set 0 ⟨1, 0, some s.head⟩).set (T-1) ⟨1, 0, some tailId⟩) := by
            simp only [setE]
            rw [if_pos (by rw [List.length_set]; omega)]
          rw [hset1, hset2]
          simp only [Option.some_bind]
          have hhigh := populateWalk_set_high s.heap pos T hpos hT
            ⟨1, 0, some tailId⟩ (s.heap.nodes.length + 1) s.head 0
            (tbl.set 0 ⟨1, 0, some s.head⟩)
          rw [hw] at hhigh
          rw [show (Option.map (fun r => (r.1.set (T-1) (⟨1, 0, some tailId⟩ : ShiftEntry), r.2)) (some wk))
              = some (wk.1.set (T-1) ⟨1, 0, some tailId⟩, wk.2) from rfl] at hhigh
          rw [hhigh]
          simp only [Option.some_bind]

end MLSkip

namespace MLSkip

theorem populate_refines_spec_witness :
    populate_shift_table (sl_set_new.getD ⟨⟨[]⟩, 0⟩) (fun _ => 0) 2 (new_shift_table 2)
      = spec_shift_table (sl_set_new.getD ⟨⟨[]⟩, 0⟩) (fun _ => 0) 2 (new_shift_table 2) :=
  populate_refines_spec _ _ 2 _ (by norm_num) (by decide)
    (fun _ => ⟨by norm_num, by norm_num⟩) monotone_const

theorem populate_fill_in_bounds_witness :
    (populate_shift_table (sl_set_new.getD ⟨⟨[]⟩, 0⟩) (fun _ => 0) 2
        (new_shift_table 2)).isSome ↔
      (do
        let tbl0 ← setE (new_shift_table 2) 0
          ⟨1, 0, some (sl_set_new.getD ⟨⟨[]⟩, 0⟩).head⟩
        let wk ← populateWalk (sl_set_new.getD ⟨⟨[]⟩, 0⟩).heap (fun _ => 0) 2
          ((sl_set_new.getD ⟨⟨[]⟩, 0⟩).heap.nodes.length + 1)
          (sl_set_new.getD ⟨⟨[]⟩, 0⟩).head 0 tbl0
        let p ← (sl_set_new.getD ⟨⟨[]⟩, 0⟩).heap.nextAt wk.2 0
        p.target).isSome :=
  populate_fill_in_bounds _ _ 2 _ (by norm_num) (by decide)

end MLSkip

/-! ## C5: every bucket of a built table resolves to a chain node -/

namespace MLSkip

/-- A run of consecutive unmarked links at level `i`: from `a`, slot `i`
points (unmarked) to the first element of `xs`, and so on. -/
inductive Seg (h : Heap) (i : Nat) : NodeId → List NodeId → Prop where
  | nil : ∀ a, Seg h i a []
  | cons : ∀ a b xs, h.nextAt a i = some (Ptr.mk (some b) false) →
      Seg h i b xs → Seg h i a (b :: xs)

/-- Invariant of the table during the build walk: counts are non-negative,
a touched bucket's node is one of the allowed nodes, an untouched bucket
still has its initial `INT_MAX` delta. -/
def Qinv (A : List NodeId) (tbl : List ShiftEntry) : Prop :=
  ∀ i e, tbl.get? i = some e →
    0 ≤ e.count ∧ (e.count ≠ 0 → ∃ n, e.node = some n ∧ n ∈ A) ∧
    (e.count = 0 → e.delta = INT_MAX)

theorem Qinv_mono (A B : List NodeId) (tbl : List ShiftEntry)
    (hAB : ∀ x, x ∈ A → x ∈ B) (hq : Qinv A tbl) : Qinv B tbl := by
  intro i e he
  obtain ⟨h1, h2, h3⟩ := hq i e he
  refine ⟨h1, ?_, h3⟩
  intro hc
  obtain ⟨n, hn, hnA⟩ := h2 hc
  exact ⟨n, hn, hAB n hnA⟩

theorem populateWalk_spec (h : Heap) (pos : Int → ℚ) (T : Nat) (tl : NodeId)
    (hT : 2 ≤ T) (hpos : ∀ x, 0 ≤ pos x ∧ pos x < 1)
    (htl : h.nextAt tl 0 = some Ptr.null) :
    ∀ (xs : List NodeId) (a : NodeId) (j : Nat) (tbl : List ShiftEntry)
      (fuel : Nat) (A : List NodeId),
      Seg h 0 a xs →
      h.nextAt (xs.getLastD a) 0 = some (Ptr.mk (some tl) false) →
      xs.length + 1 ≤ fuel →
      (j : Int) + xs.length ≤ INT_MAX →
      tbl.length = T →
      Qinv A tbl →
      ∃ tbl2, populateWalk h pos T fuel a j tbl = some (tbl2, xs.getLastD a)
        ∧ tbl2.length = T ∧ Qinv (A ++ xs) tbl2 := by
  intro xs
  induction xs with
  | nil =>
    intro a j tbl fuel A hseg hlast hfuel hjmax hlen hq
    rcases fuel with _ | f
    · omega
    · simp only [List.getLastD] at hlast ⊢
      have hget : ∃ nt, h.get tl = some nt ∧ nt.next.get? 0 = some Ptr.null := by
        simp only [Heap.nextAt, Option.bind_eq_bind] at htl
        rcases hg : h.get tl with _ | nt
        · rw [hg] at htl; simp at htl
        · rw [hg] at htl
          simp only [Option.some_bind] at htl
          exact ⟨nt, rfl, htl⟩
      obtain ⟨nt, hgt, hq0⟩ := hget
      refine ⟨tbl, ?_, hlen, by simpa using hq⟩
      rw [populateWalk]
      rw [hlast]
      simp only [Option.bind_eq_bind, Option.some_bind]
      rw [if_neg (by simp [Ptr.mk.injEq])]
      simp only [hgt, Option.some_bind, hq0]
      simp
  | cons b rest ih =>
    intro a j tbl fuel A hseg hlast hfuel hjmax hlen hq
    rcases fuel with _ | f
    · simp at hfuel
    · cases hseg with
      | cons _ _ _ hab hrest =>
        have hgetb : ∃ nb, h.get b = some nb := by
          cases hrest with
          | nil =>
            have hl : h.nextAt b 0 = some (Ptr.mk (some tl) false) := by
              simpa [List.getLastD] using hlast
            simp only [Heap.nextAt, Option.bind_eq_bind] at hl
            rcases hg : h.get b with _ | nb
            · rw [hg] at hl; simp at hl
            · exact ⟨nb, rfl⟩
          | cons _ c rest2 hbc _ =>
            simp only [Heap.nextAt, Option.bind_eq_bind] at hbc
            rcases hg : h.get b with _ | nb
            · rw [hg] at hbc; simp at hbc
            · exact ⟨nb, rfl⟩
        obtain ⟨nb, hgb⟩ := hgetb
        have hqb : ∃ qb, nb.next.get? 0 = some qb ∧ qb.marked = false ∧
            (qb.target).isSome := by
          cases hrest with
          | nil =>
            have hl : h.nextAt b 0 = some (Ptr.mk (some tl) false) := by
              simpa [List.getLastD] using hlast
            simp only [Heap.nextAt, Option.bind_eq_bind, hgb, Option.some_bind] at hl
            exact ⟨_, hl, rfl, rfl⟩
          | cons _ c rest2 hbc _ =>
            simp only [Heap.nextAt, Option.bind_eq_bind, hgb, Option.some_bind] at hbc
            exact ⟨_, hbc, rfl, rfl⟩
        obtain ⟨qb, hnq, hqm, hqt⟩ := hqb
        have hk := bucketOf_lt pos T nb.val hT (hpos nb.val).1 (hpos nb.val).2
        have hkT : bucketOf pos T nb.val < tbl.length := by omega
        have hgete : ∃ e, tbl.get? (bucketOf pos T nb.val) = some e :=
          Option.isSome_iff_exists.mp ((isSome_get _ _).mpr hkT)
        obtain ⟨e, he⟩ := hgete
        obtain ⟨hc0, hcA, hcd⟩ := hq _ _ he
        -- the update step
        set k := bucketOf pos T nb.val with hkdef
        set delta : Int := (j : Int) - (k : Int) with hddef
        set upd := if delta ≤ e.delta then
            { e with delta := delta, node := some b } else e with hupd
        set e3 : ShiftEntry := ⟨upd.count + 1, upd.delta, upd.node⟩ with he3
        have hq2 : Qinv (A ++ [b]) (tbl.set k e3) := by
          intro i ei hei
          by_cases hik : i = k
          · subst hik
            have hsetk : (tbl.set k e3).get? k = some e3 := by
              rw [List.get?_set_eq_of_lt]
              omega
            rw [hsetk] at hei
            have hei2 : ei = e3 := by
              exact (Option.some_inj.mp hei).symm
            subst hei2
            refine ⟨?_, ?_, ?_⟩
            · simp only [he3, hupd]
              by_cases hd : delta ≤ e.delta <;> simp [hd] <;> omega
            · intro _
              simp only [he3, hupd]
              by_cases hd : delta ≤ e.delta
              · refine ⟨b, by simp [hd], by simp⟩
              · have hcne : ¬ e.count = 0 := by
                  intro hc
                  rw [hcd hc] at hd
                  have hdle : delta ≤ INT_MAX := by
                    rw [hddef]
                    omega
                  exact hd hdle
                obtain ⟨n, hn, hnA⟩ := hcA hcne
                refine ⟨n, by simp [hd, hn], by simp [hnA]⟩
            · intro hc
              exfalso
              have hcnt : upd.count = e.count := by
                rw [hupd]
                by_cases hd : delta ≤ e.delta <;> simp [hd]
              simp only [he3] at hc
              rw [hcnt] at hc
              omega
          · rw [List.get?_set_ne _ _ (fun hh => hik hh.symm)] at hei
            obtain ⟨g1, g2, g3⟩ := hq i ei hei
            refine ⟨g1, ?_, g3⟩
            intro hcc
            obtain ⟨n, hn, hnA⟩ := g2 hcc
            exact ⟨n, hn, by simp [hnA]⟩
        have hlast2 : h.nextAt (rest.getLastD b) 0 = some (Ptr.mk (some tl) false) := by
          cases rest with
          | nil => simpa [List.getLastD] using hlast
          | cons c cs => simpa [List.getLastD] using hlast
        obtain ⟨tbl2, hw, hlen2, hq3⟩ := ih b (j+1) (tbl.set k e3) f (A ++ [b])
          hrest hlast2 (by simp at hfuel ⊢; omega)
          (by simp at hjmax ⊢; omega)
          (by rw [List.length_set]; exact hlen) hq2
        refine ⟨tbl2, ?_, hlen2, ?_⟩
        · rw [populateWalk]
          rw [hab]
          simp only [Option.bind_eq_bind, Option.some_bind]
          rw [if_neg (by simp [Ptr.mk.injEq])]
          simp only [hgb, Option.some_bind, hnq]
          rw [if_neg (by
            intro hqnull
            rw [hqnull] at hqt
            simp [Ptr.null] at hqt)]
          rw [← hkdef, he]
          simp only [Option.some_bind]
          have hlist : rest.getLastD b = (b :: rest).getLastD a := by
            cases rest with
            | nil => simp [List.getLastD]
            | cons c cs => simp [List.getLastD]
          rw [← hlist, ← hddef, ← hupd, ← he3]
          exact hw
        · have hEq : (A ++ [b]) ++ rest = A ++ b :: rest := by
            rw [List.append_assoc]
            rfl
          rw [← hEq]
          exact hq3

end MLSkip

namespace MLSkip

theorem backfill_good : ∀ (j : Nat) (t : List ShiftEntry) (A : List NodeId),
    j < t.length →
    (∀ i e, t.get? i = some e → ¬ e.count = 0 → ∃ n, e.node = some n ∧ n ∈ A) →
    ((∃ e, t.get? j = some e ∧ ¬ e.count = 0) ∨
      (∃ e n, t.get? (j+1) = some e ∧ ¬ e.count = 0 ∧ e.node = some n ∧ n ∈ A)) →
    ∃ t2, backfillFrom t j = some t2 ∧ t2.length = t.length ∧
      (∀ i, i ≤ j → ∃ e n, t2.get? i = some e ∧ ¬ e.count = 0 ∧
        e.node = some n ∧ n ∈ A) ∧
      (∀ i, j < i → t2.get? i = t.get? i) := by
  intro j
  induction j with
  | zero =>
    intro t A hj hq hstart
    obtain ⟨e0, he0⟩ := Option.isSome_iff_exists.mp ((isSome_get _ _).mpr hj)
    by_cases hc : e0.count = 0
    · rcases hstart with ⟨e, he, hne⟩ | ⟨e1, n1, he1, hc1, hn1, hA1⟩
      · rw [he] at he0
        exact absurd (by rw [Option.some_inj.mp he0]; exact hc) hne
      · refine ⟨t.set 0 ⟨e1.count, e1.delta + 1, e1.node⟩, ?_, ?_, ?_, ?_⟩
        · rw [backfillFrom]
          simp only [backfillStep, Option.bind_eq_bind, he0, Option.some_bind,
            if_pos hc, he1, Option.some_bind]
          rfl
        · rw [List.length_set]
        · intro i hi
          have hi0 : i = 0 := by omega
          subst hi0
          have : (t.set 0 (⟨e1.count, e1.delta + 1, e1.node⟩ : ShiftEntry)).get? 0
              = some ⟨e1.count, e1.delta + 1, e1.node⟩ := by
            rw [List.get?_set_eq_of_lt]
            omega
          exact ⟨_, n1, this, hc1, hn1, hA1⟩
        · intro i hi
          exact List.get?_set_ne _ _ (by omega)
    · refine ⟨t, ?_, rfl, ?_, fun i _ => rfl⟩
      · rw [backfillFrom]
        exact backfillStep_nonzero t 0 e0 he0 hc
      · intro i hi
        have hi0 : i = 0 := by omega
        subst hi0
        obtain ⟨n, hn, hA⟩ := hq 0 e0 he0 hc
        exact ⟨e0, n, he0, hc, hn, hA⟩
  | succ j ih =>
    intro t A hj hq hstart
    obtain ⟨e0, he0⟩ := Option.isSome_iff_exists.mp ((isSome_get _ _).mpr hj)
    by_cases hc : e0.count = 0
    · rcases hstart with ⟨e, he, hne⟩ | ⟨e1, n1, he1, hc1, hn1, hA1⟩
      · rw [he] at he0
        exact absurd (by rw [Option.some_inj.mp he0]; exact hc) hne
      · -- copy from j+2 into j+1, then recurse
        have hstep : backfillStep t (j+1)
            = some (t.set (j+1) ⟨e1.count, e1.delta + 1, e1.node⟩) := by
          simp only [backfillStep, Option.bind_eq_bind, he0, Option.some_bind,
            if_pos hc, he1, Option.some_bind]
          rfl
        have hlen1 : (t.set (j+1) (⟨e1.count, e1.delta + 1, e1.node⟩ : ShiftEntry)).length
            = t.length := by rw [List.length_set]
        have hget1 : (t.set (j+1) (⟨e1.count, e1.delta + 1, e1.node⟩ : ShiftEntry)).get? (j+1)
            = some ⟨e1.count, e1.delta + 1, e1.node⟩ := by
          rw [List.get?_set_eq_of_lt]
          omega
        have hq1 : ∀ i e, (t.set (j+1) (⟨e1.count, e1.delta + 1, e1.node⟩ : ShiftEntry)).get? i
            = some e → ¬ e.count = 0 → ∃ n, e.node = some n ∧ n ∈ A := by
          intro i e he hne
          by_cases hij : i = j + 1
          · subst hij
            rw [hget1] at he
            rw [← Option.some_inj.mp he]
            exact ⟨n1, hn1, hA1⟩
          · rw [List.get?_set_ne _ _ (fun hh => hij hh.symm)] at he
            exact hq i e he hne
        obtain ⟨t2, hbf, hlen2, hgood, hunch⟩ := ih
          (t.set (j+1) ⟨e1.count, e1.delta + 1, e1.node⟩) A (by omega) hq1
          (Or.inr ⟨⟨e1.count, e1.delta + 1, e1.node⟩, n1, hget1, hc1, hn1, hA1⟩)
        refine ⟨t2, ?_, by omega, ?_, ?_⟩
        · rw [backfillFrom, hstep]
          simp only [Option.bind_eq_bind, Option.some_bind]
          exact hbf
        · intro i hi
          by_cases hij : i ≤ j
          · exact hgood i hij
          · have : i = j + 1 := by omega
            subst this
            rw [hunch (j+1) (by omega), hget1]
            exact ⟨_, n1, rfl, hc1, hn1, hA1⟩
        · intro i hi
          rw [hunch i (by omega), List.get?_set_ne _ _ (by omega)]
    · have hstep : backfillStep t (j+1) = some t := backfillStep_nonzero t (j+1) e0 he0 hc
      obtain ⟨n0, hn0, hA0⟩ := hq (j+1) e0 he0 hc
      obtain ⟨t2, hbf, hlen2, hgood, hunch⟩ := ih t A (by omega) hq
        (Or.inr ⟨e0, n0, he0, hc, hn0, hA0⟩)
      refine ⟨t2, ?_, hlen2, ?_, ?_⟩
      · rw [backfillFrom, hstep]
        simp only [Option.bind_eq_bind, Option.some_bind]
        exact hbf
      · intro i hi
        by_cases hij : i ≤ j
        · exact hgood i hij
        · have : i = j + 1 := by omega
          subst this
          rw [hunch (j+1) (by omega), he0]
          exact ⟨e0, n0, rfl, hc, hn0, hA0⟩
      · intro i hi
        exact hunch i (by omega)

end MLSkip

namespace MLSkip

/-- Every bucket of a built table resolves to a chain node (helper shared
by several results). -/
theorem populate_resolves (s : IntSet) (pos : Int → ℚ) (T : Nat)
    (interior : List NodeId) (tl : NodeId)
    (hT : 2 ≤ T) (hpos : ∀ x, 0 ≤ pos x ∧ pos x < 1)
    (hseg : Seg s.heap 0 s.head interior)
    (hlast : s.heap.nextAt (interior.getLastD s.head) 0
      = some (Ptr.mk (some tl) false))
    (htl : s.heap.nextAt tl 0 = some Ptr.null)
    (hsize : (interior.length : Int) ≤ INT_MAX)
    (hfuel : interior.length ≤ s.heap.nodes.length) :
    ∃ tbl2, populate_shift_table s pos T (new_shift_table T) = some tbl2 ∧
      ∀ i, i < T → ∃ e n, tbl2.get? i = some e ∧ e.node = some n ∧
        n ∈ s.head :: (interior ++ [tl]) := by
  have hlenN : (new_shift_table T).length = T := by
    simp [new_shift_table]
  have h0 : setE (new_shift_table T) 0 ⟨1, 0, some s.head⟩
      = some ((new_shift_table T).set 0 ⟨1, 0, some s.head⟩) := by
    simp only [setE]
    rw [if_pos (by omega)]
  have hq0 : Qinv [s.head] ((new_shift_table T).set 0 ⟨1, 0, some s.head⟩) := by
    intro i e he
    by_cases hi : i = 0
    · subst hi
      have : ((new_shift_table T).set 0 (⟨1, 0, some s.head⟩ : ShiftEntry)).get? 0
          = some ⟨1, 0, some s.head⟩ := by
        rw [List.get?_set_eq_of_lt]
        omega
      rw [this] at he
      rw [← Option.some_inj.mp he]
      exact ⟨by norm_num, fun _ => ⟨s.head, rfl, by simp⟩, by norm_num⟩
    · rw [List.get?_set_ne _ _ (fun hh => hi hh.symm)] at he
      have : e = ⟨0, INT_MAX, none⟩ := by
        have hmem := List.get?_mem he
        simp [new_shift_table] at hmem
        exact hmem.2
      subst this
      exact ⟨by norm_num [INT_MAX], fun hc => absurd rfl hc, fun _ => rfl⟩
  obtain ⟨tbl1, hw, hlen1, hq1⟩ := populateWalk_spec s.heap pos T tl hT hpos htl
    interior s.head 0 ((new_shift_table T).set 0 ⟨1, 0, some s.head⟩)
    (s.heap.nodes.length + 1) [s.head] hseg hlast (by omega)
    (by simpa using hsize) (by rw [List.length_set]; exact hlenN) hq0
  have hset1 : setE tbl1 (T-1) ⟨1, 0, some tl⟩
      = some (tbl1.set (T-1) ⟨1, 0, some tl⟩) := by
    simp only [setE]
    rw [if_pos (by omega)]
  have hget1 : (tbl1.set (T-1) (⟨1, 0, some tl⟩ : ShiftEntry)).get? (T-1)
      = some ⟨1, 0, some tl⟩ := by
    rw [List.get?_set_eq_of_lt]
    omega
  have hqA : ∀ i e, (tbl1.set (T-1) (⟨1, 0, some tl⟩ : ShiftEntry)).get? i = some e →
      ¬ e.count = 0 → ∃ n, e.node = some n ∧ n ∈ s.head :: (interior ++ [tl]) := by
    intro i e he hc
    by_cases hi : i = T - 1
    · subst hi
      rw [hget1] at he
      rw [← Option.some_inj.mp he]
      exact ⟨tl, rfl, by simp⟩
    · rw [List.get?_set_ne _ _ (fun hh => hi hh.symm)] at he
      obtain ⟨_, h2, _⟩ := hq1 i e he
      obtain ⟨n, hn, hnA⟩ := h2 hc
      refine ⟨n, hn, ?_⟩
      simp at hnA ⊢
      tauto
  obtain ⟨t2, hbf, hlen2, hgood, _⟩ := backfill_good (T-1)
    (tbl1.set (T-1) ⟨1, 0, some tl⟩) (s.head :: (interior ++ [tl]))
    (by rw [List.length_set]; omega) hqA
    (Or.inl ⟨⟨1, 0, some tl⟩, hget1, by norm_num⟩)
  refine ⟨t2, ?_, ?_⟩
  · simp only [populate_shift_table, Option.bind_eq_bind, h0, Option.some_bind,
      hw, Option.some_bind, hlast, Option.some_bind]
    simp only [hset1, Option.some_bind]
    exact hbf
  · intro i hi
    obtain ⟨e, n, hge, hcn, hnode, hmem⟩ := hgood i (by omega)
    exact ⟨e, n, hge, hnode, hmem⟩

/-- C5: after `new_shift_table` and `populate_shift_table` on a quiescent
list (any table size `T ≥ 2`, any estimator with values in `[0,1)`), every
one of the `T` entries has a non-null `node` field referring to a node of
the level-0 chain: the head sentinel, a real node, or the tail sentinel. -/
theorem populate_entries_resolve (s : IntSet) (pos : Int → ℚ) (T : Nat)
    (interior : List NodeId) (tl : NodeId)
    (hT : 2 ≤ T) (hpos : ∀ x, 0 ≤ pos x ∧ pos x < 1)
    (hseg : Seg s.heap 0 s.head interior)
    (hlast : s.heap.nextAt (interior.getLastD s.head) 0
      = some (Ptr.mk (some tl) false))
    (htl : s.heap.nextAt tl 0 = some Ptr.null)
    (hsize : (interior.length : Int) ≤ INT_MAX)
    (hfuel : interior.length ≤ s.heap.nodes.length) :
    ∃ tbl2, populate_shift_table s pos T (new_shift_table T) = some tbl2 ∧
      ∀ i, i < T → ∃ e n, tbl2.get? i = some e ∧ e.node = some n ∧
        n ∈ s.head :: (interior ++ [tl]) :=
  populate_resolves s pos T interior tl hT hpos hseg hlast htl hsize hfuel

theorem populate_entries_resolve_witness :
    ∃ tbl2, populate_shift_table (sl_set_new.getD ⟨⟨[]⟩, 0⟩) (fun _ => 0) 2
        (new_shift_table 2) = some tbl2 ∧
      ∀ i, i < 2 → ∃ e n, tbl2.get? i = some e ∧ e.node = some n ∧
        n ∈ (sl_set_new.getD ⟨⟨[]⟩, 0⟩).head :: (([] : List NodeId) ++ [0]) :=
  populate_entries_resolve (sl_set_new.getD ⟨⟨[]⟩, 0⟩) (fun _ => 0) 2 [] 0
    (by norm_num) (fun _ => ⟨by norm_num, by norm_num⟩)
    (Seg.nil _) (by decide) (by decide) (by norm_num [INT_MAX]) (by decide)

end MLSkip

/-! ## C2 and C3: the shortcut start can overshoot the insertion point -/

namespace MLSkip

/-- The list of values along raw level-0 forward references from a node
(fuel-bounded), used to state concrete facts about the chain shape. -/
def chainVals (h : Heap) : NodeId → Nat → List Int
  | _, 0 => []
  | x, fuel+1 =>
    match h.get x with
    | none => []
    | some n =>
      n.val :: (match (n.next.get? 0).bind Ptr.target with
        | some nx => chainVals h nx fuel
        | none => [])

/-- The failing trace, step 1: a fresh set (tail = node 0, head = node 1)
with the value 5 bulk-loaded (`seq_add`, level 1, becoming node 2). -/
def bugSet : IntSet :=
  (seq_add (sl_set_new.getD ⟨⟨[]⟩, 0⟩) 5 1).map (fun r => r.2)
    |>.getD (sl_set_new.getD ⟨⟨[]⟩, 0⟩)

/-- Step 2: the shift table built on that list, table size 2, constant-0
estimator (monotone, values in `[0,1)`).  The build's overwrite rule
(`delta <= shift_table[k].delta`, a tie) replaces the head seeded at
bucket 0 by the 5-node. -/
def bugTbl : List ShiftEntry :=
  (populate_shift_table bugSet (fun _ => 0) 2 (new_shift_table 2)).getD []

/-- Step 3: `sl_add 3` (level 1) against that freshly built table. -/
def bugState : Option (Int × IntSet × Nat) :=
  sl_add bugSet (fun _ => 0) bugTbl 2 3 1 10 10 10

/-- C2 (code bug): replaying the spec's own lifecycle — fresh set,
sequential bulk-load of 5, shift-table build (size 2, a legal constant-0
estimator), then `sl_add 3` — the add reports success but splices 3
*after* 5: the level-0 chain read from the head is `MIN, 5, 3, MAX`,
which is not strictly increasing.  The root cause is the shortcut start:
`shift_table[0].node` is the 5-node (stored by the build's tie-accepting
overwrite rule), its value exceeds 3, the loop cannot back up below
bucket 0, and `fraser_search` then returns the 5-node as predecessor. -/
theorem sl_add_breaks_sortedness :
    (populate_shift_table bugSet (fun _ => 0) 2 (new_shift_table 2)
      = some bugTbl) ∧
    (bugState.map (fun r => r.1)) = some 1 ∧
    (bugState.map (fun r => chainVals r.2.1.heap r.2.1.head 10))
      = some [VAL_MIN, 5, 3, VAL_MAX] ∧
    ¬ List.Pairwise (fun a b : Int => a < b) [VAL_MIN, 5, 3, VAL_MAX] ∧
    Monotone (fun _ : Int => (0 : ℚ)) ∧ (∀ x : Int, 0 ≤ (fun _ : Int => (0:ℚ)) x ∧ (fun _ : Int => (0:ℚ)) x < 1) := by
  refine ⟨by decide, by decide, by decide, by decide, monotone_const,
    fun x => ⟨le_refl _, by norm_num⟩⟩

/-- C3, counterexample to the claim as stated: searching for 3 in the
state above, the shortcut-start loop terminates at the 5-node (value
`5 > 3`, bucket index already 0), and the search started there does not
find 3's correct predecessor/successor pair: it returns the 5-node as
level-0 predecessor and the tail as successor, although the correct pair
is (head, 5-node). -/
theorem shortcut_start_counterexample :
    (entryNode bugTbl (bucketOf (fun _ => 0) 2 3) = some 2) ∧
    (sk_shortcut bugSet.heap bugTbl 3 2 (bucketOf (fun _ => 0) 2 3) 1
      = some (2, 1)) ∧
    ((bugSet.heap.get 2).map Node.val = some 5) ∧
    ((fraser_search (fun _ => 0) bugTbl 2 3 true true 10 10 bugSet.heap
        (List.replicate levelmax none) (List.replicate levelmax none) 0).map
        (fun o => (o.preds.get? 0, o.succs.get? 0)))
      = some (some (some 2), some (some 0)) ∧
    ((bugSet.heap.get 1).map Node.val = some VAL_MIN) ∧
    (bugSet.heap.nextAt 1 0 = some (Ptr.mk (some 2) false)) := by
  refine ⟨by decide, by decide, by decide, by decide, by decide, by decide⟩

end MLSkip

namespace MLSkip

/-- The value stored at a node id (0 for an invalid id); total accessor
used in statements. -/
def valOf (h : Heap) (x : NodeId) : Int :=
  match h.get x with
  | some n => n.val
  | none => 0

theorem get_isSome_of_nextAt (h : Heap) (a : NodeId) (i : Nat) (p : Ptr)
    (hp : h.nextAt a i = some p) : (h.get a).isSome := by
  simp only [Heap.nextAt, Option.bind_eq_bind] at hp
  rcases hg : h.get a with _ | n
  · rw [hg] at hp; simp at hp
  · simp

theorem Seg_cons (h : Heap) (i : Nat) (a b : NodeId) (xs : List NodeId) :
    Seg h i a (b :: xs) ↔
      h.nextAt a i = some (Ptr.mk (some b) false) ∧ Seg h i b xs := by
  constructor
  · intro hs
    cases hs with
    | cons _ _ _ hab hrest => exact ⟨hab, hrest⟩
  · intro hs
    exact Seg.cons _ _ _ hs.1 hs.2

theorem getLastD_cons (a b : NodeId) (xs : List NodeId) :
    (b :: xs).getLastD a = xs.getLastD b := by
  cases xs with
  | nil => simp [List.getLastD]
  | cons c cs => simp [List.getLastD]

theorem Seg_members_get (h : Heap) (i : Nat) :
    ∀ (xs : List NodeId) (a : NodeId) (p : Ptr),
      Seg h i a xs → h.nextAt (xs.getLastD a) i = some p →
      ∀ x, x = a ∨ x ∈ xs → (h.get x).isSome := by
  intro xs
  induction xs with
  | nil =>
    intro a p hseg hlast x hx
    rcases hx with rfl | hx
    · exact get_isSome_of_nextAt h x i p (by simpa [List.getLastD] using hlast)
    · simp at hx
  | cons b rest ih =>
    intro a p hseg hlast x hx
    rw [Seg_cons] at hseg
    have hlast2 : h.nextAt (rest.getLastD b) i = some p := by
      rw [getLastD_cons] at hlast
      exact hlast
    rcases hx with rfl | hx
    · exact get_isSome_of_nextAt h x i _ hseg.1
    · simp at hx
      exact ih b p hseg.2 hlast2 x hx

/-- The shortcut loop either stops at a node of value at most `v`, or
surrenders at the bucket-0 entry with a value still above `v`. -/
theorem sk_shortcut_spec (h : Heap) (tbl : List ShiftEntry) (v : Int) :
    ∀ (k : Nat) (left : NodeId) (it : Nat),
      entryNode tbl k = some left →
      (∀ j n, j ≤ k → entryNode tbl j = some n → (h.get n).isSome) →
      (∀ j, j ≤ k → (entryNode tbl j).isSome) →
      ∃ r it2, sk_shortcut h tbl v left k it = some (r, it2) ∧
        (valOf h r ≤ v ∨ (entryNode tbl 0 = some r ∧ v < valOf h r)) := by
  intro k
  induction k with
  | zero =>
    intro left it hentry hget _
    have hg : (h.get left).isSome := hget 0 left (le_refl _) hentry
    rcases hgl : h.get left with _ | nl
    · rw [hgl] at hg; simp at hg
    · refine ⟨left, it, ?_, ?_⟩
      · simp only [sk_shortcut, Option.bind_eq_bind, hgl, Option.some_bind]
        rfl
      · by_cases hv : nl.val ≤ v
        · left
          simp [valOf, hgl, hv]
        · right
          exact ⟨hentry, by simp [valOf, hgl]; omega⟩
  | succ k ih =>
    intro left it hentry hget hsome
    have hg : (h.get left).isSome := hget (k+1) left (le_refl _) hentry
    rcases hgl : h.get left with _ | nl
    · rw [hgl] at hg; simp at hg
    · by_cases hv : nl.val > v
      · have hk : (entryNode tbl k).isSome := hsome k (by omega)
        rcases he2 : entryNode tbl k with _ | l2
        · rw [he2] at hk; simp at hk
        · obtain ⟨r, it2, hrun, hconc⟩ := ih l2 (it+1) he2
            (fun j n hj => hget j n (by omega)) (fun j hj => hsome j (by omega))
          refine ⟨r, it2, ?_, hconc⟩
          simp only [sk_shortcut, Option.bind_eq_bind, hgl, Option.some_bind,
            if_pos hv, he2, Option.some_bind]
          exact hrun
      · refine ⟨left, it, ?_, Or.inl ?_⟩
        · simp only [sk_shortcut, Option.bind_eq_bind, hgl, Option.some_bind,
            if_neg hv]
          rfl
        · simp [valOf, hgl]
          omega

end MLSkip

namespace MLSkip

theorem populateWalk_entry0 (h : Heap) (pos : Int → ℚ) (T : Nat) :
    ∀ (fuel : Nat) (a j : NodeId) (tbl tbl1 : List ShiftEntry) (lst : NodeId)
      (e0 : ShiftEntry),
      1 ≤ j → tbl.get? 0 = some e0 → e0.delta ≤ 0 → 1 ≤ e0.count →
      populateWalk h pos T fuel a j tbl = some (tbl1, lst) →
      ∃ e1, tbl1.get? 0 = some e1 ∧ e1.node = e0.node ∧ e1.delta ≤ 0 ∧
        1 ≤ e1.count := by
  intro fuel
  induction fuel with
  | zero => intro a j tbl tbl1 lst e0 _ _ _ _ hw; simp [populateWalk] at hw
  | succ f ih =>
    intro a j tbl tbl1 lst e0 hj he0 hd0 hc0 hw
    rw [populateWalk] at hw
    rcases hp : h.nextAt a 0 with _ | p <;> rw [hp] at hw
    · simp at hw
    · simp only [Option.bind_eq_bind, Option.some_bind] at hw
      by_cases hm : p.marked = true
      · rw [if_pos hm] at hw; simp at hw
      · rw [if_neg hm] at hw
        rcases ht : p.target with _ | nxt <;> rw [ht] at hw
        · simp at hw
        · simp only at hw
          rcases hn : h.get nxt with _ | nn <;> rw [hn] at hw
          · simp at hw
          · simp only [Option.some_bind] at hw
            rcases hq : nn.next.get? 0 with _ | q <;> rw [hq] at hw
            · simp at hw
            · simp only [Option.some_bind] at hw
              by_cases hnull : q = Ptr.null
              · rw [if_pos hnull] at hw
                simp at hw
                rw [← hw.1]
                exact ⟨e0, he0, rfl, hd0, hc0⟩
              · rw [if_neg hnull] at hw
                by_cases hk : bucketOf pos T nn.val = 0
                · rw [hk] at hw
                  rw [he0] at hw
                  simp only [Option.some_bind] at hw
                  have hcond : ¬((j : Int) - ((0 : Nat) : Int) ≤ e0.delta) := by
                    have hj2 : (1 : Int) ≤ (j : Int) := by exact_mod_cast hj
                    push_cast
                    omega
                  rw [if_neg hcond] at hw
                  have hlen0 : 0 < tbl.length := (isSome_get tbl 0).mp (by rw [he0]; rfl)
                  have hset : (tbl.set 0 (⟨e0.count + 1, e0.delta, e0.node⟩ : ShiftEntry)).get? 0
                      = some ⟨e0.count + 1, e0.delta, e0.node⟩ := by
                    rw [List.get?_set_eq_of_lt _ hlen0]
                  obtain ⟨e1, hg, hn1, hd1, hc1⟩ := ih nxt (j+1) _ tbl1 lst
                    ⟨e0.count + 1, e0.delta, e0.node⟩ (Nat.le_add_left 1 j) hset
                    (by simpa using hd0) (by show (1:Int) ≤ e0.count + 1; omega) hw
                  exact ⟨e1, hg, hn1, hd1, hc1⟩
                · rcases he : tbl.get? (bucketOf pos T nn.val) with _ | e <;> rw [he] at hw
                  · simp at hw
                  · simp only [Option.some_bind] at hw
                    exact ih nxt (j+1) _ tbl1 lst e0 (Nat.le_add_left 1 j)
                      (by rw [List.get?_set_ne _ _ hk]; exact he0) hd0 hc0 hw

theorem backfillStep_entry0 (t t2 : List ShiftEntry) (j : Nat) (e0 : ShiftEntry)
    (h0 : t.get? 0 = some e0) (hc : ¬ e0.count = 0)
    (hstep : backfillStep t j = some t2) : t2.get? 0 = some e0 := by
  rcases j with _ | j1
  · rw [backfillStep_nonzero t 0 e0 h0 hc] at hstep
    rw [← Option.some_inj.mp hstep]
    exact h0
  · simp only [backfillStep, Option.bind_eq_bind] at hstep
    rcases he : t.get? (j1+1) with _ | e <;> rw [he] at hstep
    · simp at hstep
    · simp only [Option.some_bind] at hstep
      by_cases hce : e.count = 0
      · rw [if_pos hce] at hstep
        rcases hr : t.get? (j1+2) with _ | r <;> rw [hr] at hstep
        · simp at hstep
        · simp at hstep
          rw [← hstep, List.get?_set_ne _ _ (by omega)]
          exact h0
      · rw [if_neg hce] at hstep
        simp at hstep
        rw [← hstep]
        exact h0

theorem backfillFrom_entry0 : ∀ (j : Nat) (t t2 : List ShiftEntry)
    (e0 : ShiftEntry), t.get? 0 = some e0 → ¬ e0.count = 0 →
    backfillFrom t j = some t2 → t2.get? 0 = some e0 := by
  intro j
  induction j with
  | zero =>
    intro t t2 e0 h0 hc hbf
    rw [backfillFrom] at hbf
    exact backfillStep_entry0 t t2 0 e0 h0 hc hbf
  | succ j1 ih =>
    intro t t2 e0 h0 hc hbf
    rw [backfillFrom] at hbf
    rcases hs : backfillStep t (j1+1) with _ | t1 <;> rw [hs] at hbf
    · simp at hbf
    · simp only [Option.bind_eq_bind, Option.some_bind] at hbf
      exact ih t1 t2 e0 (backfillStep_entry0 t t1 (j1+1) e0 h0 hc hs) hc hbf

end MLSkip

namespace MLSkip

/-- Bucket 0 of a freshly built table holds the head sentinel or the first
real node of the chain (the build's tie-accepting overwrite rule can
replace the seeded head only with the rank-0 node). -/
theorem populate_entry0 (s : IntSet) (pos : Int → ℚ) (T : Nat)
    (interior : List NodeId) (tl : NodeId) (tbl2 : List ShiftEntry)
    (hT : 2 ≤ T)
    (hseg : Seg s.heap 0 s.head interior)
    (hlast : s.heap.nextAt (interior.getLastD s.head) 0
      = some (Ptr.mk (some tl) false))
    (htl : s.heap.nextAt tl 0 = some Ptr.null)
    (hpop : populate_shift_table s pos T (new_shift_table T) = some tbl2) :
    ∃ e, tbl2.get? 0 = some e ∧
      (e.node = some s.head ∨ ∃ b rest, interior = b :: rest ∧ e.node = some b) := by
  have hlenN : (new_shift_table T).length = T := by simp [new_shift_table]
  have h0 : setE (new_shift_table T) 0 ⟨1, 0, some s.head⟩
      = some ((new_shift_table T).set 0 ⟨1, 0, some s.head⟩) := by
    simp only [setE]
    rw [if_pos (by omega)]
  simp only [populate_shift_table, Option.bind_eq_bind, h0, Option.some_bind] at hpop
  rcases hw : populateWalk s.heap pos T (s.heap.nodes.length + 1) s.head 0
      ((new_shift_table T).set 0 ⟨1, 0, some s.head⟩) with _ | wk
  · rw [hw] at hpop; simp at hpop
  · rw [hw] at hpop
    simp only [Option.some_bind] at hpop
    have hseed : ((new_shift_table T).set 0 (⟨1, 0, some s.head⟩ : ShiftEntry)).get? 0
        = some ⟨1, 0, some s.head⟩ := by
      rw [List.get?_set_eq_of_lt]
      omega
    -- entry 0 after the walk
    have hafter : ∃ e1, wk.1.get? 0 = some e1 ∧ e1.delta ≤ 0 ∧ 1 ≤ e1.count ∧
        (e1.node = some s.head ∨ ∃ b rest, interior = b :: rest ∧ e1.node = some b) := by
      cases interior with
      | nil =>
        -- the walk exits at once; the table is untouched
        cases hseg with
        | nil =>
          have hl : s.heap.nextAt s.head 0 = some (Ptr.mk (some tl) false) := by
            simpa [List.getLastD] using hlast
          have hget : ∃ nt, s.heap.get tl = some nt ∧ nt.next.get? 0 = some Ptr.null := by
            simp only [Heap.nextAt, Option.bind_eq_bind] at htl
            rcases hg : s.heap.get tl with _ | nt
            · rw [hg] at htl; simp at htl
            · rw [hg] at htl
              simp only [Option.some_bind] at htl
              exact ⟨nt, rfl, htl⟩
          obtain ⟨nt, hgt, hq0⟩ := hget
          rw [populateWalk] at hw
          rw [hl] at hw
          simp only [Option.bind_eq_bind, Option.some_bind] at hw
          rw [if_neg (by simp [Ptr.mk.injEq])] at hw
          simp only [hgt, Option.some_bind, hq0] at hw
          simp at hw
          refine ⟨⟨1, 0, some s.head⟩, ?_, by norm_num, by norm_num, Or.inl rfl⟩
          rw [← hw]
          exact hseed
      | cons b rest =>
        rw [Seg_cons] at hseg
        obtain ⟨hab, hrest⟩ := hseg
        have hlast2 : s.heap.nextAt (rest.getLastD b) 0
            = some (Ptr.mk (some tl) false) := by
          rw [getLastD_cons] at hlast
          exact hlast
        have hgetb : (s.heap.get b).isSome :=
          Seg_members_get s.heap 0 rest b _ hrest hlast2 b (Or.inl rfl)
        rcases hgb : s.heap.get b with _ | nb
        · rw [hgb] at hgetb; simp at hgetb
        · have hqb : ∃ qb, nb.next.get? 0 = some qb ∧ qb.marked = false ∧
              (qb.target).isSome := by
            cases hrest with
            | nil =>
              have hl : s.heap.nextAt b 0 = some (Ptr.mk (some tl) false) := by
                simpa [List.getLastD] using hlast2
              simp only [Heap.nextAt, Option.bind_eq_bind, hgb, Option.some_bind] at hl
              exact ⟨_, hl, rfl, rfl⟩
            | cons _ c rest2 hbc _ =>
              simp only [Heap.nextAt, Option.bind_eq_bind, hgb, Option.some_bind] at hbc
              exact ⟨_, hbc, rfl, rfl⟩
          obtain ⟨qb, hnq, hqm, hqt⟩ := hqb
          rw [populateWalk] at hw
          rw [hab] at hw
          simp only [Option.bind_eq_bind, Option.some_bind] at hw
          rw [if_neg (by simp [Ptr.mk.injEq])] at hw
          simp only [hgb, Option.some_bind, hnq] at hw
          rw [if_neg (by
            intro hqnull
            rw [hqnull] at hqt
            simp [Ptr.null] at hqt)] at hw
          by_cases hk : bucketOf pos T nb.val = 0
          · rw [hk, hseed] at hw
            simp only [Option.some_bind] at hw
            rw [if_pos (by norm_num)] at hw
            have hlt0 : 0 < (((new_shift_table T).set 0
                (⟨1, 0, some s.head⟩ : ShiftEntry))).length := by
              rw [List.length_set]
              omega
            obtain ⟨e1, hg, hn1, hd1, hc1⟩ := populateWalk_entry0 s.heap pos T
              s.heap.nodes.length b 1 _ wk.1 wk.2 _
              (le_refl 1)
              (List.get?_set_eq_of_lt _ hlt0)
              (by simp)
              (by norm_num)
              hw
            refine ⟨e1, hg, hd1, hc1, Or.inr ⟨b, rest, rfl, ?_⟩⟩
            rw [hn1]
          · rcases he : ((new_shift_table T).set 0
                (⟨1, 0, some s.head⟩ : ShiftEntry)).get? (bucketOf pos T nb.val)
                with _ | e <;> rw [he] at hw
            · simp at hw
            · simp only [Option.some_bind] at hw
              obtain ⟨e1, hg, hn1, hd1, hc1⟩ := populateWalk_entry0 s.heap pos T
                s.heap.nodes.length b 1 _ wk.1 wk.2 ⟨1, 0, some s.head⟩
                (le_refl 1)
                (by rw [List.get?_set_ne _ _ hk]; exact hseed)
                (by norm_num) (by norm_num) hw
              exact ⟨e1, hg, hd1, hc1, Or.inl (by rw [hn1])⟩
    obtain ⟨e1, hg1, hd1, hc1, hnode1⟩ := hafter
    rcases hp : s.heap.nextAt wk.2 0 with _ | p <;> rw [hp] at hpop
    · simp at hpop
    · simp only [Option.some_bind] at hpop
      rcases ht : p.target with _ | tailId <;> rw [ht] at hpop
      · simp at hpop
      · simp only at hpop
        have hlen1 : wk.1.length = T := by
          obtain ⟨t1, lst⟩ := wk
          have := populateWalk_length s.heap pos T (s.heap.nodes.length + 1)
            s.head 0 _ t1 lst hw
          simp only at this
          rw [this, List.length_set, hlenN]
        have hset1 : setE wk.1 (T-1) ⟨1, 0, some tailId⟩
            = some (wk.1.set (T-1) ⟨1, 0, some tailId⟩) := by
          simp only [setE]
          rw [if_pos (by omega)]
        rw [hset1] at hpop
        simp only [Option.some_bind] at hpop
        have hg2 : (wk.1.set (T-1) (⟨1, 0, some tailId⟩ : ShiftEntry)).get? 0
            = some e1 := by
          rw [List.get?_set_ne _ _ (by omega)]
          exact hg1
        have := backfillFrom_entry0 (T-1) _ tbl2 e1 hg2 (by omega) hpop
        exact ⟨e1, this, hnode1⟩

end MLSkip

namespace MLSkip

/-- C3 (amended): run against a table freshly built by
`populate_shift_table` over a quiescent sorted list, the shortcut-start
loop of `fraser_search` terminates either at a node whose value is at
most `v` (a start at or before `v`'s true position), or at the bucket-0
node with a value still above `v`; that node is the head sentinel or the
first real node of the chain, and in the latter case `v` is smaller than
every value in the list — so `v` is absent, though the search's
predecessor/successor pair may then be wrong (see the counterexample). -/
theorem shortcut_start_amended (s : IntSet) (pos : Int → ℚ) (T : Nat)
    (interior : List NodeId) (tl : NodeId) (tbl2 : List ShiftEntry) (v : Int)
    (hT : 2 ≤ T) (hpos : ∀ x, 0 ≤ pos x ∧ pos x < 1)
    (hseg : Seg s.heap 0 s.head interior)
    (hlast : s.heap.nextAt (interior.getLastD s.head) 0
      = some (Ptr.mk (some tl) false))
    (htl : s.heap.nextAt tl 0 = some Ptr.null)
    (hsize : (interior.length : Int) ≤ INT_MAX)
    (hfuel : interior.length ≤ s.heap.nodes.length)
    (hsort : (interior.map (valOf s.heap)).Pairwise (fun a b => a < b))
    (hpop : populate_shift_table s pos T (new_shift_table T) = some tbl2) :
    ∃ l0 r it2, entryNode tbl2 (bucketOf pos T v) = some l0 ∧
      sk_shortcut s.heap tbl2 v l0 (bucketOf pos T v) 1 = some (r, it2) ∧
      (valOf s.heap r ≤ v ∨
        (entryNode tbl2 0 = some r ∧ v < valOf s.heap r ∧
          (r = s.head ∨ (∃ b rest, interior = b :: rest ∧ r = b ∧
            ∀ x ∈ interior, v < valOf s.heap x)))) := by
  obtain ⟨tbl2x, hpop2, hmem⟩ := populate_resolves s pos T interior tl hT hpos
    hseg hlast htl hsize hfuel
  rw [hpop] at hpop2
  rw [← Option.some_inj.mp hpop2] at hmem
  have hgetAll : ∀ n, n ∈ s.head :: (interior ++ [tl]) → (s.heap.get n).isSome := by
    intro n hn
    simp at hn
    rcases hn with rfl | hn | rfl
    · exact Seg_members_get s.heap 0 interior s.head _ hseg hlast _ (Or.inl rfl)
    · exact Seg_members_get s.heap 0 interior s.head _ hseg hlast n (Or.inr hn)
    · exact get_isSome_of_nextAt s.heap _ 0 Ptr.null htl
  have hentries : ∀ j, j < T → ∃ n, entryNode tbl2 j = some n ∧
      (s.heap.get n).isSome := by
    intro j hj
    obtain ⟨e, n, hge, hnode, hmemn⟩ := hmem j hj
    refine ⟨n, ?_, hgetAll n hmemn⟩
    simp only [entryNode, hge, Option.some_bind, hnode]
  have hk := bucketOf_lt pos T v hT (hpos v).1 (hpos v).2
  obtain ⟨l0, hl0, hl0get⟩ := hentries (bucketOf pos T v) (by omega)
  obtain ⟨r, it2, hrun, hconc⟩ := sk_shortcut_spec s.heap tbl2 v
    (bucketOf pos T v) l0 1 hl0
    (fun j n hj hn => by
      obtain ⟨n2, hn2, hg2⟩ := hentries j (by omega)
      rw [hn] at hn2
      rw [Option.some_inj.mp hn2]
      exact hg2)
    (fun j hj => by
      obtain ⟨n, hn, _⟩ := hentries j (by omega)
      simp [hn])
  refine ⟨l0, r, it2, hl0, hrun, ?_⟩
  rcases hconc with hle | ⟨hr0, hrv⟩
  · exact Or.inl hle
  · right
    refine ⟨hr0, hrv, ?_⟩
    obtain ⟨e, hg0, hchar⟩ := populate_entry0 s pos T interior tl tbl2 hT hseg
      hlast htl hpop
    have hre : e.node = some r := by
      simp only [entryNode, hg0, Option.some_bind] at hr0
      exact hr0
    rcases hchar with hhd | ⟨b, rest, hint, hb⟩
    · left
      rw [hhd] at hre
      exact (Option.some_inj.mp hre).symm
    · right
      rw [hb] at hre
      have hrb : r = b := (Option.some_inj.mp hre).symm
      refine ⟨b, rest, hint, hrb, ?_⟩
      intro x hx
      rw [hint] at hx hsort
      simp only [List.map_cons, List.pairwise_cons] at hsort
      rcases List.mem_cons.mp hx with rfl | hx2
      · rw [← hrb]
        exact hrv
      · have : valOf s.heap b < valOf s.heap x :=
          hsort.1 (valOf s.heap x) (List.mem_map_of_mem _ hx2)
        rw [← hrb] at this
        omega

end MLSkip

namespace MLSkip

theorem shortcut_start_amended_witness :
    ∃ l0 r it2,
      entryNode ((populate_shift_table (sl_set_new.getD ⟨⟨[]⟩, 0⟩) (fun _ => 0) 2
          (new_shift_table 2)).getD []) (bucketOf (fun _ => 0) 2 7) = some l0 ∧
      sk_shortcut (sl_set_new.getD ⟨⟨[]⟩, 0⟩).heap
        ((populate_shift_table (sl_set_new.getD ⟨⟨[]⟩, 0⟩) (fun _ => 0) 2
          (new_shift_table 2)).getD []) 7 l0 (bucketOf (fun _ => 0) 2 7) 1
        = some (r, it2) ∧
      (valOf (sl_set_new.getD ⟨⟨[]⟩, 0⟩).heap r ≤ 7 ∨
        (entryNode ((populate_shift_table (sl_set_new.getD ⟨⟨[]⟩, 0⟩) (fun _ => 0) 2
            (new_shift_table 2)).getD []) 0 = some r ∧
          7 < valOf (sl_set_new.getD ⟨⟨[]⟩, 0⟩).heap r ∧
          (r = (sl_set_new.getD ⟨⟨[]⟩, 0⟩).head ∨
            (∃ b rest, ([] : List NodeId) = b :: rest ∧ r = b ∧
              ∀ x ∈ ([] : List NodeId), 7 < valOf (sl_set_new.getD ⟨⟨[]⟩, 0⟩).heap x)))) :=
  shortcut_start_amended (sl_set_new.getD ⟨⟨[]⟩, 0⟩) (fun _ => 0) 2 [] 0 _ 7
    (by norm_num) (fun _ => ⟨by norm_num, by norm_num⟩) (Seg.nil _)
    (by decide) (by decide) (by norm_num [INT_MAX]) (by decide)
    (List.Pairwise.nil) (by decide)

end MLSkip

/-! ## The sequential engine: structural invariant and search lemmas -/

namespace MLSkip

/-- Tower height stored at a node id (0 for an invalid id). -/
def toplevelOf (h : Heap) (x : NodeId) : Nat :=
  match h.get x with
  | some n => n.toplevel
  | none => 0

/-- The nodes of the chain participating at level `i`. -/
def towers (h : Heap) (chain : List NodeId) (i : Nat) : List NodeId :=
  chain.filter (fun x => decide (i < toplevelOf h x))

/-- The canonical level-`i` predecessor of `v`: the last node of the
level-`i` list with value below `v` (the head if none). -/
def predAt (h : Heap) (hd : NodeId) (chain : List NodeId) (v : Int) (i : Nat) :
    NodeId :=
  ((towers h chain i).filter (fun x => decide (valOf h x < v))).getLastD hd

/-- The canonical level-`i` successor of `v`: the first node of the
level-`i` list with value at least `v` (the tail if none). -/
def succAt (h : Heap) (tl : NodeId) (chain : List NodeId) (v : Int) (i : Nat) :
    NodeId :=
  ((towers h chain i).filter (fun x => ! decide (valOf h x < v))).headD tl

/-- The structural part of the state invariant of the sequential engine:
sentinels, well-formed chain nodes, distinctness, sortedness, and an
unmarked consecutive level list `head, towers i, tail` at every level. -/
structure Inv0 (h : Heap) (hd tl : NodeId) (chain : List NodeId) : Prop where
  head_node : ∃ n, h.get hd = some n ∧ n.val = VAL_MIN ∧ n.toplevel = levelmax
    ∧ n.next.length = levelmax ∧ n.deleted = false
  tail_node : h.get tl
    = some ⟨VAL_MAX, false, levelmax, List.replicate levelmax Ptr.null⟩
  chain_node : ∀ x ∈ chain, ∃ n, h.get x = some n ∧ n.next.length = n.toplevel
    ∧ 1 ≤ n.toplevel ∧ n.toplevel ≤ levelmax ∧ VAL_MIN < n.val ∧ n.val < VAL_MAX
  nodup : (hd :: chain ++ [tl]).Nodup
  sorted : (chain.map (valOf h)).Pairwise (fun a b => a < b)
  links : ∀ i, i < levelmax → Seg h i hd (towers h chain i ++ [tl])

/-- All chain nodes are live (used on top of `Inv0` by the membership
reasoning; the search itself never reads the deleted flag). -/
def InvLive (h : Heap) (chain : List NodeId) : Prop :=
  ∀ x ∈ chain, ∃ n, h.get x = some n ∧ n.deleted = false

theorem Seg_append (h : Heap) (i : Nat) :
    ∀ (xs ys : List NodeId) (a : NodeId),
      Seg h i a (xs ++ ys) ↔ Seg h i a xs ∧ Seg h i (xs.getLastD a) ys := by
  intro xs
  induction xs with
  | nil =>
    intro ys a
    simp only [List.nil_append, List.getLastD]
    exact ⟨fun hy => ⟨Seg.nil a, hy⟩, fun hp => hp.2⟩
  | cons b rest ih =>
    intro ys a
    simp only [List.cons_append, Seg_cons, getLastD_cons]
    rw [ih ys b]
    tauto

/-- A list sorted by `valOf` splits into its below-`v` prefix and its
at-least-`v` suffix. -/
theorem sorted_split (h : Heap) (v : Int) : ∀ (l : List NodeId),
    ((l.map (valOf h)).Pairwise (fun a b => a < b)) →
    l = l.filter (fun x => decide (valOf h x < v))
      ++ l.filter (fun x => ! decide (valOf h x < v)) := by
  intro l
  induction l with
  | nil => intro _; rfl
  | cons x rest ih =>
    intro hs
    simp only [List.map_cons, List.pairwise_cons] at hs
    by_cases hx : valOf h x < v
    · simp only [List.filter_cons]
      rw [if_pos (by simp [hx]), if_neg (by simp [hx]), List.cons_append,
        ← ih hs.2]
    · have hrest : rest.filter (fun y => decide (valOf h y < v)) = [] := by
        rw [List.filter_eq_nil_iff]
        intro y hy
        have hxy : valOf h x < valOf h y := hs.1 _ (List.mem_map_of_mem _ hy)
        simp
        omega
      have hrest2 : rest.filter (fun y => ! decide (valOf h y < v)) = rest := by
        rw [List.filter_eq_self]
        intro y hy
        have hxy : valOf h x < valOf h y := hs.1 _ (List.mem_map_of_mem _ hy)
        simp
        omega
      simp only [List.filter_cons]
      rw [if_neg (by simp [hx]), if_pos (by simp [hx]), hrest, hrest2,
        List.nil_append]

theorem skipMarked_clean (h : Heap) (i : Nat) (r : NodeId) (p : Ptr) (f : Nat)
    (hp : h.nextAt r i = some p) (hm : p.marked = false) :
    skipMarked h i r (f+1) = some (r, p) := by
  rw [skipMarked]
  rw [hp]
  simp only [Option.bind_eq_bind, Option.some_bind, hm]
  rfl

theorem findPair_clean (h : Heap) (i : Nat) (v : Int) :
    ∀ (u : List NodeId) (a w : NodeId) (pw : Ptr) (fuel : Nat),
      Seg h i a (u ++ [w]) →
      (∀ x ∈ u, valOf h x < v) →
      h.nextAt w i = some pw → pw.marked = false →
      v ≤ valOf h w →
      u.length + 1 ≤ fuel →
      findPair h i v a (Ptr.mk (some ((u ++ [w]).headD w)) false)
          ((u ++ [w]).headD w) fuel
        = some (u.getLastD a, Ptr.mk (some w) false, w, pw) := by
  intro u
  induction u with
  | nil =>
    intro a w pw fuel hseg hu hw hm hv hfuel
    rcases fuel with _ | f
    · omega
    · simp only [List.nil_append, List.headD, List.getLastD]
      rw [findPair]
      rw [skipMarked_clean h i w pw f hw hm]
      simp only [Option.bind_eq_bind, Option.some_bind]
      have hgw : (h.get w).isSome := get_isSome_of_nextAt h w i pw hw
      rcases hg : h.get w with _ | nw
      · rw [hg] at hgw; simp at hgw
      · simp only [Option.some_bind]
        rw [if_pos (by simp [valOf, hg] at hv ⊢; omega)]
        rfl
  | cons b rest ih =>
    intro a w pw fuel hseg hu hw hm hv hfuel
    rcases fuel with _ | f
    · simp at hfuel
    · simp only [List.cons_append, List.headD, getLastD_cons]
      rw [List.cons_append, Seg_cons] at hseg
      obtain ⟨hab, hrest⟩ := hseg
      have hbnext : ∃ pb, h.nextAt b i = some pb ∧ pb.marked = false ∧
          pb.target = some ((rest ++ [w]).headD w) := by
        cases rest with
        | nil =>
          rw [List.nil_append] at hrest
          rw [Seg_cons] at hrest
          exact ⟨_, hrest.1, rfl, rfl⟩
        | cons c cs =>
          rw [List.cons_append] at hrest
          rw [Seg_cons] at hrest
          exact ⟨_, hrest.1, rfl, rfl⟩
      obtain ⟨pb, hpb, hpbm, hpbt⟩ := hbnext
      rw [findPair]
      rw [skipMarked_clean h i b pb f hpb hpbm]
      simp only [Option.bind_eq_bind, Option.some_bind]
      have hgb : (h.get b).isSome := get_isSome_of_nextAt h b i pb hpb
      rcases hg : h.get b with _ | nb
      · rw [hg] at hgb; simp at hgb
      · simp only [Option.some_bind]
        have hbv : valOf h b < v := hu b (by simp)
        rw [if_neg (by simp [valOf, hg] at hbv ⊢; omega)]
        rw [hpbt]
        have hpb2 : pb = Ptr.mk (some ((rest ++ [w]).headD w)) false := by
          rcases pb with ⟨t, m⟩
          rw [Ptr.mk.injEq]
          exact ⟨hpbt, hpbm⟩
        rw [hpb2]
        have := ih b w pw f hrest (fun x hx => hu x (by simp [hx])) hw hm hv
          (by simp at hfuel ⊢; omega)
        exact this

theorem getLastD_append_cons (C : List NodeId) (x : NodeId) :
    ∀ (u : List NodeId) (d : NodeId), (C ++ x :: u).getLastD d = u.getLastD x := by
  induction C with
  | nil => intro u d; rw [List.nil_append, getLastD_cons]
  | cons c cs ih => intro u d; rw [List.cons_append, getLastD_cons, ih]

theorem headD_append_single (B : List NodeId) (tl d : NodeId) :
    (B ++ [tl]).headD d = B.headD tl := by
  cases B <;> rfl

theorem mem_towers (h : Heap) (chain : List NodeId) (i : Nat) (x : NodeId) :
    x ∈ towers h chain i ↔ x ∈ chain ∧ i < toplevelOf h x := by
  simp [towers]

theorem towers_sorted (h : Heap) (chain : List NodeId) (i : Nat)
    (hs : (chain.map (valOf h)).Pairwise (fun a b => a < b)) :
    ((towers h chain i).map (valOf h)).Pairwise (fun a b => a < b) :=
  hs.sublist ((List.filter_sublist chain).map (valOf h))

theorem filterA_mono (h : Heap) (chain : List NodeId) (v : Int)
    (i j : Nat) (hij : j ≤ i) (x : NodeId)
    (hx : x ∈ (towers h chain i).filter (fun x => decide (valOf h x < v))) :
    x ∈ (towers h chain j).filter (fun x => decide (valOf h x < v)) := by
  simp only [List.mem_filter, mem_towers] at hx ⊢
  exact ⟨⟨hx.1.1, by omega⟩, hx.2⟩

/-- Heap congruence for a path: if every node on the path keeps its
level-`i` slot, the path persists. -/
theorem Seg_congr (h h2 : Heap) (i : Nat) :
    ∀ (l : List NodeId) (a : NodeId),
      Seg h i a l →
      (∀ x, x = a ∨ x ∈ l → h2.nextAt x i = h.nextAt x i) →
      Seg h2 i a l := by
  intro l
  induction l with
  | nil => intro a _ _; exact Seg.nil a
  | cons b rest ih =>
    intro a hseg hpres
    rw [Seg_cons] at hseg ⊢
    refine ⟨?_, ih b hseg.2 ?_⟩
    · rw [hpres a (Or.inl rfl)]; exact hseg.1
    · intro x hx
      rcases hx with rfl | hx
      · exact hpres x (Or.inr (by simp))
      · exact hpres x (Or.inr (by simp [hx]))

theorem valOf_congr (h h2 : Heap) (x : NodeId) (hx : h2.get x = h.get x) :
    valOf h2 x = valOf h x := by
  rw [valOf, valOf, hx]

theorem toplevelOf_congr (h h2 : Heap) (x : NodeId) (hx : h2.get x = h.get x) :
    toplevelOf h2 x = toplevelOf h x := by
  rw [toplevelOf, toplevelOf, hx]

theorem towers_congr (h h2 : Heap) (chain : List NodeId) (i : Nat)
    (hc : ∀ x ∈ chain, h2.get x = h.get x) :
    towers h2 chain i = towers h chain i := by
  rw [towers, towers]
  apply List.filter_congr
  intro x hx
  rw [toplevelOf_congr h h2 x (hc x hx)]

/-- `nextAt` congruence from `get` congruence. -/
theorem nextAt_congr (h h2 : Heap) (x : NodeId) (i : Nat)
    (hx : h2.get x = h.get x) : h2.nextAt x i = h.nextAt x i := by
  rw [Heap.nextAt, Heap.nextAt, hx]

/-- Allocation preserves every already-valid cell. -/
theorem get_alloc (h : Heap) (n : Node) (x : NodeId)
    (hx : (h.get x).isSome) : (h.alloc n).1.get x = h.get x := by
  rcases hg : h.get x with _ | nx
  · rw [hg] at hx; simp at hx
  · have hlen : x < h.nodes.length := by
      by_contra hge
      rw [Heap.get, List.getD_eq_default] at hg
      · simp at hg
      · exact Nat.le_of_not_lt hge
    rw [Heap.alloc, Heap.get]
    simp only [List.getD]
    rw [List.get?_append hlen]
    exact hg

/-- A valid cell has an id below the heap length. -/
theorem get_lt_length (h : Heap) (x : NodeId) (hx : (h.get x).isSome) :
    x < h.nodes.length := by
  by_contra hge
  rw [Heap.get, List.getD_eq_default] at hx
  · simp at hx
  · exact Nat.le_of_not_lt hge

/-- The freshly allocated id is outside the old heap. -/
theorem get_alloc_self (h : Heap) (n : Node) :
    (h.alloc n).1.get (h.alloc n).2 = some n := by
  rw [Heap.alloc, Heap.get]
  simp [List.getD]

theorem get_setNode_ne (h : Heap) (a : NodeId) (n : Node) (x : NodeId)
    (hx : x ≠ a) : (h.setNode a n).get x = h.get x := by
  rw [Heap.setNode, Heap.get, Heap.get]
  simp only [List.getD]
  rw [List.get?_set_ne _ _ (fun he => hx he.symm)]

theorem get_setNode_self (h : Heap) (a : NodeId) (n : Node)
    (ha : a < h.nodes.length) : (h.setNode a n).get a = some n := by
  rw [Heap.setNode, Heap.get]
  simp only [List.getD]
  rw [List.get?_set_eq_of_lt]
  · rfl
  · exact ha

/-- `setNext` characterized: it needs a valid cell and an existing slot,
rewrites that slot, and leaves every other cell alone. -/
theorem setNext_spec (h : Heap) (a : NodeId) (i : Nat) (p : Ptr)
    (n : Node) (hg : h.get a = some n) (hi : i < n.next.length) :
    h.setNext a i p = some (h.setNode a { n with next := n.next.set i p }) := by
  rw [Heap.setNext, hg]
  simp only [Option.bind_eq_bind, Option.some_bind]
  rw [if_pos hi]

theorem nextAt_setNode_next_self (h : Heap) (a : NodeId) (n : Node)
    (nx : List Ptr) (ha : a < h.nodes.length) (j : Nat) :
    (h.setNode a { n with next := nx }).nextAt a j = nx.get? j := by
  rw [Heap.nextAt, get_setNode_self h a _ ha]
  rfl

/-- From a path `a, A, B, tl` extract the prefix ending at the first node
of `B ++ [tl]` together with that node's unmarked out-pointer. -/
theorem Seg_break (h : Heap) (i : Nat) (a tl : NodeId) (A B : List NodeId)
    (hseg : Seg h i a (A ++ (B ++ [tl])))
    (htl : h.nextAt tl i = some Ptr.null) :
    ∃ pw, Seg h i a (A ++ [(B ++ [tl]).headD tl])
      ∧ h.nextAt ((B ++ [tl]).headD tl) i = some pw ∧ pw.marked = false := by
  cases B with
  | nil =>
    exact ⟨Ptr.null, hseg, htl, rfl⟩
  | cons b B2 =>
    have hseg2 : Seg h i a ((A ++ [b]) ++ (B2 ++ [tl])) := by
      rw [List.append_assoc]
      simpa using hseg
    have h2 := (Seg_append h i (A ++ [b]) (B2 ++ [tl]) a).mp hseg2
    have hlast : (A ++ [b]).getLastD a = b := getLastD_append_cons A b [] a
    rw [hlast] at h2
    obtain ⟨c, cs, hcc⟩ : ∃ c cs, B2 ++ [tl] = c :: cs := by
      cases B2 <;> exact ⟨_, _, rfl⟩
    rw [hcc, Seg_cons] at h2
    exact ⟨Ptr.mk (some c) false, h2.1, h2.2.1, rfl⟩

/-- Decomposition of a level list around a search key: from a good start
node `left` the level-`i` list continues with the remaining below-`v`
nodes `u` and then the canonical successor, and `u` ends at the canonical
predecessor. -/
theorem level_decomp (h : Heap) (hd tl : NodeId) (chain : List NodeId)
    (v : Int) (i : Nat) (inv : Inv0 h hd tl chain) (hi : i < levelmax)
    (hv2 : v ≤ VAL_MAX) (left : NodeId)
    (hleft : left = hd ∨ left ∈ (towers h chain i).filter
      (fun x => decide (valOf h x < v))) :
    ∃ u w pw,
      Seg h i left (u ++ [w]) ∧
      (∀ x ∈ u, x ∈ (towers h chain i).filter
        (fun x => decide (valOf h x < v))) ∧
      (∀ x ∈ u, valOf h x < v) ∧
      h.nextAt w i = some pw ∧ pw.marked = false ∧
      v ≤ valOf h w ∧
      u.length + 1 ≤ chain.length + 2 ∧
      u.getLastD left = predAt h hd chain v i ∧
      w = succAt h tl chain v i ∧
      h.nextAt left i = some (Ptr.mk (some ((u ++ [w]).headD w)) false) := by
  have hvt : valOf h tl = VAL_MAX := by
    rw [valOf, inv.tail_node]
  have htln : h.nextAt tl i = some Ptr.null := by
    rw [Heap.nextAt, inv.tail_node]
    simp only [Option.bind_eq_bind, Option.some_bind]
    rw [List.get?_eq_get (by simpa using hi)]
    simp
  set A := (towers h chain i).filter (fun x => decide (valOf h x < v)) with hA
  set B := (towers h chain i).filter (fun x => ! decide (valOf h x < v)) with hB
  have hsplit : towers h chain i = A ++ B :=
    sorted_split h v (towers h chain i) (towers_sorted h chain i inv.sorted)
  have hAv : ∀ x ∈ A, valOf h x < v := by
    intro x hx
    rw [hA, List.mem_filter] at hx
    simpa using hx.2
  have hBv : ∀ x ∈ B, v ≤ valOf h x := by
    intro x hx
    rw [hB, List.mem_filter] at hx
    have := hx.2
    simp at this
    omega
  have hwvgen : ∀ (L : List NodeId), (∀ x ∈ L, v ≤ valOf h x) →
      v ≤ valOf h (L.headD tl) := by
    intro L hL
    cases L with
    | nil => rw [List.headD]; omega
    | cons b B2 => exact hL b (List.mem_cons_self b B2)
  have hwv : v ≤ valOf h (B.headD tl) := hwvgen B hBv
  have hseg0 : Seg h i hd (A ++ (B ++ [tl])) := by
    have := inv.links i hi
    rw [hsplit, List.append_assoc] at this
    exact this
  have hlenA : A.length ≤ chain.length := by
    calc A.length ≤ (towers h chain i).length := List.length_filter_le _ _
    _ ≤ chain.length := List.length_filter_le _ _
  rcases hleft with rfl | hmem
  · -- start at the head: u is all of A
    obtain ⟨pw, hs1, hs2, hs3⟩ := Seg_break h i left tl A B hseg0 htln
    refine ⟨A, (B ++ [tl]).headD tl, pw, hs1, ?_, hAv, hs2, hs3, ?_, ?_, rfl, ?_, ?_⟩
    · intro x hx; exact hx
    · rw [headD_append_single]; exact hwv
    · omega
    · rw [headD_append_single]; rfl
    · obtain ⟨c, cs, hcc⟩ : ∃ c cs, A ++ [(B ++ [tl]).headD tl] = c :: cs := by
        cases A <;> exact ⟨_, _, rfl⟩
      rw [hcc] at hs1 ⊢
      rw [Seg_cons] at hs1
      simpa using hs1.1
  · -- start inside A
    obtain ⟨C, u0, hCu⟩ := List.append_of_mem hmem
    have hsegL : Seg h i left (u0 ++ (B ++ [tl])) := by
      have : Seg h i hd ((C ++ [left]) ++ (u0 ++ (B ++ [tl]))) := by
        have := hseg0
        rw [hCu] at this
        simpa [List.append_assoc] using this
      have h2 := (Seg_append h i (C ++ [left]) (u0 ++ (B ++ [tl])) hd).mp this
      have hlast : (C ++ [left]).getLastD hd = left := getLastD_append_cons C left [] hd
      rw [hlast] at h2
      exact h2.2
    obtain ⟨pw, hs1, hs2, hs3⟩ := Seg_break h i left tl u0 B hsegL htln
    refine ⟨u0, (B ++ [tl]).headD tl, pw, hs1, ?_, ?_, hs2, hs3, ?_, ?_, ?_, ?_, ?_⟩
    · intro x hx
      rw [hCu]
      simp [hx]
    · intro x hx
      apply hAv
      rw [hCu]
      simp [hx]
    · rw [headD_append_single]; exact hwv
    · have : u0.length ≤ A.length := by
        rw [hCu]
        simp
        omega
      omega
    · rw [predAt, ← hA, hCu, getLastD_append_cons]
    · rw [headD_append_single]; rfl
    · obtain ⟨c, cs, hcc⟩ : ∃ c cs, u0 ++ [(B ++ [tl]).headD tl] = c :: cs := by
        cases u0 <;> exact ⟨_, _, rfl⟩
      rw [hcc] at hs1 ⊢
      rw [Seg_cons] at hs1
      simpa using hs1.1

theorem getLastD_mem : ∀ (u : List NodeId) (c d : NodeId),
    (c :: u).getLastD d ∈ c :: u := by
  intro u
  induction u with
  | nil => intro c d; simp [List.getLastD]
  | cons e u2 ih =>
    intro c d
    rw [getLastD_cons]
    have := ih e c
    simp only [List.mem_cons] at this ⊢
    tauto

/-- One unfolding of the level loop when `left`'s slot holds an unmarked
non-null pointer. -/
theorem levelLoop_step (v : Int) (wp ws : Bool) (fuel i : Nat) (h : Heap)
    (left : NodeId) (preds succs : List (Option NodeId)) (c : NodeId)
    (hln : h.nextAt left i = some (Ptr.mk (some c) false)) :
    levelLoop v wp ws fuel (i+1) h left preds succs = (do
      let (left2, ln2, right, _) ← findPair h i v left (Ptr.mk (some c) false) c fuel
      if ln2 = Ptr.mk (some right) false then
        levelLoop v wp ws fuel i h left2
          (if wp then preds.set i (some left2) else preds)
          (if ws then succs.set i (some right) else succs)
      else do
        let (ok, h2) ← h.cas left2 i ln2 (Ptr.mk (some right) false)
        if ok then
          levelLoop v wp ws fuel i h2 left2
            (if wp then preds.set i (some left2) else preds)
            (if ws then succs.set i (some right) else succs)
        else
          pure (.retry h2 preds succs)) := by
  rw [levelLoop, hln]
  rfl

/-- On an `Inv0` state the per-level descent completes without `goto
retry`, without touching the heap, and records the canonical
predecessor/successor of `v` at every processed level. -/
theorem levelLoop_clean (h : Heap) (hd tl : NodeId) (chain : List NodeId)
    (v : Int) (wp ws : Bool) (fuel : Nat) (inv : Inv0 h hd tl chain)
    (hv2 : v ≤ VAL_MAX) (hfuel : chain.length + 2 ≤ fuel) :
    ∀ (i : Nat) (left : NodeId) (preds succs : List (Option NodeId)),
      i ≤ levelmax →
      levelmax ≤ preds.length → levelmax ≤ succs.length →
      (∀ j, i = j + 1 → left = hd ∨ left ∈ (towers h chain j).filter
        (fun x => decide (valOf h x < v))) →
      ∃ preds2 succs2,
        levelLoop v wp ws fuel i h left preds succs
          = some (.done h preds2 succs2) ∧
        preds2.length = preds.length ∧ succs2.length = succs.length ∧
        (∀ j, i ≤ j → preds2.get? j = preds.get? j ∧ succs2.get? j = succs.get? j) ∧
        (∀ j, j < i →
          (wp = true → preds2.get? j = some (some (predAt h hd chain v j))) ∧
          (ws = true → succs2.get? j = some (some (succAt h tl chain v j)))) ∧
        (wp = false → preds2 = preds) ∧ (ws = false → succs2 = succs) := by
  intro i
  induction i with
  | zero =>
    intro left preds succs _ _ _ _
    exact ⟨preds, succs, rfl, rfl, rfl, fun j _ => ⟨rfl, rfl⟩,
      fun j hj => absurd hj (by omega), fun _ => rfl, fun _ => rfl⟩
  | succ i ih =>
    intro left preds succs hle hp hs hgood
    have hgi := hgood i rfl
    obtain ⟨u, w, pw, hseg, humem, huval, hw, hwm, hwv, hulen, hupred, hwsucc, hln⟩ :=
      level_decomp h hd tl chain v i inv (by omega) hv2 left hgi
    rw [levelLoop_step v wp ws fuel i h left preds succs ((u ++ [w]).headD w) hln]
    rw [findPair_clean h i v u left w pw fuel hseg huval hw hwm hwv (by omega)]
    simp only [Option.bind_eq_bind, Option.some_bind]
    rw [if_pos trivial]
    have hgood2 : ∀ j, i = j + 1 → u.getLastD left = hd ∨
        u.getLastD left ∈ (towers h chain j).filter
          (fun x => decide (valOf h x < v)) := by
      intro j hj
      cases u with
      | nil =>
        rcases hgi with h1 | h1
        · exact Or.inl h1
        · exact Or.inr (filterA_mono h chain v i j (by omega) _ h1)
      | cons c u2 =>
        right
        apply filterA_mono h chain v i j (by omega)
        exact humem _ (getLastD_mem u2 c left)
    obtain ⟨p3, s3, hq, hl1, hl2, hunch, hchar, hwf, hsf⟩ :=
      ih (u.getLastD left)
        (if wp then preds.set i (some (u.getLastD left)) else preds)
        (if ws then succs.set i (some w) else succs)
        (by omega)
        (by cases wp <;> simp [hp])
        (by cases ws <;> simp [hs])
        hgood2
    refine ⟨p3, s3, hq, ?_, ?_, ?_, ?_, ?_, ?_⟩
    · rw [hl1]; cases wp <;> simp
    · rw [hl2]; cases ws <;> simp
    · intro j hj
      have h1 := hunch j (by omega)
      constructor
      · rw [h1.1]
        cases wp
        · rfl
        · simp only [if_pos]
          rw [List.get?_set_ne]
          omega
      · rw [h1.2]
        cases ws
        · rfl
        · simp only [if_pos]
          rw [List.get?_set_ne]
          omega
    · intro j hj
      rcases Nat.lt_or_ge j i with hji | hji
      · exact hchar j hji
      · have hjei : j = i := by omega
        subst hjei
        constructor
        · intro hwp
          subst hwp
          have h1 := (hunch j (by omega)).1
          rw [h1]
          simp only [if_pos]
          rw [List.get?_set_eq_of_lt]
          · rw [hupred]
          · omega
        · intro hws
          subst hws
          have h1 := (hunch j (by omega)).2
          rw [h1]
          simp only [if_pos]
          rw [List.get?_set_eq_of_lt]
          · rw [hwsucc]
          · omega
    · intro hwp
      subst hwp
      rw [hwf rfl]
      simp
    · intro hws
      subst hws
      rw [hsf rfl]
      simp

theorem backfillFrom_length : ∀ (j : Nat) (tbl out : List ShiftEntry),
    backfillFrom tbl j = some out → out.length = tbl.length := by
  intro j
  induction j with
  | zero =>
    intro tbl out hb
    exact backfillStep_length tbl out 0 hb
  | succ j ih =>
    intro tbl out hb
    rw [backfillFrom] at hb
    simp only [Option.bind_eq_bind] at hb
    rcases hs : backfillStep tbl (j+1) with _ | t
    · rw [hs] at hb; simp at hb
    · rw [hs] at hb
      simp only [Option.some_bind] at hb
      rw [ih t out hb]
      exact backfillStep_length tbl t (j+1) hs

theorem populate_length (s : IntSet) (pos : Int → ℚ) (T : Nat)
    (tbl out : List ShiftEntry)
    (hp : populate_shift_table s pos T tbl = some out) :
    out.length = tbl.length := by
  simp only [populate_shift_table, Option.bind_eq_bind] at hp
  rcases h0 : setE tbl 0 ⟨1, 0, some s.head⟩ with _ | t0
  · rw [h0] at hp; simp at hp
  · rw [h0] at hp
    simp only [Option.some_bind] at hp
    rcases hw : populateWalk s.heap pos T (s.heap.nodes.length + 1) s.head 0 t0
      with _ | wk
    · rw [hw] at hp; simp at hp
    · rw [hw] at hp
      simp only [Option.some_bind] at hp
      rcases hn : s.heap.nextAt wk.2 0 with _ | p
      · rw [hn] at hp; simp at hp
      · rw [hn] at hp
        simp only [Option.some_bind] at hp
        rcases hpt : p.target with _ | tailId
        · rw [hpt] at hp; simp at hp
        · rw [hpt] at hp
          simp only [Option.bind_eq_bind] at hp
          rcases h2 : setE wk.1 (T-1) ⟨1, 0, some tailId⟩ with _ | t2
          · rw [h2] at hp; simp at hp
          · rw [h2] at hp
            simp only [Option.some_bind] at hp
            have hl0 : t0.length = tbl.length := by
              simp only [setE] at h0
              by_cases hc : 0 < tbl.length
              · rw [if_pos hc] at h0
                cases h0
                simp
              · rw [if_neg hc] at h0; cases h0
            have hl1 : wk.1.length = t0.length :=
              populateWalk_length s.heap pos T _ _ _ _ _ _ hw
            have hl2 : t2.length = wk.1.length := by
              simp only [setE] at h2
              by_cases hc : T - 1 < wk.1.length
              · rw [if_pos hc] at h2
                cases h2
                simp
              · rw [if_neg hc] at h2; cases h2
            have hl3 := backfillFrom_length (T-1) t2 out hp
            omega

/-- The property of the shift table the sequential engine maintains: every
entry resolves to a sentinel, and bucket 0 resolves to the head. -/
def tableOK (tbl : List ShiftEntry) (T : Nat) (hd tl : NodeId) : Prop :=
  tbl.length = T ∧ entryNode tbl 0 = some hd ∧
  ∀ k, k < T → ∃ e, tbl.get? k = some e ∧ (e.node = some hd ∨ e.node = some tl)

/-- A table built by `populate_shift_table` over an empty chain (head
pointing straight at the tail) satisfies `tableOK`. -/
theorem fresh_tableOK (s : IntSet) (pos : Int → ℚ) (T : Nat) (tl : NodeId)
    (tbl : List ShiftEntry)
    (hT : 2 ≤ T) (hpos : ∀ x, 0 ≤ pos x ∧ pos x < 1)
    (hlast : s.heap.nextAt s.head 0 = some (Ptr.mk (some tl) false))
    (htl : s.heap.nextAt tl 0 = some Ptr.null)
    (hpop : populate_shift_table s pos T (new_shift_table T) = some tbl) :
    tableOK tbl T s.head tl := by
  have hlen : tbl.length = T := by
    have := populate_length s pos T (new_shift_table T) tbl hpop
    simpa [new_shift_table] using this
  obtain ⟨tbl2, hpop2, hmem⟩ := populate_resolves s pos T [] tl hT hpos
    (Seg.nil s.head) (by simpa [List.getLastD] using hlast) htl
    (by simp [INT_MAX]) (by simp)
  have heq : tbl2 = tbl := by
    rw [hpop2] at hpop
    exact Option.some_inj.mp hpop
  rw [heq] at hpop2 hmem
  obtain ⟨e0, he0, hor0⟩ := populate_entry0 s pos T [] tl tbl hT
    (Seg.nil s.head) (by simpa [List.getLastD] using hlast) htl hpop2
  refine ⟨hlen, ?_, ?_⟩
  · rcases hor0 with h1 | hbad
    · rw [entryNode, he0]
      simpa using h1
    · obtain ⟨b, rest, hbr, _⟩ := hbad
      simp at hbr
  · intro k hk
    obtain ⟨e, n, he, hn, hmem2⟩ := hmem k hk
    refine ⟨e, he, ?_⟩
    simp only [List.nil_append, List.mem_cons, List.mem_singleton,
      List.not_mem_nil, or_false] at hmem2
    rw [hn]
    rcases hmem2 with h2 | h2
    · rw [h2]; exact Or.inl rfl
    · rw [h2]; exact Or.inr rfl

/-- The shortcut loop of `fraser_search` lands on the head sentinel. -/
def startsAtHead (h : Heap) (tbl : List ShiftEntry) (pos : Int → ℚ) (T : Nat)
    (v : Int) (hd : NodeId) : Prop :=
  ∀ it, ∃ l0 it2, entryNode tbl (bucketOf pos T v) = some l0 ∧
    sk_shortcut h tbl v l0 (bucketOf pos T v) it = some (hd, it2)

/-- Over a `tableOK` table every shortcut run walks down sentinel entries
and stops at the head. -/
theorem startsAtHead_of_tableOK (h : Heap) (hd tl : NodeId)
    (chain : List NodeId) (tbl : List ShiftEntry) (pos : Int → ℚ) (T : Nat)
    (v : Int) (inv : Inv0 h hd tl chain) (htab : tableOK tbl T hd tl)
    (hT : 2 ≤ T) (hpos : ∀ x, 0 ≤ pos x ∧ pos x < 1)
    (hv1 : VAL_MIN < v) (hv2 : v < VAL_MAX) :
    startsAtHead h tbl pos T v hd := by
  obtain ⟨nhd, hghd, hvalhd, _, _, _⟩ := inv.head_node
  have main : ∀ k, k < T → ∀ n, entryNode tbl k = some n →
      (n = hd ∨ n = tl) → ∀ it, ∃ it2,
      sk_shortcut h tbl v n k it = some (hd, it2) := by
    intro k
    induction k with
    | zero =>
      intro _ n hn hor it
      have hn0 : n = hd := by
        rw [htab.2.1] at hn
        exact (Option.some_inj.mp hn).symm
      rw [hn0, sk_shortcut, hghd]
      exact ⟨it, rfl⟩
    | succ k ih =>
      intro hk n hn hor it
      rcases hor with h0 | h0
      · rw [h0, sk_shortcut, hghd]
        simp only [Option.bind_eq_bind, Option.some_bind]
        rw [if_neg (by rw [hvalhd]; omega)]
        exact ⟨it, rfl⟩
      · rw [h0, sk_shortcut, inv.tail_node]
        simp only [Option.bind_eq_bind, Option.some_bind]
        rw [if_pos (by simp; omega)]
        obtain ⟨e2, he2, hor2⟩ := htab.2.2 k (by omega)
        have hnode : ∃ n2, entryNode tbl k = some n2 ∧ (n2 = hd ∨ n2 = tl) := by
          rcases hor2 with h1 | h1
          · exact ⟨hd, by rw [entryNode, he2]; simpa using h1, Or.inl rfl⟩
          · exact ⟨tl, by rw [entryNode, he2]; simpa using h1, Or.inr rfl⟩
        obtain ⟨n2, hn2, hor3⟩ := hnode
        rw [hn2]
        simp only [Option.some_bind]
        exact ih (by omega) n2 hn2 hor3 (it+1)
  intro it
  have hb : bucketOf pos T v < T - 1 := bucketOf_lt pos T v hT (hpos v).1 (hpos v).2
  obtain ⟨e, he, hor⟩ := htab.2.2 (bucketOf pos T v) (by omega)
  have hnode : ∃ l0, entryNode tbl (bucketOf pos T v) = some l0 ∧
      (l0 = hd ∨ l0 = tl) := by
    rcases hor with h1 | h1
    · exact ⟨hd, by rw [entryNode, he]; simpa using h1, Or.inl rfl⟩
    · exact ⟨tl, by rw [entryNode, he]; simpa using h1, Or.inr rfl⟩
  obtain ⟨l0, hl0, horl⟩ := hnode
  obtain ⟨it2, hsk⟩ := main (bucketOf pos T v) (by omega) l0 hl0 horl it
  exact ⟨l0, it2, hl0, hsk⟩

/-- On an `Inv0` state with a head-landing shortcut, `fraser_search`
completes in one pass, leaves the heap untouched, and records the
canonical predecessors and successors. -/
theorem fraser_search_clean (h : Heap) (hd tl : NodeId) (chain : List NodeId)
    (pos : Int → ℚ) (tbl : List ShiftEntry) (T : Nat) (v : Int)
    (wp ws : Bool) (fuel rf : Nat) (inv : Inv0 h hd tl chain)
    (hstart : startsAtHead h tbl pos T v hd)
    (hv2 : v ≤ VAL_MAX) (hfuel : chain.length + 2 ≤ fuel) (hrf : 1 ≤ rf) :
    ∀ (preds succs : List (Option NodeId)) (it : Nat),
      levelmax ≤ preds.length → levelmax ≤ succs.length →
      ∃ preds2 succs2 it2,
        fraser_search pos tbl T v wp ws fuel rf h preds succs it
          = some ⟨h, preds2, succs2, it2⟩ ∧
        preds2.length = preds.length ∧ succs2.length = succs.length ∧
        (∀ j, j < levelmax →
          (wp = true → preds2.get? j = some (some (predAt h hd chain v j))) ∧
          (ws = true → succs2.get? j = some (some (succAt h tl chain v j)))) ∧
        (wp = false → preds2 = preds) ∧ (ws = false → succs2 = succs) := by
  intro preds succs it hp hs
  rcases rf with _ | rf2
  · omega
  obtain ⟨l0, it2, he, hsk⟩ := hstart (it + 1)
  rw [fraser_search, he]
  simp only [Option.bind_eq_bind, Option.some_bind]
  rw [hsk]
  simp only [Option.some_bind]
  obtain ⟨nhd, hghd, hvalhd, htop, hlenhd, hdelhd⟩ := inv.head_node
  rw [hghd]
  simp only [Option.some_bind]
  rw [htop]
  obtain ⟨p2, s2, hq, hl1, hl2, hunch, hchar, hwf, hsf⟩ :=
    levelLoop_clean h hd tl chain v wp ws fuel inv hv2 hfuel levelmax hd
      preds succs (le_refl _) hp hs (fun j _ => Or.inl rfl)
  rw [hq]
  exact ⟨p2, s2, it2, rfl, hl1, hl2, fun j hj => hchar j hj, hwf, hsf⟩

end MLSkip


namespace MLSkip

theorem towers_zero (h : Heap) (hd tl : NodeId) (chain : List NodeId)
    (inv : Inv0 h hd tl chain) : towers h chain 0 = chain := by
  rw [towers, List.filter_eq_self]
  intro x hx
  obtain ⟨n, hg, _, h1, _⟩ := inv.chain_node x hx
  simp only [toplevelOf, hg, decide_eq_true_eq]
  omega

/-- The level-0 canonical successor carries `v` exactly when `v` is in the
chain, and is itself a chain node or the tail. -/
theorem succ0_spec (h : Heap) (hd tl : NodeId) (chain : List NodeId) (v : Int)
    (inv : Inv0 h hd tl chain) (hv2 : v < VAL_MAX) :
    (valOf h (succAt h tl chain v 0) = v ↔ v ∈ chain.map (valOf h)) ∧
    (succAt h tl chain v 0 ∈ chain ∨ succAt h tl chain v 0 = tl) := by
  have hvt : valOf h tl = VAL_MAX := by rw [valOf, inv.tail_node]
  have hB : succAt h tl chain v 0
      = (chain.filter (fun x => ! decide (valOf h x < v))).headD tl := by
    rw [succAt, towers_zero h hd tl chain inv]
  have hsub : (chain.filter (fun x => ! decide (valOf h x < v))).Sublist chain :=
    List.filter_sublist chain
  have hsorted : ((chain.filter (fun x => ! decide (valOf h x < v))).map
      (valOf h)).Pairwise (fun a b => a < b) :=
    inv.sorted.sublist (hsub.map (valOf h))
  rcases hBe : chain.filter (fun x => ! decide (valOf h x < v)) with _ | ⟨b, B2⟩
  · rw [hBe] at hB
    simp only [List.headD] at hB
    constructor
    · rw [hB, hvt]
      constructor
      · intro hc; omega
      · intro hc
        obtain ⟨x, hx, hvx⟩ := List.mem_map.mp hc
        have : x ∈ chain.filter (fun x => ! decide (valOf h x < v)) := by
          rw [List.mem_filter]
          refine ⟨hx, ?_⟩
          simp
          omega
        rw [hBe] at this
        simp at this
    · rw [hB]; exact Or.inr rfl
  · rw [hBe] at hB
    simp only [List.headD] at hB
    have hbmem : b ∈ chain.filter (fun x => ! decide (valOf h x < v)) := by
      rw [hBe]; exact List.mem_cons_self b B2
    have hbchain : b ∈ chain := (List.mem_filter.mp hbmem).1
    have hbge : ¬ valOf h b < v := by
      have := (List.mem_filter.mp hbmem).2
      simpa using this
    constructor
    · constructor
      · intro hc
        rw [hB] at hc
        exact List.mem_map.mpr ⟨b, hbchain, hc⟩
      · intro hc
        obtain ⟨x, hx, hvx⟩ := List.mem_map.mp hc
        have hxB : x ∈ chain.filter (fun x => ! decide (valOf h x < v)) := by
          rw [List.mem_filter]
          refine ⟨hx, ?_⟩
          simp
          omega
        rw [hBe] at hxB
        rcases List.mem_cons.mp hxB with h1 | h1
        · rw [hB, ← h1]
          exact hvx
        · exfalso
          rw [hBe] at hsorted
          simp only [List.map_cons, List.pairwise_cons] at hsorted
          have := hsorted.1 (valOf h x) (List.mem_map_of_mem _ h1)
          omega
    · rw [hB]; exact Or.inl hbchain

/-- Any chain node or the tail dereferences. -/
theorem get_of_mem_or_tl (h : Heap) (hd tl : NodeId) (chain : List NodeId)
    (inv : Inv0 h hd tl chain) (x : NodeId)
    (hx : x ∈ chain ∨ x = tl) : ∃ n, h.get x = some n := by
  rcases hx with hx | rfl
  · obtain ⟨n, hg, _⟩ := inv.chain_node x hx
    exact ⟨n, hg⟩
  · exact ⟨_, inv.tail_node⟩

/-- `sl_contains` on an invariant state: no heap mutation, and the result
is exactly reference-model membership. -/
theorem sl_contains_clean (s : IntSet) (tl : NodeId) (chain : List NodeId)
    (pos : Int → ℚ) (tbl : List ShiftEntry) (T : Nat) (v : Int)
    (fuel rf : Nat)
    (inv : Inv0 s.heap s.head tl chain) (hlive : InvLive s.heap chain)
    (hstart : startsAtHead s.heap tbl pos T v s.head)
    (hv2 : v < VAL_MAX) (hfuel : chain.length + 2 ≤ fuel) (hrf : 1 ≤ rf) :
    ∃ it, sl_contains s pos tbl T v fuel rf
      = some ((if v ∈ chain.map (valOf s.heap) then 1 else 0), s, it) := by
  obtain ⟨p2, s2, it2, hq, hl1, hl2, hchar, hwf, hsf⟩ :=
    fraser_search_clean s.heap s.head tl chain pos tbl T v false true fuel rf
      inv hstart (by omega) hfuel hrf
      (List.replicate levelmax none) (List.replicate levelmax none) 0
      (by simp) (by simp)
  have hs0 : s2.get? 0 = some (some (succAt s.heap tl chain v 0)) :=
    (hchar 0 (by rw [levelmax]; omega)).2 rfl
  obtain ⟨hiff, hmem⟩ := succ0_spec s.heap s.head tl chain v inv hv2
  obtain ⟨nd, hnd⟩ := get_of_mem_or_tl s.heap s.head tl chain inv _ hmem
  refine ⟨it2, ?_⟩
  rw [sl_contains, hq]
  simp only [Option.bind_eq_bind, Option.some_bind, hs0, id_eq]
  rw [hnd]
  simp only [Option.some_bind]
  by_cases hin : v ∈ chain.map (valOf s.heap)
  · have hval : nd.val = v := by
      have := hiff.mpr hin
      rw [valOf, hnd] at this
      exact this
    have hsucchain : succAt s.heap tl chain v 0 ∈ chain := by
      rcases hmem with h1 | h1
      · exact h1
      · exfalso
        have h2 := hiff.mpr hin
        rw [h1] at h2
        have hvt : valOf s.heap tl = VAL_MAX := by rw [valOf, inv.tail_node]
        rw [hvt] at h2
        rw [VAL_MAX] at h2 hv2
        omega
    have hdel : nd.deleted = false := by
      obtain ⟨n2, hg2, hd2⟩ := hlive _ hsucchain
      rw [hnd] at hg2
      rw [← Option.some_inj.mp hg2] at hd2
      exact hd2
    rw [if_pos hin, if_pos ⟨hval, hdel⟩]
    rfl
  · have hval : ¬ nd.val = v := by
      intro hc
      apply hin
      apply hiff.mp
      rw [valOf, hnd]
      exact hc
    rw [if_neg hin, if_neg (by tauto)]
    rfl

end MLSkip


namespace MLSkip

theorem Seg_alloc (h : Heap) (n : Node) (i : Nat) :
    ∀ (l : List NodeId) (a : NodeId), Seg h i a l → Seg (h.alloc n).1 i a l := by
  intro l
  induction l with
  | nil => intro a _; exact Seg.nil a
  | cons b rest ih =>
    intro a hseg
    rw [Seg_cons] at hseg ⊢
    refine ⟨?_, ih b hseg.2⟩
    rw [nextAt_congr h (h.alloc n).1 a i
      (get_alloc h n a (get_isSome_of_nextAt h a i _ hseg.1))]
    exact hseg.1

theorem map_valOf_congr (h h2 : Heap) (chain : List NodeId)
    (hc : ∀ x ∈ chain, h2.get x = h.get x) :
    chain.map (valOf h2) = chain.map (valOf h) := by
  apply List.map_congr_left
  intro x hx
  exact valOf_congr h h2 x (hc x hx)

theorem Inv0_alloc (h : Heap) (hd tl : NodeId) (chain : List NodeId)
    (n : Node) (inv : Inv0 h hd tl chain) : Inv0 (h.alloc n).1 hd tl chain := by
  have hc : ∀ x ∈ chain, (h.alloc n).1.get x = h.get x := by
    intro x hx
    obtain ⟨nx, hg, _⟩ := inv.chain_node x hx
    exact get_alloc h n x (by rw [hg]; rfl)
  refine ⟨?_, ?_, ?_, inv.nodup, ?_, ?_⟩
  · obtain ⟨nh, hg, rest⟩ := inv.head_node
    exact ⟨nh, by rw [get_alloc h n hd (by rw [hg]; rfl)]; exact hg, rest⟩
  · rw [get_alloc h n tl (by rw [inv.tail_node]; rfl)]
    exact inv.tail_node
  · intro x hx
    obtain ⟨nx, hg, rest⟩ := inv.chain_node x hx
    exact ⟨nx, by rw [hc x hx]; exact hg, rest⟩
  · rw [map_valOf_congr h (h.alloc n).1 chain hc]
    exact inv.sorted
  · intro i hi
    rw [towers_congr h (h.alloc n).1 chain i hc]
    exact Seg_alloc h n i _ hd (inv.links i hi)

theorem InvLive_alloc (h : Heap) (chain : List NodeId) (n : Node)
    (hl : InvLive h chain) : InvLive (h.alloc n).1 chain := by
  intro x hx
  obtain ⟨nx, hg, hd⟩ := hl x hx
  exact ⟨nx, by rw [get_alloc h n x (by rw [hg]; rfl)]; exact hg, hd⟩

/-- Freeing the node just allocated leaves the old cells and appends a
hole. -/
theorem free_alloc (h : Heap) (n : Node) :
    ((h.alloc n).1.free (h.alloc n).2) = ⟨h.nodes ++ [none]⟩ := by
  simp only [Heap.alloc, Heap.free]
  congr 1
  rw [List.set_append_right _ _ (le_refl _)]
  simp

theorem get_append_none (h : Heap) (x : NodeId) :
    (Heap.mk (h.nodes ++ [none])).get x = h.get x := by
  rw [Heap.get, Heap.get]
  simp only [List.getD]
  rcases Nat.lt_or_ge x h.nodes.length with hx | hx
  · rw [List.get?_append hx]
  · rw [List.get?_eq_none.mpr hx]
    rcases Nat.lt_or_ge x (h.nodes ++ [none]).length with hy | hy
    · have hxy : x = h.nodes.length := by
        rw [List.length_append, List.length_singleton] at hy
        exact Nat.le_antisymm (Nat.lt_succ_iff.mp hy) hx
      subst hxy
      rw [List.get?_append_right (le_refl _)]
      simp
    · rw [List.get?_eq_none.mpr hy]

/-- `sl_add` on a value already live in the chain: reports 0, frees the
pre-allocated node (leaving a hole at the end of the heap), and the
pointer structure of every pre-existing cell is untouched. -/
theorem sl_add_present (s : IntSet) (tl : NodeId) (chain : List NodeId)
    (pos : Int → ℚ) (tbl : List ShiftEntry) (T : Nat) (v : Int) (lvl : Nat)
    (fuel rf arf : Nat)
    (inv : Inv0 s.heap s.head tl chain) (hlive : InvLive s.heap chain)
    (htab : tableOK tbl T s.head tl) (hT : 2 ≤ T)
    (hpos : ∀ x, 0 ≤ pos x ∧ pos x < 1)
    (hv1 : VAL_MIN < v) (hv2 : v < VAL_MAX)
    (hin : v ∈ chain.map (valOf s.heap))
    (hfuel : chain.length + 2 ≤ fuel) (hrf : 1 ≤ rf) (harf : 1 ≤ arf) :
    ∃ it, sl_add s pos tbl T v lvl fuel rf arf
      = some (0, ⟨⟨s.heap.nodes ++ [none]⟩, s.head⟩, it) := by
  rcases arf with _ | arf2
  · omega
  set h1 := (s.heap.alloc (sl_new_simple_node v lvl)).1 with hh1
  have hc : ∀ x ∈ chain, h1.get x = s.heap.get x := by
    intro x hx
    obtain ⟨nx, hg, _⟩ := inv.chain_node x hx
    exact get_alloc s.heap _ x (by rw [hg]; rfl)
  have inv1 : Inv0 h1 s.head tl chain := Inv0_alloc s.heap s.head tl chain _ inv
  have hlive1 : InvLive h1 chain := InvLive_alloc s.heap chain _ hlive
  have hstart1 : startsAtHead h1 tbl pos T v s.head :=
    startsAtHead_of_tableOK h1 s.head tl chain tbl pos T v inv1 htab hT hpos hv1 hv2
  have hin1 : v ∈ chain.map (valOf h1) := by
    rw [map_valOf_congr s.heap h1 chain hc]
    exact hin
  obtain ⟨p2, s2, it2, hq, hl1, hl2, hchar, hwf, hsf⟩ :=
    fraser_search_clean h1 s.head tl chain pos tbl T v true true fuel rf
      inv1 hstart1 (by omega) hfuel hrf
      (List.replicate levelmax none) (List.replicate levelmax none) 0
      (by simp) (by simp)
  have hs0 : s2.get? 0 = some (some (succAt h1 tl chain v 0)) :=
    (hchar 0 (by rw [levelmax]; omega)).2 rfl
  obtain ⟨hiff, hmem⟩ := succ0_spec h1 s.head tl chain v inv1 hv2
  have hval : valOf h1 (succAt h1 tl chain v 0) = v := hiff.mpr hin1
  have hsucchain : succAt h1 tl chain v 0 ∈ chain := by
    rcases hmem with h1m | h1m
    · exact h1m
    · exfalso
      have hvt : valOf h1 tl = VAL_MAX := by rw [valOf, inv1.tail_node]
      rw [h1m, hvt] at hval
      rw [VAL_MAX] at hval hv2
      omega
  obtain ⟨nd, hnd, hdel⟩ := hlive1 _ hsucchain
  have hndval : nd.val = v := by
    rw [valOf, hnd] at hval
    exact hval
  refine ⟨it2, ?_⟩
  rw [sl_add]
  simp only [Option.bind_eq_bind]
  rw [sl_add_loop, hq]
  simp only [Option.bind_eq_bind, Option.some_bind, hs0, id_eq]
  rw [hnd]
  simp only [Option.some_bind]
  rw [if_pos hndval, hdel]
  simp only [Bool.false_eq_true, if_false]
  rw [free_alloc]
  rfl

end MLSkip


namespace MLSkip

/-- Heap congruence for a path needing only the out-links actually used:
every node except possibly the final one. -/
theorem Seg_congr2 (h h2 : Heap) (i : Nat) :
    ∀ (l : List NodeId) (a : NodeId),
      Seg h i a l →
      (∀ x, x = a ∨ x ∈ l.dropLast → h2.nextAt x i = h.nextAt x i) →
      Seg h2 i a l := by
  intro l
  induction l with
  | nil => intro a _ _; exact Seg.nil a
  | cons b rest ih =>
    intro a hseg hpres
    rw [Seg_cons] at hseg ⊢
    cases rest with
    | nil =>
      refine ⟨?_, Seg.nil b⟩
      rw [hpres a (Or.inl rfl)]
      exact hseg.1
    | cons c cs =>
      refine ⟨?_, ih b hseg.2 ?_⟩
      · rw [hpres a (Or.inl rfl)]
        exact hseg.1
      · intro x hx
        rcases hx with rfl | hx
        · exact hpres x (Or.inr (by rw [List.dropLast_cons₂]; simp))
        · exact hpres x (Or.inr (by rw [List.dropLast_cons₂]; simp [hx]))

/-- The canonical predecessor is the head or a below-`v` tower node. -/
theorem predAt_cases (h : Heap) (hd : NodeId) (chain : List NodeId)
    (v : Int) (i : Nat) :
    predAt h hd chain v i = hd ∨
      predAt h hd chain v i ∈ (towers h chain i).filter
        (fun x => decide (valOf h x < v)) := by
  rw [predAt]
  rcases he : (towers h chain i).filter (fun x => decide (valOf h x < v))
    with _ | ⟨b, u⟩
  · exact Or.inl rfl
  · right
    exact getLastD_mem u b hd

/-- The canonical successor is an at-least-`v` tower node or the tail. -/
theorem succAt_cases (h : Heap) (tl : NodeId) (chain : List NodeId)
    (v : Int) (i : Nat) :
    succAt h tl chain v i = tl ∨
      succAt h tl chain v i ∈ (towers h chain i).filter
        (fun x => ! decide (valOf h x < v)) := by
  rw [succAt]
  rcases he : (towers h chain i).filter (fun x => ! decide (valOf h x < v))
    with _ | ⟨b, u⟩
  · exact Or.inl rfl
  · right
    rw [List.headD]
    exact List.mem_cons_self b u

/-- Adjacency: the canonical predecessor's level-`i` slot points at the
canonical successor, unmarked. -/
theorem pred_succ_adjacent (h : Heap) (hd tl : NodeId) (chain : List NodeId)
    (v : Int) (i : Nat) (inv : Inv0 h hd tl chain) (hi : i < levelmax)
    (hv2 : v ≤ VAL_MAX) :
    h.nextAt (predAt h hd chain v i) i
      = some (Ptr.mk (some (succAt h tl chain v i)) false) := by
  obtain ⟨u, w, pw, hseg, humem, huval, hw, hwm, hwv, hulen, hupred, hwsucc, hln⟩ :=
    level_decomp h hd tl chain v i inv hi hv2 hd (Or.inl rfl)
  have h2 := (Seg_append h i u [w] hd).mp hseg
  have h3 := h2.2
  rw [Seg_cons] at h3
  rw [← hupred, ← hwsucc]
  exact h3.1

/-- The slot count of the head or of a level-`i` tower node exceeds `i`. -/
theorem slot_count (h : Heap) (hd tl : NodeId) (chain : List NodeId)
    (inv : Inv0 h hd tl chain) (i : Nat) (hi : i < levelmax) (x : NodeId)
    (hx : x = hd ∨ x ∈ towers h chain i) :
    ∃ n, h.get x = some n ∧ i < n.next.length := by
  rcases hx with rfl | hx
  · obtain ⟨n, hg, _, _, hlen, _⟩ := inv.head_node
    exact ⟨n, hg, by omega⟩
  · rw [mem_towers] at hx
    obtain ⟨n, hg, hlen, _, _, _⟩ := inv.chain_node x hx.1
    refine ⟨n, hg, ?_⟩
    have : toplevelOf h x = n.toplevel := by rw [toplevelOf, hg]
    have h2 := hx.2
    omega

/-- `setNewNexts` writes the recorded successors into the fresh node's
slots and touches nothing else. -/
theorem setNewNexts_spec (newId : NodeId) (succs : List (Option NodeId))
    (h : Heap) (n0 : Node) (lvl : Nat) (σ : Nat → NodeId)
    (hg : h.get newId = some n0) (hlen : n0.next.length = lvl)
    (hσ : ∀ i, i < lvl → succs.get? i = some (some (σ i))) :
    ∀ k, k ≤ lvl →
      ∃ h2 nx, setNewNexts newId succs h k = some h2 ∧
        h2.get newId = some { n0 with next := nx } ∧
        nx.length = lvl ∧
        (∀ i, i < k → nx.get? i = some (Ptr.mk (some (σ i)) false)) ∧
        (∀ i, k ≤ i → nx.get? i = n0.next.get? i) ∧
        (∀ x, x ≠ newId → h2.get x = h.get x) := by
  intro k
  induction k with
  | zero =>
    intro _
    exact ⟨h, n0.next, rfl, hg, hlen, fun i hi => absurd hi (by omega),
      fun i _ => rfl, fun x _ => rfl⟩
  | succ k ih =>
    intro hk
    obtain ⟨h2, nx, hrun, hgn, hnxlen, hset, hkeep, hother⟩ := ih (by omega)
    have hklt : k < nx.length := by omega
    have hnewlt : newId < h2.nodes.length :=
      get_lt_length h2 newId (by rw [hgn]; rfl)
    refine ⟨h2.setNode newId { n0 with next := nx.set k (Ptr.mk (some (σ k)) false) },
      nx.set k (Ptr.mk (some (σ k)) false), ?_, ?_, ?_, ?_, ?_, ?_⟩
    · rw [setNewNexts, hrun]
      simp only [Option.bind_eq_bind, Option.some_bind]
      rw [hσ k (by omega)]
      simp only [id_eq, Option.some_bind]
      rw [setNext_spec h2 newId k _ _ hgn hklt]
    · rw [get_setNode_self h2 newId _ hnewlt]
    · rw [List.length_set]
      exact hnxlen
    · intro i hi
      rcases Nat.lt_or_ge i k with h1 | h1
      · rw [List.get?_set_ne _ _ (by omega)]
        exact hset i h1
      · have : i = k := by omega
        subst this
        rw [List.get?_set_eq_of_lt]
        exact hklt
    · intro i hi
      rw [List.get?_set_ne _ _ (by omega)]
      exact hkeep i (by omega)
    · intro x hx
      rw [get_setNode_ne h2 newId _ x hx]
      exact hother x hx

/-- One clean run of the upper-level link loop: the new node's slot
already names the recorded successor, so the single CAS splices the new
node after the recorded predecessor. -/
theorem linkLoop_clean (pos : Int → ℚ) (tbl : List ShiftEntry) (T : Nat)
    (v : Int) (newId : NodeId) (i : Nat) (fuel rf lf : Nat) (h : Heap)
    (preds succs : List (Option NodeId)) (it : Nat) (pid sid : NodeId)
    (hpid : preds.get? i = some (some pid))
    (hsid : succs.get? i = some (some sid))
    (hnn : h.nextAt newId i = some (Ptr.mk (some sid) false))
    (np : Node) (hgp : h.get pid = some np) (hi : i < np.next.length)
    (hcur : h.nextAt pid i = some (Ptr.mk (some sid) false))
    (sn : Node) (hgs : h.get sid = some sn) (hsv : sn.val ≠ v) :
    linkLoop pos tbl T v newId i fuel rf (lf+1) h preds succs it
      = some (h.setNode pid
            { np with next := np.next.set i (Ptr.mk (some newId) false) },
          preds, succs, it) := by
  rw [linkLoop, hpid]
  simp only [Option.bind_eq_bind, Option.some_bind, id_eq, hsid, hnn]
  rw [if_neg (by simp)]
  simp only [Option.pure_def, Option.some_bind]
  rw [if_neg (by simp)]
  rw [hgs]
  simp only [Option.some_bind]
  rw [if_neg hsv]
  rw [Heap.cas, hcur]
  simp only [Option.bind_eq_bind, Option.some_bind]
  rw [if_pos trivial]
  simp only [Option.bind_eq_bind, Option.pure_def, Option.some_bind]
  rw [setNext_spec h pid i _ np hgp hi]
  simp only [Option.some_bind]
  rw [if_pos trivial]

end MLSkip


namespace MLSkip

/-- Invariant of the splice sequence of `sl_add`: levels `0 … k-1` (capped
at `lvl`) already point `predAt j → newId`; every other slot and every
node shape is as in the reference heap `h1`; the new node's cell is
`nnew`. -/
structure LinkSt (h1 : Heap) (hd : NodeId) (chain : List NodeId) (v : Int)
    (newId : NodeId) (nnew : Node) (lvl k : Nat) (h : Heap) : Prop where
  get_new : h.get newId = some nnew
  shape : ∀ x n, x ≠ newId → h1.get x = some n → ∃ n2, h.get x = some n2 ∧
    n2.val = n.val ∧ n2.toplevel = n.toplevel ∧ n2.deleted = n.deleted ∧
    n2.next.length = n.next.length
  next_same : ∀ x j, x ≠ newId →
    ¬ (j < k ∧ j < lvl ∧ x = predAt h1 hd chain v j) →
    h.nextAt x j = h1.nextAt x j
  next_pred : ∀ j, j < k → j < lvl →
    h.nextAt (predAt h1 hd chain v j) j = some (Ptr.mk (some newId) false)
  get_keep : ∀ x, x ≠ newId →
    (∀ j, j < lvl → x ≠ predAt h1 hd chain v j) → h.get x = h1.get x

/-- Run one upper level of the splice under `LinkSt`. -/
theorem LinkSt_step (h1 : Heap) (hd tl : NodeId) (chain : List NodeId)
    (v : Int) (newId : NodeId) (nnew : Node) (lvl k : Nat) (h : Heap)
    (pos : Int → ℚ) (tbl : List ShiftEntry) (T : Nat) (fuel rf lf : Nat)
    (preds succs : List (Option NodeId)) (it : Nat)
    (inv1 : Inv0 h1 hd tl chain)
    (st : LinkSt h1 hd chain v newId nnew lvl k h)
    (hfresh : ∀ x, x = hd ∨ x = tl ∨ x ∈ chain → x ≠ newId)
    (hnx : ∀ j, j < lvl → nnew.next.get? j
      = some (Ptr.mk (some (succAt h1 tl chain v j)) false))
    (hP : ∀ j, j < lvl → preds.get? j = some (some (predAt h1 hd chain v j)))
    (hS : ∀ j, j < lvl → succs.get? j = some (some (succAt h1 tl chain v j)))
    (hklvl : k < lvl) (hlvlmax : lvl ≤ levelmax)
    (hv2 : v < VAL_MAX) (hvnot : v ∉ chain.map (valOf h1)) :
    ∃ h4, linkLoop pos tbl T v newId k fuel rf (lf+1) h preds succs it
      = some (h4, preds, succs, it) ∧
      LinkSt h1 hd chain v newId nnew lvl (k+1) h4 := by
  have hklevelmax : k < levelmax := by omega
  have hPchain : predAt h1 hd chain v k = hd ∨ predAt h1 hd chain v k ∈ chain := by
    rcases predAt_cases h1 hd chain v k with h1c | h1c
    · exact Or.inl h1c
    · right
      exact ((mem_towers h1 chain k _).mp (List.mem_filter.mp h1c).1).1
  have hPne : predAt h1 hd chain v k ≠ newId := by
    rcases hPchain with h1c | h1c
    · exact hfresh _ (Or.inl h1c)
    · exact hfresh _ (Or.inr (Or.inr h1c))
  have hSmem : succAt h1 tl chain v k ∈ chain ∨ succAt h1 tl chain v k = tl := by
    rcases succAt_cases h1 tl chain v k with h1c | h1c
    · exact Or.inr h1c
    · exact Or.inl ((mem_towers h1 chain k _).mp (List.mem_filter.mp h1c).1).1
  have hSne : succAt h1 tl chain v k ≠ newId := by
    rcases hSmem with h1c | h1c
    · exact hfresh _ (Or.inr (Or.inr h1c))
    · exact hfresh _ (Or.inr (Or.inl h1c))
  have hnn : h.nextAt newId k = some (Ptr.mk (some (succAt h1 tl chain v k)) false) := by
    rw [Heap.nextAt, st.get_new]
    simp only [Option.bind_eq_bind, Option.some_bind]
    exact hnx k hklvl
  have hPtower : predAt h1 hd chain v k = hd ∨
      predAt h1 hd chain v k ∈ towers h1 chain k := by
    rcases predAt_cases h1 hd chain v k with h1c | h1c
    · exact Or.inl h1c
    · exact Or.inr (List.mem_filter.mp h1c).1
  obtain ⟨np1, hgp1, hnp1len⟩ :=
    slot_count h1 hd tl chain inv1 k hklevelmax _ hPtower
  obtain ⟨np2, hgp2, hval2, htop2, hdel2, hlen2⟩ := st.shape _ np1 hPne hgp1
  have hcur : h.nextAt (predAt h1 hd chain v k) k
      = some (Ptr.mk (some (succAt h1 tl chain v k)) false) := by
    rw [st.next_same _ k hPne (fun hc => absurd hc.1 (lt_irrefl k))]
    exact pred_succ_adjacent h1 hd tl chain v k inv1 hklevelmax (by omega)
  obtain ⟨sn1, hgs1⟩ := get_of_mem_or_tl h1 hd tl chain inv1 _ hSmem
  obtain ⟨sn2, hgs2, hsval2, _, _, _⟩ := st.shape _ sn1 hSne hgs1
  have hsvne : sn2.val ≠ v := by
    rw [hsval2]
    rcases hSmem with h1c | h1c
    · intro hc
      apply hvnot
      apply List.mem_map.mpr
      refine ⟨_, h1c, ?_⟩
      rw [valOf, hgs1]
      exact hc
    · intro hc
      rw [h1c, inv1.tail_node] at hgs1
      have hsn : sn1 = ⟨VAL_MAX, false, levelmax, List.replicate levelmax Ptr.null⟩ :=
        (Option.some_inj.mp hgs1).symm
      rw [hsn] at hc
      have hc2 : VAL_MAX = v := hc
      rw [VAL_MAX] at hc2 hv2
      omega
  have hrun := linkLoop_clean pos tbl T v newId k fuel rf lf h preds succs it
    _ _ (hP k hklvl) (hS k hklvl) hnn np2 hgp2 (by omega) hcur sn2 hgs2 hsvne
  refine ⟨_, hrun, ?_⟩
  have hPlen : predAt h1 hd chain v k < h.nodes.length :=
    get_lt_length h _ (by rw [hgp2]; rfl)
  constructor
  · rw [get_setNode_ne h _ _ newId (fun hc => hPne hc.symm)]
    exact st.get_new
  · intro x n hx hg
    by_cases hxP : x = predAt h1 hd chain v k
    · subst hxP
      rw [get_setNode_self h _ _ hPlen]
      have hn1 : n = np1 := by
        rw [hg] at hgp1
        exact Option.some_inj.mp hgp1
      refine ⟨_, rfl, ?_, ?_, ?_, ?_⟩
      · rw [hval2, hn1]
      · rw [htop2, hn1]
      · rw [hdel2, hn1]
      · rw [List.length_set, hlen2, hn1]
    · rw [get_setNode_ne h _ _ x hxP]
      exact st.shape x n hx hg
  · intro x j hx hcnd
    by_cases hxP : x = predAt h1 hd chain v k
    · subst hxP
      have hjk : j ≠ k := by
        intro hc
        subst hc
        exact hcnd ⟨by omega, hklvl, rfl⟩
      have hns := st.next_same _ j hPne
        (fun hc => hcnd ⟨by omega, hc.2.1, hc.2.2⟩)
      rw [Heap.nextAt, get_setNode_self h _ _ hPlen]
      simp only [Option.bind_eq_bind, Option.some_bind]
      rw [List.get?_set_ne _ _ (fun hc => hjk hc.symm)]
      rw [Heap.nextAt, hgp2] at hns
      simp only [Option.bind_eq_bind, Option.some_bind] at hns
      exact hns
    · rw [nextAt_congr h _ x j (get_setNode_ne h _ _ x hxP)]
      exact st.next_same x j hx (fun hc => hcnd ⟨by omega, hc.2.1, hc.2.2⟩)
  · intro j hj hjlvl
    rcases Nat.lt_or_ge j k with hjk | hjk
    · by_cases hPj : predAt h1 hd chain v j = predAt h1 hd chain v k
      · have hold := st.next_pred j hjk hjlvl
        rw [hPj] at hold ⊢
        rw [Heap.nextAt, hgp2] at hold
        simp only [Option.bind_eq_bind, Option.some_bind] at hold
        rw [Heap.nextAt, get_setNode_self h _ _ hPlen]
        simp only [Option.bind_eq_bind, Option.some_bind]
        rw [List.get?_set_ne _ _ (fun hc => (by omega : j ≠ k) hc.symm)]
        exact hold
      · rw [nextAt_congr h _ _ j (get_setNode_ne h _ _ _ hPj)]
        exact st.next_pred j hjk hjlvl
    · have hjek : j = k := by omega
      subst hjek
      rw [Heap.nextAt, get_setNode_self h _ _ hPlen]
      simp only [Option.bind_eq_bind, Option.some_bind]
      rw [List.get?_set_eq_of_lt]
      omega
  · intro x hx hxp
    rw [get_setNode_ne h _ _ x (hxp k hklvl)]
    exact st.get_keep x hx hxp

/-- The level-0 CAS of `sl_add` establishes the splice invariant. -/
theorem LinkSt_init (h1 h2 : Heap) (hd tl : NodeId) (chain : List NodeId)
    (v : Int) (newId : NodeId) (nnew : Node) (lvl : Nat)
    (inv1 : Inv0 h1 hd tl chain)
    (hfresh : ∀ x, x = hd ∨ x = tl ∨ x ∈ chain → x ≠ newId)
    (hg2new : h2.get newId = some nnew)
    (hg2old : ∀ x, x ≠ newId → h2.get x = h1.get x)
    (hlvl1 : 1 ≤ lvl) (hlvlmax : lvl ≤ levelmax) (hv2 : v ≤ VAL_MAX) :
    ∃ h3, h2.cas (predAt h1 hd chain v 0) 0
        (Ptr.mk (some (succAt h1 tl chain v 0)) false)
        (Ptr.mk (some newId) false) = some (true, h3) ∧
      LinkSt h1 hd chain v newId nnew lvl 1 h3 := by
  have h0max : 0 < levelmax := by rw [levelmax]; omega
  have hPtower : predAt h1 hd chain v 0 = hd ∨
      predAt h1 hd chain v 0 ∈ towers h1 chain 0 := by
    rcases predAt_cases h1 hd chain v 0 with h1c | h1c
    · exact Or.inl h1c
    · exact Or.inr (List.mem_filter.mp h1c).1
  have hPne : predAt h1 hd chain v 0 ≠ newId := by
    rcases hPtower with h1c | h1c
    · exact hfresh _ (Or.inl h1c)
    · exact hfresh _ (Or.inr (Or.inr ((mem_towers h1 chain 0 _).mp h1c).1))
  obtain ⟨np1, hgp1, hnp1len⟩ := slot_count h1 hd tl chain inv1 0 h0max _ hPtower
  have hgp2 : h2.get (predAt h1 hd chain v 0) = some np1 := by
    rw [hg2old _ hPne]
    exact hgp1
  have hcur : h2.nextAt (predAt h1 hd chain v 0) 0
      = some (Ptr.mk (some (succAt h1 tl chain v 0)) false) := by
    rw [nextAt_congr h1 h2 _ 0 (hg2old _ hPne)]
    exact pred_succ_adjacent h1 hd tl chain v 0 inv1 h0max hv2
  have hPlen : predAt h1 hd chain v 0 < h2.nodes.length :=
    get_lt_length h2 _ (by rw [hgp2]; rfl)
  refine ⟨h2.setNode (predAt h1 hd chain v 0)
      { np1 with next := np1.next.set 0 (Ptr.mk (some newId) false) }, ?_, ?_⟩
  · rw [Heap.cas, hcur]
    simp only [Option.bind_eq_bind, Option.some_bind]
    rw [if_pos trivial]
    simp only [Option.bind_eq_bind, Option.pure_def, Option.some_bind]
    rw [setNext_spec h2 _ 0 _ np1 hgp2 hnp1len]
    rfl
  · constructor
    · rw [get_setNode_ne h2 _ _ newId (fun hc => hPne hc.symm)]
      exact hg2new
    · intro x n hx hg
      by_cases hxP : x = predAt h1 hd chain v 0
      · subst hxP
        rw [get_setNode_self h2 _ _ hPlen]
        have hn1 : n = np1 := by
          rw [hg] at hgp1
          exact Option.some_inj.mp hgp1
        refine ⟨_, rfl, by rw [hn1], by rw [hn1], by rw [hn1], ?_⟩
        rw [List.length_set, hn1]
      · rw [get_setNode_ne h2 _ _ x hxP, hg2old x hx]
        exact ⟨n, hg, rfl, rfl, rfl, rfl⟩
    · intro x j hx hcnd
      by_cases hxP : x = predAt h1 hd chain v 0
      · subst hxP
        have hj0 : j ≠ 0 := by
          intro hc
          subst hc
          exact hcnd ⟨by omega, by omega, rfl⟩
        rw [Heap.nextAt, get_setNode_self h2 _ _ hPlen]
        simp only [Option.bind_eq_bind, Option.some_bind]
        rw [List.get?_set_ne _ _ (fun hc => hj0 hc.symm)]
        rw [Heap.nextAt, hgp1]
        simp only [Option.bind_eq_bind, Option.some_bind]
      · rw [nextAt_congr h2 _ x j (get_setNode_ne h2 _ _ x hxP),
          nextAt_congr h1 h2 x j (hg2old x hx)]
    · intro j hj hjlvl
      have hj0 : j = 0 := by omega
      subst hj0
      rw [Heap.nextAt, get_setNode_self h2 _ _ hPlen]
      simp only [Option.bind_eq_bind, Option.some_bind]
      rw [List.get?_set_eq_of_lt]
      exact hnp1len
    · intro x hx hxp
      rw [get_setNode_ne h2 _ _ x (hxp 0 (by omega)), hg2old x hx]

/-- Run the whole upper-level splice `1 … m` under `LinkSt`. -/
theorem linkLevels_clean (h1 : Heap) (hd tl : NodeId) (chain : List NodeId)
    (v : Int) (newId : NodeId) (nnew : Node) (lvl : Nat)
    (pos : Int → ℚ) (tbl : List ShiftEntry) (T : Nat) (fuel rf lf : Nat)
    (preds succs : List (Option NodeId))
    (inv1 : Inv0 h1 hd tl chain)
    (hfresh : ∀ x, x = hd ∨ x = tl ∨ x ∈ chain → x ≠ newId)
    (hnx : ∀ j, j < lvl → nnew.next.get? j
      = some (Ptr.mk (some (succAt h1 tl chain v j)) false))
    (hP : ∀ j, j < lvl → preds.get? j = some (some (predAt h1 hd chain v j)))
    (hS : ∀ j, j < lvl → succs.get? j = some (some (succAt h1 tl chain v j)))
    (hlvlmax : lvl ≤ levelmax) (hlf : 1 ≤ lf)
    (hv2 : v < VAL_MAX) (hvnot : v ∉ chain.map (valOf h1)) :
    ∀ (m : Nat) (h : Heap) (it : Nat), m < lvl →
      LinkSt h1 hd chain v newId nnew lvl 1 h →
      ∃ h4, linkLevels pos tbl T v newId fuel rf lf m h preds succs it
        = some (h4, preds, succs, it) ∧
      LinkSt h1 hd chain v newId nnew lvl (m+1) h4 := by
  intro m
  induction m with
  | zero =>
    intro h it _ st
    exact ⟨h, rfl, st⟩
  | succ m ih =>
    intro h it hm st
    obtain ⟨h4, hrun, st4⟩ := ih h it (by omega) st
    rcases lf with _ | lf2
    · omega
    obtain ⟨h5, hrun5, st5⟩ := LinkSt_step h1 hd tl chain v newId nnew lvl (m+1)
      h4 pos tbl T fuel rf lf2 preds succs it inv1 st4 hfresh hnx hP hS hm
      hlvlmax hv2 hvnot
    refine ⟨h5, ?_, st5⟩
    rw [linkLevels, hrun]
    simp only [Option.bind_eq_bind, Option.some_bind]
    exact hrun5

end MLSkip


namespace MLSkip

theorem orderedInsert_split (v : Int) : ∀ (A B : List Int),
    (∀ x ∈ A, x < v) → (∀ x ∈ B, v < x) →
    (A ++ B).orderedInsert (· ≤ ·) v = A ++ v :: B := by
  intro A
  induction A with
  | nil =>
    intro B _ hB
    cases B with
    | nil => rfl
    | cons b B2 =>
      rw [List.nil_append, List.orderedInsert]
      rw [if_pos (le_of_lt (hB b (List.mem_cons_self b B2)))]
      rfl
  | cons a A2 ih =>
    intro B hA hB
    rw [List.cons_append, List.orderedInsert]
    rw [if_neg (by
      have := hA a (List.mem_cons_self a A2)
      omega)]
    rw [ih B (fun x hx => hA x (List.mem_cons_of_mem a hx)) hB]
    rfl

theorem towers_filter_lt (h : Heap) (chain : List NodeId) (v : Int) (i : Nat) :
    towers h (chain.filter (fun x => decide (valOf h x < v))) i
      = (towers h chain i).filter (fun x => decide (valOf h x < v)) := by
  rw [towers, towers, List.filter_filter, List.filter_filter]
  apply List.filter_congr
  intro x _
  rw [Bool.and_comm]

theorem towers_filter_ge (h : Heap) (chain : List NodeId) (v : Int) (i : Nat) :
    towers h (chain.filter (fun x => ! decide (valOf h x < v))) i
      = (towers h chain i).filter (fun x => ! decide (valOf h x < v)) := by
  rw [towers, towers, List.filter_filter, List.filter_filter]
  apply List.filter_congr
  intro x _
  rw [Bool.and_comm]

theorem nodup_facts (hd tl : NodeId) (chain : List NodeId)
    (h : (hd :: chain ++ [tl]).Nodup) :
    hd ≠ tl ∧ hd ∉ chain ∧ tl ∉ chain ∧ chain.Nodup := by
  rw [List.cons_append, List.nodup_cons, List.nodup_append] at h
  obtain ⟨h1, h2, _, h4⟩ := h
  refine ⟨?_, ?_, ?_, h2⟩
  · intro hc; exact h1 (by simp [hc])
  · intro hc; exact h1 (by simp [hc])
  · intro hc; exact h4 hc (by simp)

theorem mem_dropLast_ne : ∀ (l : List NodeId) (a : NodeId),
    (a :: l).Nodup → ∀ x ∈ (a :: l).dropLast, x ≠ l.getLastD a := by
  intro l
  induction l with
  | nil =>
    intro a _ x hx
    simp at hx
  | cons b rest ih =>
    intro a hnd x hx
    rw [List.dropLast_cons₂, List.mem_cons] at hx
    rw [getLastD_cons]
    rcases hx with rfl | hx
    · have hmem : rest.getLastD b ∈ b :: rest := by
        rw [← getLastD_cons x b rest]
        exact getLastD_mem rest b x
      rw [List.nodup_cons] at hnd
      intro hc
      rw [hc] at hnd
      exact hnd.1 hmem
    · exact ih b (List.nodup_cons.mp hnd).2 x hx

theorem Seg_congr3 (h h2 : Heap) (i : Nat) :
    ∀ (l : List NodeId) (a : NodeId),
      Seg h i a l →
      (∀ x ∈ (a :: l).dropLast, h2.nextAt x i = h.nextAt x i) →
      Seg h2 i a l := by
  intro l
  induction l with
  | nil => intro a _ _; exact Seg.nil a
  | cons b rest ih =>
    intro a hseg hpres
    rw [Seg_cons] at hseg ⊢
    rw [List.dropLast_cons₂] at hpres
    refine ⟨?_, ih b hseg.2 ?_⟩
    · rw [hpres a (List.mem_cons_self _ _)]
      exact hseg.1
    · intro x hx
      cases rest with
      | nil => simp at hx
      | cons c cs =>
        exact hpres x (List.mem_cons_of_mem a hx)

theorem predAt_val_lt (h : Heap) (hd tl : NodeId) (chain : List NodeId)
    (v : Int) (i : Nat) (inv : Inv0 h hd tl chain) (hv1 : VAL_MIN < v) :
    valOf h (predAt h hd chain v i) < v := by
  rcases predAt_cases h hd chain v i with h1c | h1c
  · rw [h1c]
    obtain ⟨n, hg, hval, _⟩ := inv.head_node
    have hvh : valOf h hd = n.val := by rw [valOf, hg]
    rw [hvh, hval]
    exact hv1
  · have := (List.mem_filter.mp h1c).2
    simpa using this

end MLSkip

namespace MLSkip

/-- After the full splice, the state satisfies the structural invariant on
the chain with the new node inserted at its sorted position, stays live,
and its value list is the ordered insertion of `v`. -/
theorem splice_Inv0 (h1 h4 : Heap) (hd tl : NodeId) (chain : List NodeId)
    (v : Int) (newId : NodeId) (nnew : Node) (lvl : Nat) (nx : List Ptr)
    (inv1 : Inv0 h1 hd tl chain) (hlive1 : InvLive h1 chain)
    (st : LinkSt h1 hd chain v newId nnew lvl lvl h4)
    (hfresh : ∀ x, x = hd ∨ x = tl ∨ x ∈ chain → x ≠ newId)
    (hnnew : nnew = { val := v, deleted := false, toplevel := lvl, next := nx })
    (hnxlen : nx.length = lvl)
    (hnx : ∀ j, j < lvl → nx.get? j
      = some (Ptr.mk (some (succAt h1 tl chain v j)) false))
    (hv1 : VAL_MIN < v) (hv2 : v < VAL_MAX)
    (hvnot : v ∉ chain.map (valOf h1))
    (hlvl1 : 1 ≤ lvl) (hlvlmax : lvl ≤ levelmax) :
    Inv0 h4 hd tl
      (chain.filter (fun x => decide (valOf h1 x < v)) ++ newId ::
        chain.filter (fun x => ! decide (valOf h1 x < v))) ∧
    InvLive h4
      (chain.filter (fun x => decide (valOf h1 x < v)) ++ newId ::
        chain.filter (fun x => ! decide (valOf h1 x < v))) ∧
    ((chain.filter (fun x => decide (valOf h1 x < v)) ++ newId ::
        chain.filter (fun x => ! decide (valOf h1 x < v))).map (valOf h4)
      = (chain.map (valOf h1)).orderedInsert (· ≤ ·) v) := by
  set A0 := chain.filter (fun x => decide (valOf h1 x < v)) with hA0
  set B0 := chain.filter (fun x => ! decide (valOf h1 x < v)) with hB0
  have hsplit0 : chain = A0 ++ B0 := sorted_split h1 v chain inv1.sorted
  have hvalA : ∀ x ∈ A0, valOf h1 x < v := by
    intro x hx
    have := (List.mem_filter.mp hx).2
    simpa using this
  have hsubA : ∀ x ∈ A0, x ∈ chain := fun x hx => (List.mem_filter.mp hx).1
  have hsubB : ∀ x ∈ B0, x ∈ chain := fun x hx => (List.mem_filter.mp hx).1
  have hvalB : ∀ x ∈ B0, v < valOf h1 x := by
    intro x hx
    have h5 : ¬ valOf h1 x < v := by
      have := (List.mem_filter.mp hx).2
      simpa using this
    have h7 : valOf h1 x ≠ v := by
      intro hc
      exact hvnot (List.mem_map.mpr ⟨x, hsubB x hx, hc⟩)
    omega
  have hvalpres : ∀ x ∈ chain, valOf h4 x = valOf h1 x := by
    intro x hx
    obtain ⟨n, hg, _⟩ := inv1.chain_node x hx
    obtain ⟨n2, hg2, hvv, _, _, _⟩ :=
      st.shape x n (hfresh x (Or.inr (Or.inr hx))) hg
    have e1 : valOf h4 x = n2.val := by rw [valOf, hg2]
    have e2 : valOf h1 x = n.val := by rw [valOf, hg]
    rw [e1, e2, hvv]
  have htoppres : ∀ x ∈ chain, toplevelOf h4 x = toplevelOf h1 x := by
    intro x hx
    obtain ⟨n, hg, _⟩ := inv1.chain_node x hx
    obtain ⟨n2, hg2, _, htt, _, _⟩ :=
      st.shape x n (hfresh x (Or.inr (Or.inr hx))) hg
    have e1 : toplevelOf h4 x = n2.toplevel := by rw [toplevelOf, hg2]
    have e2 : toplevelOf h1 x = n.toplevel := by rw [toplevelOf, hg]
    rw [e1, e2, htt]
  have hvalnew : valOf h4 newId = v := by
    have e1 : valOf h4 newId = nnew.val := by rw [valOf, st.get_new]
    rw [e1, hnnew]
  have htopnew : toplevelOf h4 newId = lvl := by
    have e1 : toplevelOf h4 newId = nnew.toplevel := by rw [toplevelOf, st.get_new]
    rw [e1, hnnew]
  obtain ⟨hhdtl, hhdch, htlch, hchnd⟩ := nodup_facts hd tl chain inv1.nodup
  have hPval : ∀ i, valOf h1 (predAt h1 hd chain v i) < v :=
    fun i => predAt_val_lt h1 hd tl chain v i inv1 hv1
  have htlP : ∀ j, j < lvl → tl ≠ predAt h1 hd chain v j := by
    intro j hj hc
    have h5 := hPval j
    rw [← hc] at h5
    have hvt : valOf h1 tl = VAL_MAX := by rw [valOf, inv1.tail_node]
    rw [hvt] at h5
    rw [VAL_MAX] at h5
    rw [VAL_MAX] at hv2
    omega
  have hmap2 : (A0 ++ newId :: B0).map (valOf h4)
      = A0.map (valOf h1) ++ v :: B0.map (valOf h1) := by
    rw [List.map_append, List.map_cons, hvalnew]
    congr 1
    · apply List.map_congr_left
      intro x hx
      exact hvalpres x (hsubA x hx)
    · congr 1
      apply List.map_congr_left
      intro x hx
      exact hvalpres x (hsubB x hx)
  refine ⟨⟨?_, ?_, ?_, ?_, ?_, ?_⟩, ?_, ?_⟩
  · -- head_node
    obtain ⟨n, hg, hval, ht, hl, hdel⟩ := inv1.head_node
    obtain ⟨n2, hg2, e1, e2, e3, e4⟩ := st.shape hd n (hfresh hd (Or.inl rfl)) hg
    exact ⟨n2, hg2, by rw [e1, hval], by rw [e2, ht], by rw [e4, hl],
      by rw [e3, hdel]⟩
  · -- tail_node
    rw [st.get_keep tl (hfresh tl (Or.inr (Or.inl rfl))) htlP]
    exact inv1.tail_node
  · -- chain_node
    intro x hx
    rw [List.mem_append, List.mem_cons] at hx
    rcases hx with hx | hx | hx
    · obtain ⟨n, hg, f1, f2, f3, f4, f5⟩ := inv1.chain_node x (hsubA x hx)
      obtain ⟨n2, hg2, e1, e2, e3, e4⟩ :=
        st.shape x n (hfresh x (Or.inr (Or.inr (hsubA x hx)))) hg
      exact ⟨n2, hg2, by rw [e4, e2, f1], by rw [e2]; omega, by rw [e2]; omega,
        by rw [e1]; omega, by rw [e1]; omega⟩
    · subst hx
      refine ⟨nnew, st.get_new, ?_, ?_, ?_, ?_, ?_⟩
      · rw [hnnew]; exact hnxlen
      · rw [hnnew]; exact hlvl1
      · rw [hnnew]; exact hlvlmax
      · rw [hnnew]; exact hv1
      · rw [hnnew]; exact hv2
    · obtain ⟨n, hg, f1, f2, f3, f4, f5⟩ := inv1.chain_node x (hsubB x hx)
      obtain ⟨n2, hg2, e1, e2, e3, e4⟩ :=
        st.shape x n (hfresh x (Or.inr (Or.inr (hsubB x hx)))) hg
      exact ⟨n2, hg2, by rw [e4, e2, f1], by rw [e2]; omega, by rw [e2]; omega,
        by rw [e1]; omega, by rw [e1]; omega⟩
  · -- nodup
    have hml : (hd :: (A0 ++ newId :: B0)) ++ [tl]
        = (hd :: A0) ++ newId :: (B0 ++ [tl]) := by simp
    have hmr : newId :: ((hd :: A0) ++ (B0 ++ [tl]))
        = newId :: ((hd :: (A0 ++ B0)) ++ [tl]) := by simp
    have hperm : List.Perm ((hd :: (A0 ++ newId :: B0)) ++ [tl])
        (newId :: ((hd :: chain) ++ [tl])) := by
      rw [hsplit0, hml, ← hmr]
      exact List.perm_middle
    have hbase : ((hd :: chain) ++ [tl]).Nodup := by
      have := inv1.nodup
      rw [List.cons_append] at this
      rw [List.cons_append]
      exact this
    have hnot : newId ∉ (hd :: chain) ++ [tl] := by
      intro hc
      rw [List.cons_append, List.mem_cons, List.mem_append,
        List.mem_singleton] at hc
      rcases hc with hc | hc | hc
      · exact hfresh newId (Or.inl hc) rfl
      · exact hfresh newId (Or.inr (Or.inr hc)) rfl
      · exact hfresh newId (Or.inr (Or.inl hc)) rfl
    have : (newId :: ((hd :: chain) ++ [tl])).Nodup :=
      List.nodup_cons.mpr ⟨hnot, hbase⟩
    have h2 := hperm.symm.nodup this
    rw [List.cons_append] at h2 ⊢
    exact h2
  · -- sorted
    rw [hmap2]
    have hsortA : (A0.map (valOf h1)).Pairwise (fun a b => a < b) :=
      inv1.sorted.sublist ((List.filter_sublist chain).map (valOf h1))
    have hsortB : (B0.map (valOf h1)).Pairwise (fun a b => a < b) :=
      inv1.sorted.sublist ((List.filter_sublist chain).map (valOf h1))
    rw [List.pairwise_append]
    refine ⟨hsortA, ?_, ?_⟩
    · rw [List.pairwise_cons]
      refine ⟨?_, hsortB⟩
      intro b hb
      obtain ⟨x, hx, hvx⟩ := List.mem_map.mp hb
      rw [← hvx]
      exact hvalB x hx
    · intro a ha b hb
      obtain ⟨x, hx, hvx⟩ := List.mem_map.mp ha
      rw [List.mem_cons] at hb
      have hav : a < v := by
        rw [← hvx]
        exact hvalA x hx
      rcases hb with rfl | hb
      · exact hav
      · obtain ⟨y, hy, hvy⟩ := List.mem_map.mp hb
        have := hvalB y hy
        omega
  · -- links
    intro i hi
    set Ai := (towers h1 chain i).filter (fun x => decide (valOf h1 x < v))
      with hAi
    set Bi := (towers h1 chain i).filter (fun x => ! decide (valOf h1 x < v))
      with hBi
    have hsplitT : towers h1 chain i = Ai ++ Bi :=
      sorted_split h1 v (towers h1 chain i) (towers_sorted h1 chain i inv1.sorted)
    have hsubAi : ∀ x ∈ Ai, x ∈ chain := fun x hx =>
      ((mem_towers h1 chain i x).mp (List.mem_filter.mp hx).1).1
    have hsubBi : ∀ x ∈ Bi, x ∈ chain := fun x hx =>
      ((mem_towers h1 chain i x).mp (List.mem_filter.mp hx).1).1
    have hvalBi : ∀ x ∈ Bi, v < valOf h1 x := by
      intro x hx
      have h5 : ¬ valOf h1 x < v := by
        have := (List.mem_filter.mp hx).2
        simpa using this
      have h7 : valOf h1 x ≠ v := by
        intro hc
        exact hvnot (List.mem_map.mpr ⟨x, hsubBi x hx, hc⟩)
      omega
    have hnodupAi : (hd :: Ai).Nodup := by
      rw [List.nodup_cons]
      refine ⟨fun hc => hhdch (hsubAi hd hc), ?_⟩
      have h5 : (towers h1 chain i).Nodup :=
        (List.filter_sublist chain).nodup hchnd
      exact (List.filter_sublist _).nodup h5
    have htow2 : towers h4 (A0 ++ newId :: B0) i
        = Ai ++ (if i < lvl then newId :: Bi else Bi) := by
      rw [towers, List.filter_append, List.filter_cons]
      have e1 : A0.filter (fun x => decide (i < toplevelOf h4 x)) = Ai := by
        have e1a : A0.filter (fun x => decide (i < toplevelOf h4 x))
            = A0.filter (fun x => decide (i < toplevelOf h1 x)) :=
          List.filter_congr (fun x hx => by rw [htoppres x (hsubA x hx)])
        have e1b : A0.filter (fun x => decide (i < toplevelOf h1 x))
            = towers h1 A0 i := rfl
        rw [e1a, e1b, hA0, towers_filter_lt, ← hAi]
      have e2 : B0.filter (fun x => decide (i < toplevelOf h4 x)) = Bi := by
        have e2a : B0.filter (fun x => decide (i < toplevelOf h4 x))
            = B0.filter (fun x => decide (i < toplevelOf h1 x)) :=
          List.filter_congr (fun x hx => by rw [htoppres x (hsubB x hx)])
        have e2b : B0.filter (fun x => decide (i < toplevelOf h1 x))
            = towers h1 B0 i := rfl
        rw [e2a, e2b, hB0, towers_filter_ge, ← hBi]
      rw [e1, e2, htopnew]
      by_cases hil : i < lvl
      · rw [if_pos (by simpa using hil), if_pos hil]
      · rw [if_neg (by simpa using hil), if_neg hil]
    have hSegOld : Seg h1 i hd ((Ai ++ Bi) ++ [tl]) := by
      have := inv1.links i hi
      rw [hsplitT] at this
      exact this
    rw [htow2]
    by_cases hil : i < lvl
    · rw [if_pos hil]
      -- decompose the old segment
      have hdec := (Seg_append h1 i Ai (Bi ++ [tl]) hd).mp
        (by rw [← List.append_assoc]; exact hSegOld)
      -- piece A: hd to the new node
      have hSegA4 : Seg h4 i hd Ai := by
        apply Seg_congr3 h1 h4 i Ai hd hdec.1
        intro x hx
        have hxne : x ≠ newId := by
          have hxm : x ∈ hd :: Ai := List.mem_of_mem_dropLast hx
          rcases List.mem_cons.mp hxm with rfl | hxm2
          · exact hfresh x (Or.inl rfl)
          · exact hfresh x (Or.inr (Or.inr (hsubAi x hxm2)))
        have hxnp : x ≠ predAt h1 hd chain v i := by
          have := mem_dropLast_ne Ai hd hnodupAi x hx
          exact this
        exact st.next_same x i hxne (fun hc => hxnp hc.2.2)
      have hSegAN : Seg h4 i hd (Ai ++ [newId]) := by
        apply (Seg_append h4 i Ai [newId] hd).mpr
        refine ⟨hSegA4, ?_⟩
        apply (Seg_cons h4 i _ newId []).mpr
        exact ⟨st.next_pred i hil hil, Seg.nil newId⟩
      -- piece B: the new node onward
      obtain ⟨c, cs, hcc⟩ : ∃ c cs, Bi ++ [tl] = c :: cs := by
        cases Bi <;> exact ⟨_, _, rfl⟩
      have hcS : c = succAt h1 tl chain v i := by
        have e1 : (Bi ++ [tl]).headD tl = c := by rw [hcc]; rfl
        rw [headD_append_single] at e1
        rw [← e1]
        rfl
      have hmemBt : ∀ x, x ∈ c :: cs → x ∈ Bi ∨ x = tl := by
        intro x hx
        rw [← hcc, List.mem_append, List.mem_singleton] at hx
        exact hx
      have hSegB4 : Seg h4 i c cs := by
        have hold : Seg h1 i c cs := by
          have := hdec.2
          rw [hcc, Seg_cons] at this
          exact this.2
        apply Seg_congr h1 h4 i cs c hold
        intro x hx
        have hxbt : x ∈ Bi ∨ x = tl := by
          rcases hx with h9 | h9
          · exact hmemBt x (by rw [h9]; exact List.mem_cons_self _ _)
          · exact hmemBt x (List.mem_cons_of_mem c h9)
        have hxne : x ≠ newId := by
          rcases hxbt with h5 | rfl
          · exact hfresh x (Or.inr (Or.inr (hsubBi x h5)))
          · exact hfresh x (Or.inr (Or.inl rfl))
        have hxnp : x ≠ predAt h1 hd chain v i := by
          intro hc
          have h6 := hPval i
          rw [← hc] at h6
          rcases hxbt with h5 | rfl
          · have := hvalBi x h5
            omega
          · have hvt : valOf h1 x = VAL_MAX := by rw [valOf, inv1.tail_node]
            rw [hvt] at h6
            rw [VAL_MAX] at h6
            rw [VAL_MAX] at hv2
            omega
        exact st.next_same x i hxne (fun hc => hxnp hc.2.2)
      have hSegN : Seg h4 i newId (Bi ++ [tl]) := by
        rw [hcc]
        apply (Seg_cons h4 i newId c cs).mpr
        refine ⟨?_, hSegB4⟩
        have e1 : h4.nextAt newId i = nnew.next.get? i := by
          rw [Heap.nextAt, st.get_new]
          rfl
        rw [e1, hnnew]
        have e2 : nx.get? i
            = some (Ptr.mk (some (succAt h1 tl chain v i)) false) := hnx i hil
        rw [e2, hcS]
      -- assemble
      have hfin : Seg h4 i hd ((Ai ++ [newId]) ++ (Bi ++ [tl])) := by
        apply (Seg_append h4 i (Ai ++ [newId]) (Bi ++ [tl]) hd).mpr
        refine ⟨hSegAN, ?_⟩
        rw [getLastD_append_cons Ai newId [] hd]
        exact hSegN
      have hshape : (Ai ++ [newId]) ++ (Bi ++ [tl])
          = (Ai ++ newId :: Bi) ++ [tl] := by simp
      rw [hshape] at hfin
      exact hfin
    · rw [if_neg hil]
      apply Seg_congr h1 h4 i ((Ai ++ Bi) ++ [tl]) hd hSegOld
      intro x hx
      have hxm : x = hd ∨ x ∈ chain ∨ x = tl := by
        rcases hx with rfl | hx
        · exact Or.inl rfl
        · rw [List.mem_append, List.mem_append, List.mem_singleton] at hx
          rcases hx with (hx | hx) | hx
          · exact Or.inr (Or.inl (hsubAi x hx))
          · exact Or.inr (Or.inl (hsubBi x hx))
          · exact Or.inr (Or.inr hx)
      have hxne : x ≠ newId := by
        rcases hxm with rfl | hx | rfl
        · exact hfresh x (Or.inl rfl)
        · exact hfresh x (Or.inr (Or.inr hx))
        · exact hfresh x (Or.inr (Or.inl rfl))
      exact st.next_same x i hxne (fun hc => hil hc.1)
  · -- InvLive
    intro x hx
    rw [List.mem_append, List.mem_cons] at hx
    rcases hx with hx | hx | hx
    · obtain ⟨n, hg, hdel⟩ := hlive1 x (hsubA x hx)
      obtain ⟨n2, hg2, _, _, e3, _⟩ :=
        st.shape x n (hfresh x (Or.inr (Or.inr (hsubA x hx)))) hg
      exact ⟨n2, hg2, by rw [e3, hdel]⟩
    · subst hx
      exact ⟨nnew, st.get_new, by rw [hnnew]⟩
    · obtain ⟨n, hg, hdel⟩ := hlive1 x (hsubB x hx)
      obtain ⟨n2, hg2, _, _, e3, _⟩ :=
        st.shape x n (hfresh x (Or.inr (Or.inr (hsubB x hx)))) hg
      exact ⟨n2, hg2, by rw [e3, hdel]⟩
  · -- value list
    rw [hmap2]
    have hmapold : chain.map (valOf h1) = A0.map (valOf h1) ++ B0.map (valOf h1) := by
      rw [hsplit0, List.map_append]
    rw [hmapold]
    rw [orderedInsert_split v (A0.map (valOf h1)) (B0.map (valOf h1))]
    · intro a ha
      obtain ⟨x, hx, hvx⟩ := List.mem_map.mp ha
      rw [← hvx]
      exact hvalA x hx
    · intro b hb
      obtain ⟨y, hy, hvy⟩ := List.mem_map.mp hb
      rw [← hvy]
      exact hvalB y hy

end MLSkip


namespace MLSkip

theorem sl_add_unfold (s : IntSet) (pos : Int → ℚ) (tbl : List ShiftEntry)
    (T : Nat) (v : Int) (lvl : Nat) (fuel rf arf : Nat) :
    sl_add s pos tbl T v lvl fuel rf arf = (do
      let (res, h2, it) ← sl_add_loop pos tbl T v s.heap.nodes.length lvl
        fuel rf arf (s.heap.alloc (sl_new_simple_node v lvl)).1
        (List.replicate levelmax none) (List.replicate levelmax none) 0
      pure (res, (⟨h2, s.head⟩ : IntSet), it)) := rfl

/-- The tail of one `sl_add_loop` iteration whose search came back with
the canonical arrays over an invariant state and an absent value: the
splice succeeds and the new state satisfies the invariant with the fresh
node at its sorted position. -/
theorem sl_add_loop_post (hA : Heap) (hd tl : NodeId) (chainA : List NodeId)
    (pos : Int → ℚ) (tbl : List ShiftEntry) (T : Nat) (v : Int)
    (newId : NodeId) (lvl : Nat) (fuel rf arf : Nat) (h0 : Heap)
    (preds succs p2 s2 : List (Option NodeId)) (it it2 : Nat)
    (hsearch : fraser_search pos tbl T v true true fuel rf h0 preds succs it
      = some ⟨hA, p2, s2, it2⟩)
    (invA : Inv0 hA hd tl chainA) (hliveA : InvLive hA chainA)
    (hgnew : hA.get newId = some (sl_new_simple_node v lvl))
    (hfresh : ∀ x, x = hd ∨ x = tl ∨ x ∈ chainA → x ≠ newId)
    (hP : ∀ j, j < lvl → p2.get? j = some (some (predAt hA hd chainA v j)))
    (hS : ∀ j, j < lvl → s2.get? j = some (some (succAt hA tl chainA v j)))
    (hs0 : s2.get? 0 = some (some (succAt hA tl chainA v 0)))
    (hv1 : VAL_MIN < v) (hv2 : v < VAL_MAX)
    (hvnot : v ∉ chainA.map (valOf hA))
    (hlvl1 : 1 ≤ lvl) (hlvlmax : lvl ≤ levelmax) (hfuel1 : 1 ≤ fuel) :
    ∃ h4,
      sl_add_loop pos tbl T v newId lvl fuel rf (arf+1) h0 preds succs it
        = some (1, h4, it2) ∧
      Inv0 h4 hd tl
        (chainA.filter (fun x => decide (valOf hA x < v)) ++ newId ::
          chainA.filter (fun x => ! decide (valOf hA x < v))) ∧
      InvLive h4
        (chainA.filter (fun x => decide (valOf hA x < v)) ++ newId ::
          chainA.filter (fun x => ! decide (valOf hA x < v))) ∧
      (chainA.filter (fun x => decide (valOf hA x < v)) ++ newId ::
          chainA.filter (fun x => ! decide (valOf hA x < v))).map (valOf h4)
        = (chainA.map (valOf hA)).orderedInsert (· ≤ ·) v := by
  have h0lvl : 0 < lvl := hlvl1
  obtain ⟨hiff, hmem⟩ := succ0_spec hA hd tl chainA v invA hv2
  obtain ⟨sn, hsn⟩ := get_of_mem_or_tl hA hd tl chainA invA _ hmem
  have hsnval : sn.val ≠ v := by
    intro hcv
    apply hvnot
    apply hiff.mp
    rw [valOf, hsn]
    exact hcv
  obtain ⟨h2, nx, hsetrun, hg2new, hnxlen, hnxset, _, hg2old⟩ :=
    setNewNexts_spec newId s2 hA (sl_new_simple_node v lvl) lvl
      (succAt hA tl chainA v) hgnew (by simp [sl_new_simple_node])
      (fun i hi => hS i hi) lvl (le_refl _)
  obtain ⟨h3, hcas, st1⟩ := LinkSt_init hA h2 hd tl chainA v newId
    { sl_new_simple_node v lvl with next := nx } lvl invA hfresh hg2new hg2old
    hlvl1 hlvlmax (by omega)
  have hnxget : ∀ j, j < lvl →
      ({ sl_new_simple_node v lvl with next := nx } : Node).next.get? j
      = some (Ptr.mk (some (succAt hA tl chainA v j)) false) := by
    intro j hj
    exact hnxset j hj
  obtain ⟨h4, hlevels, stF⟩ := linkLevels_clean hA hd tl chainA v newId
    { sl_new_simple_node v lvl with next := nx } lvl pos tbl T fuel rf fuel
    p2 s2 invA hfresh hnxget hP hS hlvlmax (by omega) hv2 hvnot
    (lvl - 1) h3 it2 (by omega) st1
  have stF2 : LinkSt hA hd chainA v newId
      { sl_new_simple_node v lvl with next := nx } lvl lvl h4 := by
    have e1 : lvl - 1 + 1 = lvl := Nat.succ_pred_eq_of_pos h0lvl
    rw [e1] at stF
    exact stF
  obtain ⟨hinv2, hlive2, hmap2⟩ := splice_Inv0 hA h4 hd tl chainA v newId
    { sl_new_simple_node v lvl with next := nx } lvl nx invA hliveA stF2
    hfresh rfl hnxlen hnxset hv1 hv2 hvnot hlvl1 hlvlmax
  refine ⟨h4, ?_, hinv2, hlive2, hmap2⟩
  rw [sl_add_loop, hsearch]
  simp only [Option.bind_eq_bind, Option.some_bind, hs0, id_eq]
  rw [hsn]
  simp only [Option.some_bind]
  rw [if_neg hsnval]
  rw [hsetrun]
  simp only [Option.some_bind, hP 0 h0lvl, id_eq]
  rw [hcas]
  simp only [Option.some_bind]
  rw [if_pos trivial]
  rw [hlevels]
  simp only [Option.some_bind]
  rfl

/-- Fuel band needed by `sl_add_loop_post`'s callers is folded in here:
`sl_add` on an absent value inserts, and the new state satisfies the
invariant on the chain with a fresh node at the sorted position. -/
theorem sl_add_insert (s : IntSet) (tl : NodeId) (chain : List NodeId)
    (pos : Int → ℚ) (tbl : List ShiftEntry) (T : Nat) (v : Int) (lvl : Nat)
    (fuel rf arf : Nat)
    (inv : Inv0 s.heap s.head tl chain) (hlive : InvLive s.heap chain)
    (htab : tableOK tbl T s.head tl) (hT : 2 ≤ T)
    (hpos : ∀ x, 0 ≤ pos x ∧ pos x < 1)
    (hv1 : VAL_MIN < v) (hv2 : v < VAL_MAX)
    (hvnot : v ∉ chain.map (valOf s.heap))
    (hlvl1 : 1 ≤ lvl) (hlvlmax : lvl ≤ levelmax)
    (hfuel : chain.length + 2 ≤ fuel) (hrf : 1 ≤ rf) (harf : 1 ≤ arf) :
    ∃ chain2 h4 it,
      sl_add s pos tbl T v lvl fuel rf arf = some (1, ⟨h4, s.head⟩, it) ∧
      Inv0 h4 s.head tl chain2 ∧ InvLive h4 chain2 ∧
      chain2.length = chain.length + 1 ∧
      chain2.map (valOf h4)
        = (chain.map (valOf s.heap)).orderedInsert (· ≤ ·) v := by
  rcases arf with _ | arf2
  · omega
  have h0max : (0:Nat) < levelmax := by rw [levelmax]; omega
  set newId := s.heap.nodes.length with hnewIddef
  set h1 := (s.heap.alloc (sl_new_simple_node v lvl)).1 with hh1
  have hc : ∀ x ∈ chain, h1.get x = s.heap.get x := by
    intro x hx
    obtain ⟨nx0, hg, _⟩ := inv.chain_node x hx
    exact get_alloc s.heap _ x (by rw [hg]; rfl)
  have inv1 : Inv0 h1 s.head tl chain := Inv0_alloc s.heap s.head tl chain _ inv
  have hlive1 : InvLive h1 chain := InvLive_alloc s.heap chain _ hlive
  have hstart1 : startsAtHead h1 tbl pos T v s.head :=
    startsAtHead_of_tableOK h1 s.head tl chain tbl pos T v inv1 htab hT hpos hv1 hv2
  have hvnot1 : v ∉ chain.map (valOf h1) := by
    rw [map_valOf_congr s.heap h1 chain hc]
    exact hvnot
  have hfresh : ∀ x, x = s.head ∨ x = tl ∨ x ∈ chain → x ≠ newId := by
    intro x hx
    have hgx : (s.heap.get x).isSome := by
      rcases hx with rfl | rfl | hx
      · obtain ⟨n, hg, _⟩ := inv.head_node
        rw [hg]; rfl
      · rw [inv.tail_node]; rfl
      · obtain ⟨n, hg, _⟩ := inv.chain_node x hx
        rw [hg]; rfl
    have := get_lt_length s.heap x hgx
    rw [hnewIddef]
    exact Nat.ne_of_lt this
  obtain ⟨p2, s2, it2, hq, hl1, hl2, hchar, _, _⟩ :=
    fraser_search_clean h1 s.head tl chain pos tbl T v true true fuel rf
      inv1 hstart1 (by omega) hfuel hrf
      (List.replicate levelmax none) (List.replicate levelmax none) 0
      (by simp) (by simp)
  have hP : ∀ j, j < lvl → p2.get? j
      = some (some (predAt h1 s.head chain v j)) := by
    intro j hj
    exact (hchar j (by omega)).1 rfl
  have hS : ∀ j, j < lvl → s2.get? j
      = some (some (succAt h1 tl chain v j)) := by
    intro j hj
    exact (hchar j (by omega)).2 rfl
  have hs0 : s2.get? 0 = some (some (succAt h1 tl chain v 0)) :=
    (hchar 0 h0max).2 rfl
  have hg1new : h1.get newId = some (sl_new_simple_node v lvl) :=
    get_alloc_self s.heap _
  obtain ⟨h4, hrun, hinv2, hlive2, hmap2⟩ :=
    sl_add_loop_post h1 s.head tl chain pos tbl T v newId lvl fuel rf arf2
      h1 (List.replicate levelmax none) (List.replicate levelmax none) p2 s2
      0 it2 hq inv1 hlive1 hg1new hfresh hP hS hs0 hv1 hv2 hvnot1 hlvl1 hlvlmax
      (by omega)
  refine ⟨_, h4, it2, ?_, hinv2, hlive2, ?_, ?_⟩
  · rw [sl_add_unfold]
    simp only [Option.bind_eq_bind]
    rw [← hh1, ← hnewIddef, hrun]
    simp only [Option.some_bind]
    rfl
  · have := congrArg List.length hmap2
    rw [List.length_map, List.orderedInsert_length, List.length_map] at this
    exact this
  · rw [← map_valOf_congr s.heap h1 chain hc]
    exact hmap2

end MLSkip


namespace MLSkip

/-- `level_decomp` over an arbitrary sorted level list `L` (no invariant
needed): decomposition of the list around the key from a good start. -/
theorem list_decomp (h : Heap) (hd tl : NodeId) (L : List NodeId)
    (v : Int) (i : Nat)
    (hseg : Seg h i hd (L ++ [tl]))
    (hsorted : (L.map (valOf h)).Pairwise (fun a b => a < b))
    (htln : h.nextAt tl i = some Ptr.null)
    (hvt : v ≤ valOf h tl)
    (left : NodeId)
    (hleft : left = hd ∨ left ∈ L.filter (fun x => decide (valOf h x < v))) :
    ∃ u w pw,
      Seg h i left (u ++ [w]) ∧
      (∀ x ∈ u, x ∈ L.filter (fun x => decide (valOf h x < v))) ∧
      (∀ x ∈ u, valOf h x < v) ∧
      h.nextAt w i = some pw ∧ pw.marked = false ∧
      v ≤ valOf h w ∧
      u.length ≤ L.length ∧
      u.getLastD left
        = (L.filter (fun x => decide (valOf h x < v))).getLastD hd ∧
      w = (L.filter (fun x => ! decide (valOf h x < v))).headD tl ∧
      h.nextAt left i = some (Ptr.mk (some ((u ++ [w]).headD w)) false) := by
  set A := L.filter (fun x => decide (valOf h x < v)) with hA
  set B := L.filter (fun x => ! decide (valOf h x < v)) with hB
  have hsplit : L = A ++ B := sorted_split h v L hsorted
  have hAv : ∀ x ∈ A, valOf h x < v := by
    intro x hx
    have := (List.mem_filter.mp hx).2
    simpa using this
  have hBv : ∀ x ∈ B, v ≤ valOf h x := by
    intro x hx
    have h5 := (List.mem_filter.mp hx).2
    simp at h5
    omega
  have hwvgen : ∀ (M : List NodeId), (∀ x ∈ M, v ≤ valOf h x) →
      v ≤ valOf h (M.headD tl) := by
    intro M hM
    cases M with
    | nil => rw [List.headD]; omega
    | cons b B2 => exact hM b (List.mem_cons_self b B2)
  have hwv : v ≤ valOf h (B.headD tl) := hwvgen B hBv
  have hseg0 : Seg h i hd (A ++ (B ++ [tl])) := by
    rw [hsplit, List.append_assoc] at hseg
    exact hseg
  have hlenA : A.length ≤ L.length := List.length_filter_le _ _
  rcases hleft with rfl | hmem
  · obtain ⟨pw, hs1, hs2, hs3⟩ := Seg_break h i left tl A B hseg0 htln
    refine ⟨A, (B ++ [tl]).headD tl, pw, hs1, ?_, hAv, hs2, hs3, ?_, ?_, rfl,
      ?_, ?_⟩
    · intro x hx; exact hx
    · rw [headD_append_single]; exact hwv
    · omega
    · rw [headD_append_single]
    · obtain ⟨c, cs, hcc⟩ : ∃ c cs, A ++ [(B ++ [tl]).headD tl] = c :: cs := by
        cases A <;> exact ⟨_, _, rfl⟩
      rw [hcc] at hs1 ⊢
      rw [Seg_cons] at hs1
      simpa using hs1.1
  · obtain ⟨C, u0, hCu⟩ := List.append_of_mem hmem
    have hsegL : Seg h i left (u0 ++ (B ++ [tl])) := by
      have h6 : Seg h i hd ((C ++ [left]) ++ (u0 ++ (B ++ [tl]))) := by
        have h7 := hseg0
        rw [hCu] at h7
        simpa [List.append_assoc] using h7
      have h8 := (Seg_append h i (C ++ [left]) (u0 ++ (B ++ [tl])) hd).mp h6
      have h9 : (C ++ [left]).getLastD hd = left := getLastD_append_cons C left [] hd
      rw [h9] at h8
      exact h8.2
    obtain ⟨pw, hs1, hs2, hs3⟩ := Seg_break h i left tl u0 B hsegL htln
    refine ⟨u0, (B ++ [tl]).headD tl, pw, hs1, ?_, ?_, hs2, hs3, ?_, ?_, ?_,
      ?_, ?_⟩
    · intro x hx
      rw [hCu]
      simp [hx]
    · intro x hx
      apply hAv
      rw [hCu]
      simp [hx]
    · rw [headD_append_single]; exact hwv
    · have h6 : u0.length ≤ A.length := by
        rw [hCu]
        simp
        omega
      omega
    · rw [hCu, getLastD_append_cons]
    · rw [headD_append_single]
    · obtain ⟨c, cs, hcc⟩ : ∃ c cs, u0 ++ [(B ++ [tl]).headD tl] = c :: cs := by
        cases u0 <;> exact ⟨_, _, rfl⟩
      rw [hcc] at hs1 ⊢
      rw [Seg_cons] at hs1
      simpa using hs1.1

/-- Decomposition of the dirty below-`v` prefix ending at the dead node. -/
theorem prefix_decomp (h : Heap) (i : Nat) (hd dend : NodeId)
    (L : List NodeId)
    (hseg : Seg h i hd (L ++ [dend]))
    (left : NodeId) (hleft : left = hd ∨ left ∈ L) :
    ∃ u,
      Seg h i left (u ++ [dend]) ∧
      (∀ x ∈ u, x ∈ L) ∧
      u.length ≤ L.length ∧
      u.getLastD left = L.getLastD hd ∧
      h.nextAt left i
        = some (Ptr.mk (some ((u ++ [dend]).headD dend)) false) := by
  rcases hleft with rfl | hmem
  · refine ⟨L, hseg, fun x hx => hx, le_refl _, rfl, ?_⟩
    obtain ⟨c, cs, hcc⟩ : ∃ c cs, L ++ [dend] = c :: cs := by
      cases L <;> exact ⟨_, _, rfl⟩
    rw [hcc] at hseg ⊢
    rw [Seg_cons] at hseg
    simpa using hseg.1
  · obtain ⟨C, u0, hCu⟩ := List.append_of_mem hmem
    have hsegL : Seg h i left (u0 ++ [dend]) := by
      have h6 : Seg h i hd ((C ++ [left]) ++ (u0 ++ [dend])) := by
        have h7 := hseg
        rw [hCu] at h7
        simpa [List.append_assoc] using h7
      have h8 := (Seg_append h i (C ++ [left]) (u0 ++ [dend]) hd).mp h6
      have h9 : (C ++ [left]).getLastD hd = left := getLastD_append_cons C left [] hd
      rw [h9] at h8
      exact h8.2
    refine ⟨u0, hsegL, ?_, ?_, ?_, ?_⟩
    · intro x hx
      rw [hCu]
      simp [hx]
    · rw [hCu]
      simp
      omega
    · rw [hCu, getLastD_append_cons]
    · obtain ⟨c, cs, hcc⟩ : ∃ c cs, u0 ++ [dend] = c :: cs := by
        cases u0 <;> exact ⟨_, _, rfl⟩
      rw [hcc] at hsegL ⊢
      rw [Seg_cons] at hsegL
      simpa using hsegL.1

/-- The level scan over a dirty level: it walks the below-`v` prefix,
skips the marked dead node, and returns the dead node's unmarked in-link
as the adjacent pair. -/
theorem findPair_dirty (h : Heap) (i : Nat) (v : Int) :
    ∀ (u : List NodeId) (a d c : NodeId) (pw : Ptr) (fuel : Nat),
      Seg h i a (u ++ [d]) →
      (∀ x ∈ u, valOf h x < v) →
      h.nextAt d i = some (Ptr.mk (some c) true) →
      h.nextAt c i = some pw → pw.marked = false →
      v ≤ valOf h c →
      u.length + 2 ≤ fuel →
      findPair h i v a (Ptr.mk (some ((u ++ [d]).headD d)) false)
          ((u ++ [d]).headD d) fuel
        = some (u.getLastD a, Ptr.mk (some d) false, c, pw) := by
  intro u
  induction u with
  | nil =>
    intro a d c pw fuel hseg hu hd hc hm hv hfuel
    rcases fuel with _ | f
    · omega
    rcases f with _ | f2
    · simp at hfuel
    · simp only [List.nil_append, List.headD, List.getLastD]
      rw [findPair]
      have hskip : skipMarked h i d (f2+1+1) = some (c, pw) := by
        rw [skipMarked, hd]
        simp only [Option.bind_eq_bind, Option.some_bind]
        rw [if_pos (by simp)]
        exact skipMarked_clean h i c pw f2 hc hm
      rw [hskip]
      simp only [Option.bind_eq_bind, Option.some_bind]
      have hgc : (h.get c).isSome := get_isSome_of_nextAt h c i pw hc
      rcases hg : h.get c with _ | nc
      · rw [hg] at hgc; simp at hgc
      · simp only [Option.some_bind]
        rw [if_pos (by simp [valOf, hg] at hv ⊢; omega)]
        rfl
  | cons b rest ih =>
    intro a d c pw fuel hseg hu hd hc hm hv hfuel
    rcases fuel with _ | f
    · simp at hfuel
    · simp only [List.cons_append, List.headD, getLastD_cons]
      rw [List.cons_append, Seg_cons] at hseg
      obtain ⟨hab, hrest⟩ := hseg
      have hbnext : ∃ pb, h.nextAt b i = some pb ∧ pb.marked = false ∧
          pb.target = some ((rest ++ [d]).headD d) := by
        cases rest with
        | nil =>
          rw [List.nil_append] at hrest
          rw [Seg_cons] at hrest
          exact ⟨_, hrest.1, rfl, rfl⟩
        | cons c2 cs =>
          rw [List.cons_append] at hrest
          rw [Seg_cons] at hrest
          exact ⟨_, hrest.1, rfl, rfl⟩
      obtain ⟨pb, hpb, hpbm, hpbt⟩ := hbnext
      rw [findPair]
      rw [skipMarked_clean h i b pb f hpb hpbm]
      simp only [Option.bind_eq_bind, Option.some_bind]
      have hgb : (h.get b).isSome := get_isSome_of_nextAt h b i pb hpb
      rcases hg : h.get b with _ | nb
      · rw [hg] at hgb; simp at hgb
      · simp only [Option.some_bind]
        have hbv : valOf h b < v := hu b (by simp)
        rw [if_neg (by simp [valOf, hg] at hbv ⊢; omega)]
        rw [hpbt]
        have hpb2 : pb = Ptr.mk (some ((rest ++ [d]).headD d)) false := by
          rcases pb with ⟨t, m⟩
          rw [Ptr.mk.injEq]
          exact ⟨hpbt, hpbm⟩
        rw [hpb2]
        exact ih b d c pw f hrest (fun x hx => hu x (by simp [hx])) hd hc hm hv
          (by simp at hfuel ⊢; omega)

end MLSkip


namespace MLSkip

/-- The dirty-state invariant: a logically deleted node `d` (value `v`,
tower height `td`) sits marked in the lists; `chain` is the live chain
without `d`.  Below `td` the level list runs `head, below-v nodes, d`
with `d`'s out-pointer marked; at and above `td` the lists are clean. -/
structure InvD (h : Heap) (hd tl d : NodeId) (chain : List NodeId) (v : Int)
    (td : Nat) : Prop where
  head_node : ∃ n, h.get hd = some n ∧ n.val = VAL_MIN ∧ n.toplevel = levelmax
    ∧ n.next.length = levelmax ∧ n.deleted = false
  tail_node : h.get tl
    = some ⟨VAL_MAX, false, levelmax, List.replicate levelmax Ptr.null⟩
  chain_node : ∀ x ∈ chain, ∃ n, h.get x = some n ∧ n.next.length = n.toplevel
    ∧ 1 ≤ n.toplevel ∧ n.toplevel ≤ levelmax ∧ VAL_MIN < n.val ∧ n.val < VAL_MAX
  dead_node : ∃ n, h.get d = some n ∧ n.val = v ∧ n.toplevel = td
    ∧ n.deleted = true
  dead_fresh : d ≠ hd ∧ d ≠ tl ∧ d ∉ chain
  td1 : 1 ≤ td
  tdmax : td ≤ levelmax
  hv1 : VAL_MIN < v
  hv2 : v < VAL_MAX
  nodup : (hd :: chain ++ [tl]).Nodup
  sorted : (chain.map (valOf h)).Pairwise (fun a b => a < b)
  vnot : v ∉ chain.map (valOf h)
  links_hi : ∀ i, td ≤ i → i < levelmax →
    Seg h i hd (towers h chain i ++ [tl])
  links_lo : ∀ i, i < td →
    Seg h i hd ((towers h chain i).filter
      (fun x => decide (valOf h x < v)) ++ [d])
    ∧ h.nextAt d i = some (Ptr.mk (some
        (((towers h chain i).filter
          (fun x => ! decide (valOf h x < v))).headD tl)) true)
    ∧ Seg h i (((towers h chain i).filter
        (fun x => ! decide (valOf h x < v))).headD tl)
        ((((towers h chain i).filter
          (fun x => ! decide (valOf h x < v))) ++ [tl]).tail)

/-- Progress state of the unlinking search: levels `≥ i` (below `td`)
are already spliced around the dead node, the rest is as in `h3`. -/
structure DirtySt (h3 : Heap) (hd tl : NodeId) (chain : List NodeId)
    (v : Int) (td : Nat) (i : Nat) (h : Heap) : Prop where
  next_done : ∀ j, i ≤ j → j < td →
    h.nextAt (predAt h3 hd chain v j) j
      = some (Ptr.mk (some (succAt h3 tl chain v j)) false)
  next_same : ∀ x j, ¬ (i ≤ j ∧ j < td ∧ x = predAt h3 hd chain v j) →
    h.nextAt x j = h3.nextAt x j
  get_keep : ∀ x, (∀ j, j < td → x ≠ predAt h3 hd chain v j) →
    h.get x = h3.get x
  shape : ∀ x n, h3.get x = some n → ∃ n2, h.get x = some n2 ∧
    n2.val = n.val ∧ n2.toplevel = n.toplevel ∧ n2.deleted = n.deleted ∧
    n2.next.length = n.next.length

theorem DirtySt_refl (h3 : Heap) (hd tl : NodeId) (chain : List NodeId)
    (v : Int) (td : Nat) (hle : td ≤ levelmax) :
    DirtySt h3 hd tl chain v td levelmax h3 := by
  refine ⟨?_, ?_, ?_, ?_⟩
  · intro j hj hjtd
    omega
  · intro x j _
    rfl
  · intro x _
    rfl
  · intro x n hg
    exact ⟨n, hg, rfl, rfl, rfl, rfl⟩

theorem Seg_last_link (h : Heap) (i : Nat) (a dend : NodeId)
    (u : List NodeId) (hseg : Seg h i a (u ++ [dend])) :
    h.nextAt (u.getLastD a) i = some (Ptr.mk (some dend) false) := by
  have h2 := (Seg_append h i u [dend] a).mp hseg
  have h3 := h2.2
  rw [Seg_cons] at h3
  exact h3.1

end MLSkip

namespace MLSkip

/-- The per-level descent of the unlinking search over a dirty state: it
excises the dead node at every level below its height via the CAS path,
finds adjacent pairs cleanly above, never retries, and records the
canonical predecessors/successors of the live chain. -/
theorem levelLoop_dirty (h3 : Heap) (hd tl d : NodeId) (chain : List NodeId)
    (v : Int) (td : Nat) (invd : InvD h3 hd tl d chain v td)
    (wp ws : Bool) (fuel : Nat) (hfuel : chain.length + 3 ≤ fuel) :
    ∀ (i : Nat) (h : Heap) (left : NodeId) (preds succs : List (Option NodeId)),
      i ≤ levelmax →
      levelmax ≤ preds.length → levelmax ≤ succs.length →
      (∀ j, i = j + 1 → left = hd ∨ left ∈ (towers h3 chain j).filter
        (fun x => decide (valOf h3 x < v))) →
      DirtySt h3 hd tl chain v td i h →
      ∃ h4 preds2 succs2,
        levelLoop v wp ws fuel i h left preds succs
          = some (.done h4 preds2 succs2) ∧
        DirtySt h3 hd tl chain v td 0 h4 ∧
        preds2.length = preds.length ∧ succs2.length = succs.length ∧
        (∀ j, i ≤ j → preds2.get? j = preds.get? j ∧ succs2.get? j = succs.get? j) ∧
        (∀ j, j < i →
          (wp = true → preds2.get? j = some (some (predAt h3 hd chain v j))) ∧
          (ws = true → succs2.get? j = some (some (succAt h3 tl chain v j)))) ∧
        (wp = false → preds2 = preds) ∧ (ws = false → succs2 = succs) := by
  have hchget : ∀ x, x ∈ chain ∨ x = hd ∨ x = tl → ∃ n, h3.get x = some n := by
    intro x hx
    rcases hx with hx | rfl | rfl
    · obtain ⟨n, hg, _⟩ := invd.chain_node x hx
      exact ⟨n, hg⟩
    · obtain ⟨n, hg, _⟩ := invd.head_node
      exact ⟨n, hg⟩
    · exact ⟨_, invd.tail_node⟩
  intro i
  induction i with
  | zero =>
    intro h left preds succs _ _ _ _ st
    exact ⟨h, preds, succs, rfl, st, rfl, rfl, fun j _ => ⟨rfl, rfl⟩,
      fun j hj => absurd hj (by omega), fun _ => rfl, fun _ => rfl⟩
  | succ i ih =>
    intro h left preds succs hle hp hs hgood st
    have hgi := hgood i rfl
    have hsame_i : ∀ x, h.nextAt x i = h3.nextAt x i := by
      intro x
      exact st.next_same x i (fun hc => absurd hc.1 (by omega))
    have hvalmem : ∀ x, x ∈ chain ∨ x = hd ∨ x = tl →
        valOf h x = valOf h3 x := by
      intro x hx
      obtain ⟨n, hg⟩ := hchget x hx
      obtain ⟨n2, hg2, e1, _, _, _⟩ := st.shape x n hg
      have q1 : valOf h x = n2.val := by rw [valOf, hg2]
      have q2 : valOf h3 x = n.val := by rw [valOf, hg]
      rw [q1, q2, e1]
    have htlval : valOf h3 tl = VAL_MAX := by rw [valOf, invd.tail_node]
    have hsubtw : ∀ x ∈ towers h3 chain i, x ∈ chain := by
      intro x hx
      exact ((mem_towers h3 chain i x).mp hx).1
    have hfA : (towers h3 chain i).filter (fun x => decide (valOf h x < v))
        = (towers h3 chain i).filter (fun x => decide (valOf h3 x < v)) := by
      apply List.filter_congr
      intro x hx
      rw [hvalmem x (Or.inl (hsubtw x hx))]
    have hfB : (towers h3 chain i).filter (fun x => ! decide (valOf h x < v))
        = (towers h3 chain i).filter (fun x => ! decide (valOf h3 x < v)) := by
      apply List.filter_congr
      intro x hx
      rw [hvalmem x (Or.inl (hsubtw x hx))]
    rcases Nat.lt_or_ge i td with hitd | hitd
    · -- dirty level
      obtain ⟨hsegA3, hdptr3, hsegB3⟩ := invd.links_lo i hitd
      obtain ⟨c, hcdef⟩ : ∃ c, (((towers h3 chain i).filter
          (fun x => ! decide (valOf h3 x < v))).headD tl) = c := ⟨_, rfl⟩
      rw [hcdef] at hdptr3 hsegB3
      have hsuccc : succAt h3 tl chain v i = c := hcdef
      have hcmem : c ∈ (towers h3 chain i).filter
          (fun x => ! decide (valOf h3 x < v)) ∨ c = tl := by
        rcases hBe : (towers h3 chain i).filter
            (fun x => ! decide (valOf h3 x < v)) with _ | ⟨b, B2⟩
        · rw [hBe, List.headD] at hcdef
          exact Or.inr hcdef.symm
        · rw [hBe, List.headD] at hcdef
          left
          rw [← hcdef]
          exact List.mem_cons_self b B2
      have hcchain : c ∈ chain ∨ c = tl := by
        rcases hcmem with h5 | h5
        · exact Or.inl (hsubtw c (List.mem_filter.mp h5).1)
        · exact Or.inr h5
      have hcval3 : v ≤ valOf h3 c := by
        rcases hcmem with h5 | h5
        · have h6 : ¬ valOf h3 c < v := by
            have := (List.mem_filter.mp h5).2
            simpa using this
          omega
        · rw [h5, htlval]
          have := invd.hv2
          omega
      have hdne : d ≠ c := by
        intro hc
        rcases hcchain with h5 | h5
        · exact invd.dead_fresh.2.2 (hc ▸ h5)
        · exact invd.dead_fresh.2.1 (hc ▸ h5)
      have hsegA : Seg h i hd ((towers h3 chain i).filter
          (fun x => decide (valOf h3 x < v)) ++ [d]) :=
        Seg_congr h3 h i _ hd hsegA3 (fun x _ => hsame_i x)
      have hdptr : h.nextAt d i = some (Ptr.mk (some c) true) := by
        rw [hsame_i d]
        exact hdptr3
      obtain ⟨pw, hcw, hcwm⟩ : ∃ pw, h.nextAt c i = some pw
          ∧ pw.marked = false := by
        rcases hBe : (towers h3 chain i).filter
            (fun x => ! decide (valOf h3 x < v)) with _ | ⟨b, B2⟩
        · rw [hBe, List.headD] at hcdef
          refine ⟨Ptr.null, ?_, rfl⟩
          rw [← hcdef, hsame_i tl, Heap.nextAt, invd.tail_node]
          simp only [Option.bind_eq_bind, Option.some_bind]
          rw [List.get?_eq_get (by simp; omega)]
          simp
        · rw [hBe, List.headD] at hcdef
          have hsegB : Seg h i c ((B2 ++ [tl])) := by
            have h6 := Seg_congr h3 h i _ _ hsegB3 (fun x _ => hsame_i x)
            rw [hBe] at h6
            simpa using h6
          obtain ⟨c2, cs2, hcc2⟩ : ∃ c2 cs2, B2 ++ [tl] = c2 :: cs2 := by
            cases B2 <;> exact ⟨_, _, rfl⟩
          rw [hcc2, Seg_cons] at hsegB
          exact ⟨_, hsegB.1, rfl⟩
      obtain ⟨u, hsegU, humem, hulen, hulast, hln⟩ :=
        prefix_decomp h i hd d _ hsegA left hgi
      have hulastP : u.getLastD left = predAt h3 hd chain v i := hulast
      have hcmem2 : c ∈ chain ∨ c = hd ∨ c = tl := by
        rcases hcchain with h5 | h5
        · exact Or.inl h5
        · exact Or.inr (Or.inr h5)
      have hcval : v ≤ valOf h c := by
        rw [hvalmem c hcmem2]
        exact hcval3
      have huval : ∀ x ∈ u, valOf h x < v := by
        intro x hx
        have h5 := humem x hx
        rw [hvalmem x (Or.inl (hsubtw x (List.mem_filter.mp h5).1))]
        have := (List.mem_filter.mp h5).2
        simpa using this
      rw [levelLoop_step v wp ws fuel i h left preds succs _ hln]
      rw [findPair_dirty h i v u left d c pw fuel hsegU huval hdptr hcw hcwm
        hcval (by
          have h6 : ((towers h3 chain i).filter
              (fun x => decide (valOf h3 x < v))).length
              ≤ (towers h3 chain i).length := List.length_filter_le _ _
          have h7 : (towers h3 chain i).length ≤ chain.length :=
            List.length_filter_le _ _
          omega)]
      simp only [Option.bind_eq_bind, Option.some_bind]
      have hifne : ¬ ((Ptr.mk (some d) false) = Ptr.mk (some c) false) := by
        intro hc
        apply hdne
        have := congrArg Ptr.target hc
        simpa using this
      rw [if_neg hifne]
      have hcur : h.nextAt (u.getLastD left) i
          = some (Ptr.mk (some d) false) := Seg_last_link h i left d u hsegU
      have hPcell : ∃ np, h3.get (u.getLastD left) = some np
          ∧ i < np.next.length := by
        rw [hulastP]
        rcases predAt_cases h3 hd chain v i with h1c | h1c
        · rw [h1c]
          obtain ⟨n, hg, _, _, hlen, _⟩ := invd.head_node
          exact ⟨n, hg, by omega⟩
        · have h5 := (List.mem_filter.mp h1c).1
          rw [mem_towers] at h5
          obtain ⟨n, hg, hlen, _, _, _⟩ := invd.chain_node _ h5.1
          refine ⟨n, hg, ?_⟩
          have h6 : toplevelOf h3 (predAt h3 hd chain v i) = n.toplevel := by
            rw [toplevelOf, hg]
          have h7 := h5.2
          omega
      obtain ⟨np, hgp3, hnplen⟩ := hPcell
      obtain ⟨np2, hgp2, _, _, _, hlen2⟩ := st.shape _ np hgp3
      rw [Heap.cas, hcur]
      simp only [Option.bind_eq_bind, Option.some_bind]
      rw [if_pos trivial]
      simp only [Option.bind_eq_bind, Option.pure_def, Option.some_bind]
      rw [setNext_spec h _ i _ np2 hgp2 (by omega)]
      simp only [Option.some_bind]
      rw [if_pos trivial]
      have hPlen : u.getLastD left < h.nodes.length :=
        get_lt_length h _ (by rw [hgp2]; rfl)
      have st2 : DirtySt h3 hd tl chain v td i
          (h.setNode (u.getLastD left)
            { np2 with
              next := np2.next.set i (Ptr.mk (some c) false) }) := by
        refine ⟨?_, ?_, ?_, ?_⟩
        · intro j hj hjtd
          rcases Nat.lt_or_ge j (i+1) with hji | hji
          · have hjei : j = i := by omega
            subst hjei
            rw [← hulastP, Heap.nextAt, get_setNode_self h _ _ hPlen]
            simp only [Option.bind_eq_bind, Option.some_bind]
            rw [hsuccc]
            rw [List.get?_set_eq_of_lt]
            omega
          · have hold := st.next_done j hji hjtd
            by_cases hPj : predAt h3 hd chain v j = u.getLastD left
            · rw [hPj] at hold ⊢
              rw [Heap.nextAt, hgp2] at hold
              simp only [Option.bind_eq_bind, Option.some_bind] at hold
              rw [Heap.nextAt, get_setNode_self h _ _ hPlen]
              simp only [Option.bind_eq_bind, Option.some_bind]
              rw [List.get?_set_ne _ _ (by omega)]
              exact hold
            · rw [nextAt_congr h _ _ j (get_setNode_ne h _ _ _ hPj)]
              exact hold
        · intro x j hcnd
          by_cases hxP : x = u.getLastD left
          · subst hxP
            have hji : j ≠ i := by
              intro hc
              subst hc
              exact hcnd ⟨by omega, hitd, hulastP⟩
            rw [Heap.nextAt, get_setNode_self h _ _ hPlen]
            simp only [Option.bind_eq_bind, Option.some_bind]
            rw [List.get?_set_ne _ _ (fun hc => hji hc.symm)]
            have h5 := st.next_same _ j
              (fun hc => hcnd ⟨by omega, hc.2.1, hc.2.2⟩)
            rw [Heap.nextAt, hgp2] at h5
            simp only [Option.bind_eq_bind, Option.some_bind] at h5
            exact h5
          · rw [nextAt_congr h _ x j (get_setNode_ne h _ _ x hxP)]
            exact st.next_same x j (fun hc => hcnd ⟨by omega, hc.2.1, hc.2.2⟩)
        · intro x hxp
          have hxP : x ≠ u.getLastD left := by
            rw [hulastP]
            exact hxp i hitd
          rw [get_setNode_ne h _ _ x hxP]
          exact st.get_keep x hxp
        · intro x n hg
          by_cases hxP : x = u.getLastD left
          · subst hxP
            rw [get_setNode_self h _ _ hPlen]
            obtain ⟨n2, hg2b, e1, e2, e3, e4⟩ := st.shape _ n hg
            have hn2 : n2 = np2 := by
              rw [hg2b] at hgp2
              exact Option.some_inj.mp hgp2
            refine ⟨_, rfl, ?_, ?_, ?_, ?_⟩
            · rw [← hn2]; exact e1
            · rw [← hn2]; exact e2
            · rw [← hn2]; exact e3
            · rw [List.length_set, ← hn2]; exact e4
          · rw [get_setNode_ne h _ _ x hxP]
            exact st.shape x n hg
      have hgood2 : ∀ j, i = j + 1 → u.getLastD left = hd ∨
          u.getLastD left ∈ (towers h3 chain j).filter
            (fun x => decide (valOf h3 x < v)) := by
        intro j hj
        rw [hulast]
        rcases hAe : (towers h3 chain i).filter
            (fun x => decide (valOf h3 x < v)) with _ | ⟨b, A2⟩
        · rw [List.getLastD]
          exact Or.inl rfl
        · right
          apply filterA_mono h3 chain v i j (by omega)
          rw [hAe]
          exact getLastD_mem A2 b hd
      obtain ⟨h4, p3, s3, hq, st4, hl1, hl2, hunch, hchar, hwf, hsf⟩ :=
        ih _ (u.getLastD left)
          (if wp then preds.set i (some (u.getLastD left)) else preds)
          (if ws then succs.set i (some c) else succs)
          (by omega)
          (by cases wp <;> simp [hp])
          (by cases ws <;> simp [hs])
          hgood2 st2
      refine ⟨h4, p3, s3, hq, st4, ?_, ?_, ?_, ?_, ?_, ?_⟩
      · rw [hl1]; cases wp <;> simp
      · rw [hl2]; cases ws <;> simp
      · intro j hj
        have h1u := hunch j (by omega)
        constructor
        · rw [h1u.1]
          cases wp
          · rfl
          · simp only [if_pos]
            rw [List.get?_set_ne]
            omega
        · rw [h1u.2]
          cases ws
          · rfl
          · simp only [if_pos]
            rw [List.get?_set_ne]
            omega
      · intro j hj
        rcases Nat.lt_or_ge j i with hji | hji
        · exact hchar j hji
        · have hjei : j = i := by omega
          subst hjei
          constructor
          · intro hwp
            subst hwp
            have h1u := (hunch j (by omega)).1
            rw [h1u]
            simp only [if_pos]
            rw [List.get?_set_eq_of_lt]
            · rw [hulastP]
            · omega
          · intro hws
            subst hws
            have h1u := (hunch j (by omega)).2
            rw [h1u]
            simp only [if_pos]
            rw [List.get?_set_eq_of_lt]
            · rw [hsuccc]
            · omega
      · intro hwp
        subst hwp
        rw [hwf rfl]
        simp
      · intro hws
        subst hws
        rw [hsf rfl]
        simp
    · -- clean level
      have hseg : Seg h i hd (towers h3 chain i ++ [tl]) :=
        Seg_congr h3 h i _ hd (invd.links_hi i hitd (by omega))
          (fun x _ => hsame_i x)
      have hsorted : ((towers h3 chain i).map (valOf h)).Pairwise
          (fun a b => a < b) := by
        have hms : (towers h3 chain i).map (valOf h)
            = (towers h3 chain i).map (valOf h3) :=
          List.map_congr_left (fun x hx => hvalmem x (Or.inl (hsubtw x hx)))
        rw [hms]
        exact invd.sorted.sublist ((List.filter_sublist chain).map (valOf h3))
      have htln : h.nextAt tl i = some Ptr.null := by
        rw [hsame_i tl, Heap.nextAt, invd.tail_node]
        simp only [Option.bind_eq_bind, Option.some_bind]
        rw [List.get?_eq_get (by simp; omega)]
        simp
      have hvt : v ≤ valOf h tl := by
        rw [hvalmem tl (Or.inr (Or.inr rfl)), htlval]
        have := invd.hv2
        omega
      obtain ⟨u, w, pw, hsegU, humem, huval, hw, hwm, hwv, hulen, hulast,
          hwsucc, hln⟩ :=
        list_decomp h hd tl (towers h3 chain i) v i hseg hsorted htln hvt left
          (by rw [hfA]; exact hgi)
      rw [levelLoop_step v wp ws fuel i h left preds succs _ hln]
      rw [findPair_clean h i v u left w pw fuel hsegU huval hw hwm hwv (by
        have h7 : (towers h3 chain i).length ≤ chain.length :=
          List.length_filter_le _ _
        omega)]
      simp only [Option.bind_eq_bind, Option.some_bind]
      rw [if_pos trivial]
      have st2 : DirtySt h3 hd tl chain v td i h := by
        refine ⟨?_, ?_, st.get_keep, st.shape⟩
        · intro j hj hjtd
          rcases Nat.lt_or_ge j (i+1) with hji | hji
          · omega
          · exact st.next_done j hji hjtd
        · intro x j hcnd
          exact st.next_same x j (fun hc => hcnd ⟨by omega, hc.2.1, hc.2.2⟩)
      have hgood2 : ∀ j, i = j + 1 → u.getLastD left = hd ∨
          u.getLastD left ∈ (towers h3 chain j).filter
            (fun x => decide (valOf h3 x < v)) := by
        intro j hj
        cases u with
        | nil =>
          rcases hgi with h1c | h1c
          · exact Or.inl h1c
          · exact Or.inr (filterA_mono h3 chain v i j (by omega) _ h1c)
        | cons c u2 =>
          right
          apply filterA_mono h3 chain v i j (by omega)
          rw [← hfA]
          exact humem _ (getLastD_mem u2 c left)
      obtain ⟨h4, p3, s3, hq, st4, hl1, hl2, hunch, hchar, hwf, hsf⟩ :=
        ih _ (u.getLastD left)
          (if wp then preds.set i (some (u.getLastD left)) else preds)
          (if ws then succs.set i (some w) else succs)
          (by omega)
          (by cases wp <;> simp [hp])
          (by cases ws <;> simp [hs])
          hgood2 st2
      refine ⟨h4, p3, s3, hq, st4, ?_, ?_, ?_, ?_, ?_, ?_⟩
      · rw [hl1]; cases wp <;> simp
      · rw [hl2]; cases ws <;> simp
      · intro j hj
        have h1u := hunch j (by omega)
        constructor
        · rw [h1u.1]
          cases wp
          · rfl
          · simp only [if_pos]
            rw [List.get?_set_ne]
            omega
        · rw [h1u.2]
          cases ws
          · rfl
          · simp only [if_pos]
            rw [List.get?_set_ne]
            omega
      · intro j hj
        rcases Nat.lt_or_ge j i with hji | hji
        · exact hchar j hji
        · have hjei : j = i := by omega
          subst hjei
          constructor
          · intro hwp
            subst hwp
            have h1u := (hunch j (by omega)).1
            rw [h1u]
            simp only [if_pos]
            rw [List.get?_set_eq_of_lt]
            · rw [hulast, hfA]
              rfl
            · omega
          · intro hws
            subst hws
            have h1u := (hunch j (by omega)).2
            rw [h1u]
            simp only [if_pos]
            rw [List.get?_set_eq_of_lt]
            · rw [hwsucc, hfB]
              rfl
            · omega
      · intro hwp
        subst hwp
        rw [hwf rfl]
        simp
      · intro hws
        subst hws
        rw [hsf rfl]
        simp

end MLSkip


namespace MLSkip

/-- `startsAtHead_of_tableOK` with bare cell hypotheses instead of the
full invariant (usable on dirty states). -/
theorem startsAtHead_cells (h : Heap) (hd tl : NodeId)
    (tbl : List ShiftEntry) (pos : Int → ℚ) (T : Nat) (v : Int)
    (hghd : ∃ n, h.get hd = some n ∧ n.val = VAL_MIN)
    (hgtl : ∃ n, h.get tl = some n ∧ n.val = VAL_MAX)
    (htab : tableOK tbl T hd tl)
    (hT : 2 ≤ T) (hpos : ∀ x, 0 ≤ pos x ∧ pos x < 1)
    (hv1 : VAL_MIN < v) (hv2 : v < VAL_MAX) :
    startsAtHead h tbl pos T v hd := by
  obtain ⟨nhd, hghd2, hvalhd⟩ := hghd
  obtain ⟨ntl, hgtl2, hvaltl⟩ := hgtl
  have main : ∀ k, k < T → ∀ n, entryNode tbl k = some n →
      (n = hd ∨ n = tl) → ∀ it, ∃ it2,
      sk_shortcut h tbl v n k it = some (hd, it2) := by
    intro k
    induction k with
    | zero =>
      intro _ n hn hor it
      have hn0 : n = hd := by
        rw [htab.2.1] at hn
        exact (Option.some_inj.mp hn).symm
      rw [hn0, sk_shortcut, hghd2]
      exact ⟨it, rfl⟩
    | succ k ih =>
      intro hk n hn hor it
      rcases hor with h0 | h0
      · rw [h0, sk_shortcut, hghd2]
        simp only [Option.bind_eq_bind, Option.some_bind]
        rw [if_neg (by rw [hvalhd]; omega)]
        exact ⟨it, rfl⟩
      · rw [h0, sk_shortcut, hgtl2]
        simp only [Option.bind_eq_bind, Option.some_bind]
        rw [if_pos (by rw [hvaltl]; omega)]
        obtain ⟨e2, he2, hor2⟩ := htab.2.2 k (by omega)
        have hnode : ∃ n2, entryNode tbl k = some n2 ∧ (n2 = hd ∨ n2 = tl) := by
          rcases hor2 with h1 | h1
          · exact ⟨hd, by rw [entryNode, he2]; simpa using h1, Or.inl rfl⟩
          · exact ⟨tl, by rw [entryNode, he2]; simpa using h1, Or.inr rfl⟩
        obtain ⟨n2, hn2, hor3⟩ := hnode
        rw [hn2]
        simp only [Option.some_bind]
        exact ih (by omega) n2 hn2 hor3 (it+1)
  intro it
  have hb : bucketOf pos T v < T - 1 := bucketOf_lt pos T v hT (hpos v).1 (hpos v).2
  obtain ⟨e, he, hor⟩ := htab.2.2 (bucketOf pos T v) (by omega)
  have hnode : ∃ l0, entryNode tbl (bucketOf pos T v) = some l0 ∧
      (l0 = hd ∨ l0 = tl) := by
    rcases hor with h1 | h1
    · exact ⟨hd, by rw [entryNode, he]; simpa using h1, Or.inl rfl⟩
    · exact ⟨tl, by rw [entryNode, he]; simpa using h1, Or.inr rfl⟩
  obtain ⟨l0, hl0, horl⟩ := hnode
  obtain ⟨it2, hsk⟩ := main (bucketOf pos T v) (by omega) l0 hl0 horl it
  exact ⟨l0, it2, hl0, hsk⟩

/-- `markLevels` marks the low slots of `d` in place. -/
theorem markLevels_spec (d : NodeId) :
    ∀ (k : Nat) (h : Heap) (nd : Node),
      h.get d = some nd →
      k ≤ nd.next.length →
      (∀ j, j < k → ∃ p, nd.next.get? j = some p ∧ p.marked = false) →
      ∃ h2 nx, markLevels d h k = some h2 ∧
        h2.get d = some { nd with next := nx } ∧
        nx.length = nd.next.length ∧
        (∀ j, j < k → ∃ p, nd.next.get? j = some p ∧
          nx.get? j = some p.set_mark) ∧
        (∀ j, k ≤ j → nx.get? j = nd.next.get? j) ∧
        (∀ x, x ≠ d → h2.get x = h.get x) := by
  intro k
  induction k with
  | zero =>
    intro h nd hg _ _
    exact ⟨h, nd.next, rfl, hg, rfl, fun j hj => absurd hj (by omega),
      fun j _ => rfl, fun x _ => rfl⟩
  | succ k ih =>
    intro h nd hg hk hunm
    obtain ⟨pk, hpk, hpkm⟩ := hunm k (by omega)
    have hnext : h.nextAt d k = some pk := by
      rw [Heap.nextAt, hg]
      simp only [Option.bind_eq_bind, Option.some_bind]
      exact hpk
    have hdlen : d < h.nodes.length := get_lt_length h d (by rw [hg]; rfl)
    have hm1 : markLevel h d k = some (h.setNode d
        { nd with next := nd.next.set k pk.set_mark }) := by
      rw [markLevel, hnext]
      simp only [Option.bind_eq_bind, Option.some_bind]
      rw [hpkm]
      simp only [Bool.false_eq_true, if_false]
      rw [Heap.cas, hnext]
      simp only [Option.bind_eq_bind, Option.some_bind]
      rw [if_pos trivial]
      simp only [Option.bind_eq_bind, Option.pure_def, Option.some_bind]
      rw [setNext_spec h d k _ nd hg (by omega)]
      simp only [Option.some_bind]
      rw [if_pos trivial]
    have hg2 : (h.setNode d { nd with next := nd.next.set k pk.set_mark }).get d
        = some { nd with next := nd.next.set k pk.set_mark } :=
      get_setNode_self h d _ hdlen
    obtain ⟨h2, nx, hrun, hgd, hnxlen, hmk, hkeep, hother⟩ :=
      ih (h.setNode d { nd with next := nd.next.set k pk.set_mark })
        { nd with next := nd.next.set k pk.set_mark } hg2
        (by simp; omega)
        (by
          intro j hj
          obtain ⟨p, hp, hpm⟩ := hunm j (by omega)
          refine ⟨p, ?_, hpm⟩
          simp only
          rw [List.get?_set_ne _ _ (by omega)]
          exact hp)
    refine ⟨h2, nx, ?_, ?_, ?_, ?_, ?_, ?_⟩
    · rw [markLevels, hm1]
      simp only [Option.bind_eq_bind, Option.some_bind]
      exact hrun
    · exact hgd
    · rw [hnxlen]
      simp
    · intro j hj
      rcases Nat.lt_or_ge j k with hjk | hjk
      · obtain ⟨p, hp, hp2⟩ := hmk j hjk
        refine ⟨p, ?_, hp2⟩
        simp only at hp
        rw [List.get?_set_ne _ _ (by omega)] at hp
        exact hp
      · have hjek : j = k := by omega
        subst hjek
        refine ⟨pk, hpk, ?_⟩
        have := hkeep j (by omega)
        rw [this]
        simp only
        rw [List.get?_set_eq_of_lt]
        omega
    · intro j hj
      have := hkeep j (by omega)
      rw [this]
      simp only
      rw [List.get?_set_ne _ _ (by omega)]
    · intro x hx
      rw [hother x hx, get_setNode_ne h d _ x hx]

/-- `mark_node_ptrs` characterised on a cell whose low slots are unmarked. -/
theorem mark_node_ptrs_spec (h : Heap) (d : NodeId) (nd : Node)
    (hg : h.get d = some nd) (hlen : nd.next.length = nd.toplevel)
    (hunm : ∀ j, j < nd.toplevel → ∃ p, nd.next.get? j = some p ∧
      p.marked = false) :
    ∃ h2 nx, mark_node_ptrs h d = some h2 ∧
      h2.get d = some { nd with next := nx } ∧
      nx.length = nd.next.length ∧
      (∀ j, j < nd.toplevel → ∃ p, nd.next.get? j = some p ∧
        nx.get? j = some p.set_mark) ∧
      (∀ x, x ≠ d → h2.get x = h.get x) := by
  obtain ⟨h2, nx, hrun, hgd, hnxlen, hmk, _, hother⟩ :=
    markLevels_spec d nd.toplevel h nd hg (by omega) hunm
  refine ⟨h2, nx, ?_, hgd, hnxlen, hmk, hother⟩
  rw [mark_node_ptrs, hg]
  simp only [Option.bind_eq_bind, Option.some_bind]
  exact hrun

end MLSkip

namespace MLSkip

/-- The unlinking search over a dirty state: one pass, excises the dead
node at all its levels, records the live chain's canonical pairs. -/
theorem fraser_search_dirty (h3 : Heap) (hd tl d : NodeId)
    (chain : List NodeId) (v : Int) (td : Nat)
    (invd : InvD h3 hd tl d chain v td)
    (pos : Int → ℚ) (tbl : List ShiftEntry) (T : Nat)
    (hstart : startsAtHead h3 tbl pos T v hd)
    (wp ws : Bool) (fuel rf : Nat)
    (hfuel : chain.length + 3 ≤ fuel) (hrf : 1 ≤ rf) :
    ∀ (preds succs : List (Option NodeId)) (it : Nat),
      levelmax ≤ preds.length → levelmax ≤ succs.length →
      ∃ h4 preds2 succs2 it2,
        fraser_search pos tbl T v wp ws fuel rf h3 preds succs it
          = some ⟨h4, preds2, succs2, it2⟩ ∧
        DirtySt h3 hd tl chain v td 0 h4 ∧
        preds2.length = preds.length ∧ succs2.length = succs.length ∧
        (∀ j, j < levelmax →
          (wp = true → preds2.get? j = some (some (predAt h3 hd chain v j))) ∧
          (ws = true → succs2.get? j = some (some (succAt h3 tl chain v j)))) ∧
        (wp = false → preds2 = preds) ∧ (ws = false → succs2 = succs) := by
  intro preds succs it hp hs
  rcases rf with _ | rf2
  · omega
  obtain ⟨l0, it2, he, hsk⟩ := hstart (it + 1)
  rw [fraser_search, he]
  simp only [Option.bind_eq_bind, Option.some_bind]
  rw [hsk]
  simp only [Option.some_bind]
  obtain ⟨nhd, hghd, hvalhd, htop, hlenhd, hdelhd⟩ := invd.head_node
  rw [hghd]
  simp only [Option.some_bind]
  rw [htop]
  obtain ⟨h4, p2, s2, hq, st4, hl1, hl2, hunch, hchar, hwf, hsf⟩ :=
    levelLoop_dirty h3 hd tl d chain v td invd wp ws fuel hfuel levelmax h3 hd
      preds succs (le_refl _) hp hs (fun j _ => Or.inl rfl)
      (DirtySt_refl h3 hd tl chain v td invd.tdmax)
  rw [hq]
  exact ⟨h4, p2, s2, it2, rfl, st4, hl1, hl2, fun j hj => hchar j hj, hwf, hsf⟩

/-- A present value decomposes the chain: below-`v` prefix, the level-0
canonical successor carrying exactly `v`, and an above-`v` suffix. -/
theorem present_split (h : Heap) (hd tl : NodeId) (chain : List NodeId)
    (v : Int) (inv : Inv0 h hd tl chain) (hv2 : v < VAL_MAX)
    (hin : v ∈ chain.map (valOf h)) :
    ∃ B0, chain = chain.filter (fun x => decide (valOf h x < v))
        ++ succAt h tl chain v 0 :: B0 ∧
      valOf h (succAt h tl chain v 0) = v ∧
      succAt h tl chain v 0 ∈ chain ∧
      (∀ x ∈ chain.filter (fun x => decide (valOf h x < v)), valOf h x < v) ∧
      (∀ x ∈ B0, v < valOf h x) := by
  have hsplit : chain = chain.filter (fun x => decide (valOf h x < v))
      ++ chain.filter (fun x => ! decide (valOf h x < v)) :=
    sorted_split h v chain inv.sorted
  obtain ⟨hiff, hmem⟩ := succ0_spec h hd tl chain v inv hv2
  have hval := hiff.mpr hin
  have hsuccchain : succAt h tl chain v 0 ∈ chain := by
    rcases hmem with h1 | h1
    · exact h1
    · exfalso
      have hvt : valOf h tl = VAL_MAX := by rw [valOf, inv.tail_node]
      rw [h1, hvt] at hval
      rw [VAL_MAX] at hval
      rw [VAL_MAX] at hv2
      omega
  have hB : succAt h tl chain v 0
      = (chain.filter (fun x => ! decide (valOf h x < v))).headD tl := by
    rw [succAt, towers_zero h hd tl chain inv]
  rcases hBe : chain.filter (fun x => ! decide (valOf h x < v))
    with _ | ⟨b, B2⟩
  · exfalso
    have h5 : succAt h tl chain v 0 ∈ chain.filter
        (fun x => ! decide (valOf h x < v)) := by
      rw [List.mem_filter]
      refine ⟨hsuccchain, ?_⟩
      simp
      omega
    rw [hBe] at h5
    simp at h5
  · have hbs : b = succAt h tl chain v 0 := by
      rw [hB, hBe, List.headD]
    refine ⟨B2, ?_, hval, hsuccchain, ?_, ?_⟩
    · rw [← hbs, ← hBe]
      exact hsplit
    · intro x hx
      have := (List.mem_filter.mp hx).2
      simpa using this
    · intro x hx
      have hxB : x ∈ chain.filter (fun x => ! decide (valOf h x < v)) := by
        rw [hBe]
        exact List.mem_cons_of_mem b hx
      have h5 : ¬ valOf h x < v := by
        have := (List.mem_filter.mp hxB).2
        simpa using this
      have hsorted2 : ((chain.filter (fun x => ! decide (valOf h x < v))).map
          (valOf h)).Pairwise (fun a b => a < b) :=
        inv.sorted.sublist ((List.filter_sublist chain).map (valOf h))
      rw [hBe] at hsorted2
      simp only [List.map_cons, List.pairwise_cons] at hsorted2
      have h6 := hsorted2.1 (valOf h x) (List.mem_map_of_mem _ hx)
      rw [hbs, hval] at h6
      exact h6

theorem erase_split (v : Int) : ∀ (A B : List Int),
    (∀ x ∈ A, x ≠ v) → (A ++ v :: B).erase v = A ++ B := by
  intro A
  induction A with
  | nil =>
    intro B _
    rw [List.nil_append, List.nil_append, List.erase_cons_head]
  | cons a A2 ih =>
    intro B hA
    rw [List.cons_append, List.erase_cons_tail]
    · rw [ih B (fun x hx => hA x (List.mem_cons_of_mem a hx))]
      rfl
    · simp
      exact hA a (List.mem_cons_self a A2)

end MLSkip


namespace MLSkip

/-- Setting the deleted flag and marking the forward pointers of the
level-0 successor of a present value takes an invariant state to the
dirty-state invariant on the chain without that node. -/
theorem remove_marks_InvD (h : Heap) (hd tl : NodeId) (chainF : List NodeId)
    (v : Int) (inv : Inv0 h hd tl chainF) (hlive : InvLive h chainF)
    (hv1 : VAL_MIN < v) (hv2 : v < VAL_MAX)
    (hin : v ∈ chainF.map (valOf h)) :
    ∃ nd h3,
      h.get (succAt h tl chainF v 0) = some nd ∧ nd.val = v ∧
      nd.deleted = false ∧
      mark_node_ptrs (h.setNode (succAt h tl chainF v 0)
        { nd with deleted := true }) (succAt h tl chainF v 0) = some h3 ∧
      InvD h3 hd tl (succAt h tl chainF v 0)
        (chainF.filter (fun x => decide (valOf h x < v))
          ++ (chainF.filter (fun x => ! decide (valOf h x < v))).tail)
        v nd.toplevel ∧
      InvLive h3
        (chainF.filter (fun x => decide (valOf h x < v))
          ++ (chainF.filter (fun x => ! decide (valOf h x < v))).tail) ∧
      ((chainF.filter (fun x => decide (valOf h x < v))
          ++ (chainF.filter (fun x => ! decide (valOf h x < v))).tail).map
        (valOf h3) = (chainF.map (valOf h)).erase v) ∧
      (chainF.filter (fun x => decide (valOf h x < v))
          ++ (chainF.filter (fun x => ! decide (valOf h x < v))).tail).length + 1
        = chainF.length := by
  obtain ⟨B0, hchainF, hvald, hdchain, hAv, hBv⟩ :=
    present_split h hd tl chainF v inv hv2 hin
  set d := succAt h tl chainF v 0 with hddef
  set A0 := chainF.filter (fun x => decide (valOf h x < v)) with hA0
  have htail : (chainF.filter (fun x => ! decide (valOf h x < v))).tail = B0 := by
    have hBfull : chainF.filter (fun x => ! decide (valOf h x < v)) = d :: B0 := by
      have hsplit := sorted_split h v chainF inv.sorted
      rw [← hA0] at hsplit
      have h5 : A0 ++ chainF.filter (fun x => ! decide (valOf h x < v))
          = A0 ++ d :: B0 := by
        rw [← hsplit]
        exact hchainF
      exact List.append_cancel_left h5
    rw [hBfull, List.tail_cons]
  rw [htail]
  obtain ⟨nd, hgd, hndlen, hndtop1, hndtopmax, hndvmin, hndvmax⟩ :=
    inv.chain_node d hdchain
  obtain ⟨nd2, hgd2, hdel⟩ := hlive d hdchain
  have hnd2 : nd2 = nd := by
    rw [hgd] at hgd2
    exact (Option.some_inj.mp hgd2).symm
  rw [hnd2] at hdel
  have hndval : nd.val = v := by
    rw [valOf, hgd] at hvald
    exact hvald
  have htopd : toplevelOf h d = nd.toplevel := by
    rw [toplevelOf, hgd]
  obtain ⟨hhdtl, hhdch, htlch, hchnd⟩ := nodup_facts hd tl chainF inv.nodup
  have hdA0B0 : d ∉ A0 ++ B0 := by
    have h5 : chainF.Nodup := hchnd
    rw [hchainF] at h5
    have h6 := (List.perm_middle.nodup_iff).mp h5
    exact (List.nodup_cons.mp h6).1
  have hdne_hd : d ≠ hd := by
    intro hc
    exact hhdch (hc ▸ hdchain)
  have hdne_tl : d ≠ tl := by
    intro hc
    exact htlch (hc ▸ hdchain)
  have hdlen : d < h.nodes.length := get_lt_length h d (by rw [hgd]; rfl)
  -- the per-level decomposition in `h`
  have htwsplit : ∀ j, towers h chainF j
      = towers h A0 j ++ (if j < nd.toplevel then d :: towers h B0 j
        else towers h B0 j) := by
    intro j
    rw [hchainF]
    simp only [towers, List.filter_append, List.filter_cons]
    have e1 : (decide (j < toplevelOf h d)) = decide (j < nd.toplevel) := by
      rw [htopd]
    rw [e1]
    by_cases hj : j < nd.toplevel
    · rw [if_pos (by simpa using hj), if_pos hj]
    · rw [if_neg (by simpa using hj), if_neg hj]
  have hlevels : ∀ j, j < nd.toplevel →
      Seg h j hd (towers h A0 j ++ [d]) ∧
      h.nextAt d j = some (Ptr.mk (some
        ((towers h B0 j ++ [tl]).headD tl)) false) ∧
      Seg h j ((towers h B0 j ++ [tl]).headD tl)
        ((towers h B0 j ++ [tl]).tail) := by
    intro j hj
    have hfull := inv.links j (by omega)
    rw [htwsplit j, if_pos hj] at hfull
    have hfull2 : Seg h j hd (towers h A0 j
        ++ (d :: (towers h B0 j ++ [tl]))) := by
      have e1 : (towers h A0 j ++ d :: towers h B0 j) ++ [tl]
          = towers h A0 j ++ (d :: (towers h B0 j ++ [tl])) := by simp
      rw [e1] at hfull
      exact hfull
    have hdec := (Seg_append h j (towers h A0 j)
      (d :: (towers h B0 j ++ [tl])) hd).mp hfull2
    have hdec2 := hdec.2
    rw [Seg_cons] at hdec2
    obtain ⟨c, cs, hcc⟩ : ∃ c cs, towers h B0 j ++ [tl] = c :: cs := by
      cases towers h B0 j <;> exact ⟨_, _, rfl⟩
    have hdec3 := hdec2.2
    rw [hcc, Seg_cons] at hdec3
    refine ⟨?_, ?_, ?_⟩
    · apply (Seg_append h j (towers h A0 j) [d] hd).mpr
      refine ⟨hdec.1, ?_⟩
      apply (Seg_cons h j _ d []).mpr
      exact ⟨hdec2.1, Seg.nil d⟩
    · rw [hcc]
      simp only [List.headD]
      exact hdec3.1
    · rw [hcc]
      simp only [List.headD, List.tail]
      exact hdec3.2
  -- set the deleted flag, then mark
  have hg2d : (h.setNode d { nd with deleted := true }).get d
      = some { nd with deleted := true } := get_setNode_self h d _ hdlen
  have hg2o : ∀ x, x ≠ d →
      (h.setNode d { nd with deleted := true }).get x = h.get x :=
    fun x hx => get_setNode_ne h d _ x hx
  obtain ⟨h3, nx, hmrun, hg3d, hnxlen, hnxmk, hg3o⟩ :=
    mark_node_ptrs_spec (h.setNode d { nd with deleted := true }) d
      { nd with deleted := true } hg2d (by simpa using hndlen)
      (by
        intro j hj
        simp only at hj
        obtain ⟨_, hdout, _⟩ := hlevels j hj
        rw [Heap.nextAt, hgd] at hdout
        simp only [Option.bind_eq_bind, Option.some_bind] at hdout
        exact ⟨_, hdout, rfl⟩)
  have hg3cells : ∀ x, x ≠ d → h3.get x = h.get x := by
    intro x hx
    rw [hg3o x hx, hg2o x hx]
  have hval3 : ∀ x, x ≠ d → valOf h3 x = valOf h x := by
    intro x hx
    rw [valOf, valOf, hg3cells x hx]
  have htop3 : ∀ x, x ≠ d → toplevelOf h3 x = toplevelOf h x := by
    intro x hx
    rw [toplevelOf, toplevelOf, hg3cells x hx]
  have hchne : ∀ x, x ∈ A0 ++ B0 → x ≠ d := by
    intro x hx hc
    exact hdA0B0 (hc ▸ hx)
  have htw3 : ∀ j, towers h3 (A0 ++ B0) j = towers h A0 j ++ towers h B0 j := by
    intro j
    rw [towers]
    have e1 : (A0 ++ B0).filter (fun x => decide (j < toplevelOf h3 x))
        = (A0 ++ B0).filter (fun x => decide (j < toplevelOf h x)) := by
      apply List.filter_congr
      intro x hx
      rw [htop3 x (hchne x hx)]
    rw [e1, List.filter_append]
    rfl
  have hsubA0 : ∀ j, ∀ x ∈ towers h A0 j, x ∈ A0 :=
    fun j x hx => ((mem_towers h A0 j x).mp hx).1
  have hsubB0 : ∀ j, ∀ x ∈ towers h B0 j, x ∈ B0 :=
    fun j x hx => ((mem_towers h B0 j x).mp hx).1
  have hfltA : ∀ j, (towers h3 (A0 ++ B0) j).filter
      (fun x => decide (valOf h3 x < v)) = towers h A0 j := by
    intro j
    rw [htw3 j, List.filter_append]
    have e1 : (towers h A0 j).filter (fun x => decide (valOf h3 x < v))
        = towers h A0 j := by
      rw [List.filter_eq_self]
      intro x hx
      rw [hval3 x (hchne x (List.mem_append_left B0 (hsubA0 j x hx)))]
      simp
      exact hAv x (hsubA0 j x hx)
    have e2 : (towers h B0 j).filter (fun x => decide (valOf h3 x < v))
        = [] := by
      rw [List.filter_eq_nil_iff]
      intro x hx
      rw [hval3 x (hchne x (List.mem_append_right A0 (hsubB0 j x hx)))]
      simp
      have := hBv x (hsubB0 j x hx)
      omega
    rw [e1, e2, List.append_nil]
  have hfltB : ∀ j, (towers h3 (A0 ++ B0) j).filter
      (fun x => ! decide (valOf h3 x < v)) = towers h B0 j := by
    intro j
    rw [htw3 j, List.filter_append]
    have e1 : (towers h A0 j).filter (fun x => ! decide (valOf h3 x < v))
        = [] := by
      rw [List.filter_eq_nil_iff]
      intro x hx
      rw [hval3 x (hchne x (List.mem_append_left B0 (hsubA0 j x hx)))]
      simp
      exact hAv x (hsubA0 j x hx)
    have e2 : (towers h B0 j).filter (fun x => ! decide (valOf h3 x < v))
        = towers h B0 j := by
      rw [List.filter_eq_self]
      intro x hx
      rw [hval3 x (hchne x (List.mem_append_right A0 (hsubB0 j x hx)))]
      simp
      have := hBv x (hsubB0 j x hx)
      omega
    rw [e1, e2, List.nil_append]
  refine ⟨nd, h3, hgd, hndval, hdel, hmrun, ?_, ?_, ?_, ?_⟩
  · -- InvD
    refine ⟨?_, ?_, ?_, ?_, ⟨hdne_hd, hdne_tl, hdA0B0⟩, hndtop1, hndtopmax,
      hv1, hv2, ?_, ?_, ?_, ?_, ?_⟩
    · obtain ⟨n, hg, rest⟩ := inv.head_node
      exact ⟨n, by rw [hg3cells hd hdne_hd.symm]; exact hg, rest⟩
    · rw [hg3cells tl hdne_tl.symm]
      exact inv.tail_node
    · intro x hx
      obtain ⟨n, hg, rest⟩ := inv.chain_node x (by
        rw [hchainF]
        rcases List.mem_append.mp hx with h5 | h5
        · exact List.mem_append_left _ h5
        · exact List.mem_append_right _ (List.mem_cons_of_mem d h5))
      exact ⟨n, by rw [hg3cells x (hchne x hx)]; exact hg, rest⟩
    · exact ⟨{ nd with deleted := true, next := nx }, hg3d, hndval, rfl, rfl⟩
    · -- nodup
      have hsub : List.Sublist ((hd :: (A0 ++ B0)) ++ [tl])
          ((hd :: chainF) ++ [tl]) := by
        rw [hchainF]
        apply List.Sublist.append _ (List.Sublist.refl [tl])
        apply List.Sublist.cons₂
        exact List.Sublist.append_left (List.sublist_cons_self d B0) A0
      have hfull : ((hd :: chainF) ++ [tl]).Nodup := by
        have := inv.nodup
        rw [List.cons_append] at this
        rw [List.cons_append]
        exact this
      have := hsub.nodup hfull
      rw [List.cons_append] at this ⊢
      exact this
    · -- sorted
      have e1 : (A0 ++ B0).map (valOf h3) = (A0 ++ B0).map (valOf h) :=
        List.map_congr_left (fun x hx => hval3 x (hchne x hx))
      rw [e1]
      have hsub : List.Sublist (A0 ++ B0) chainF := by
        rw [hchainF]
        exact List.Sublist.append_left (List.sublist_cons_self d B0) A0
      exact inv.sorted.sublist (hsub.map (valOf h))
    · -- vnot
      intro hc
      obtain ⟨x, hx, hvx⟩ := List.mem_map.mp hc
      rw [hval3 x (hchne x hx)] at hvx
      rcases List.mem_append.mp hx with h5 | h5
      · have := hAv x h5
        omega
      · have := hBv x h5
        omega
    · -- links_hi
      intro j hjtd hjmax
      have hfull := inv.links j hjmax
      rw [htwsplit j, if_neg (by omega)] at hfull
      have e1 : towers h3 (A0 ++ B0) j = towers h A0 j ++ towers h B0 j :=
        htw3 j
      rw [e1]
      apply Seg_congr h h3 j _ hd hfull
      intro x hx
      apply nextAt_congr
      apply hg3cells
      rcases hx with rfl | hx
      · exact hdne_hd.symm
      · rcases List.mem_append.mp hx with h5 | h5
        · rcases List.mem_append.mp h5 with h6 | h6
          · exact hchne x (List.mem_append_left B0 (hsubA0 j x h6))
          · exact hchne x (List.mem_append_right A0 (hsubB0 j x h6))
        · rw [List.mem_singleton] at h5
          rw [h5]
          exact hdne_tl.symm
    · -- links_lo
      intro j hjtd
      obtain ⟨hsA, hdout, hsB⟩ := hlevels j hjtd
      refine ⟨?_, ?_, ?_⟩
      · rw [hfltA j]
        apply Seg_congr3 h h3 j _ hd hsA
        intro x hx
        have hdl2 : (hd :: (towers h A0 j ++ [d])).dropLast
            = hd :: towers h A0 j := by
          rw [← List.cons_append, List.dropLast_concat]
        rw [hdl2] at hx
        apply nextAt_congr
        apply hg3cells
        rcases List.mem_cons.mp hx with h5 | h5
        · rw [h5]
          exact hdne_hd.symm
        · exact hchne x (List.mem_append_left B0 (hsubA0 j x h5))
      · rw [hfltB j]
        obtain ⟨p, hp, hp2⟩ := hnxmk j (by simpa using hjtd)
        have hdout2 : ({ nd with deleted := true } : Node).next.get? j
            = some (Ptr.mk (some ((towers h B0 j ++ [tl]).headD tl)) false) := by
          simp only
          rw [Heap.nextAt, hgd] at hdout
          simp only [Option.bind_eq_bind, Option.some_bind] at hdout
          exact hdout
        have hpv : p = Ptr.mk (some ((towers h B0 j ++ [tl]).headD tl)) false := by
          rw [hdout2] at hp
          exact (Option.some_inj.mp hp).symm
        rw [Heap.nextAt, hg3d]
        simp only [Option.bind_eq_bind, Option.some_bind]
        rw [hp2, hpv]
        rw [headD_append_single]
        rfl
      · rw [hfltB j]
        rw [headD_append_single] at hsB
        apply Seg_congr h h3 j _ _ hsB
        intro x hx
        apply nextAt_congr
        apply hg3cells
        have hmem2 : ∀ y, y ∈ towers h B0 j ++ [tl] → y ≠ d := by
          intro y hy
          rcases List.mem_append.mp hy with h5 | h5
          · exact hchne y (List.mem_append_right A0 (hsubB0 j y h5))
          · rw [List.mem_singleton] at h5
            rw [h5]
            exact hdne_tl.symm
        rcases hx with rfl | hx
        · apply hmem2
          rcases hBe : towers h B0 j with _ | ⟨b, B2⟩
          · simp
          · simp
        · apply hmem2
          exact (List.tail_sublist (towers h B0 j ++ [tl])).mem hx
  · -- InvLive
    intro x hx
    obtain ⟨n, hg, hd5⟩ := hlive x (by
      rw [hchainF]
      rcases List.mem_append.mp hx with h5 | h5
      · exact List.mem_append_left _ h5
      · exact List.mem_append_right _ (List.mem_cons_of_mem d h5))
    exact ⟨n, by rw [hg3cells x (hchne x hx)]; exact hg, hd5⟩
  · -- the value list is the erase
    have e1 : (A0 ++ B0).map (valOf h3) = (A0 ++ B0).map (valOf h) :=
      List.map_congr_left (fun x hx => hval3 x (hchne x hx))
    rw [e1]
    have e2 : chainF.map (valOf h) = A0.map (valOf h) ++ v :: B0.map (valOf h) := by
      rw [hchainF, List.map_append, List.map_cons, hvald]
    rw [e2, List.map_append]
    rw [erase_split v (A0.map (valOf h)) (B0.map (valOf h))]
    intro x hx
    obtain ⟨y, hy, hvy⟩ := List.mem_map.mp hx
    have := hAv y hy
    omega
  · -- lengths
    have := congrArg List.length hchainF
    simp only [List.length_append, List.length_cons] at this
    rw [List.length_append]
    omega

end MLSkip


namespace MLSkip

/-- Once the unlinking search has excised the dead node at every level,
the clean invariant holds again on the chain without it; values, liveness
and the dead cell itself are untouched. -/
theorem InvD_excise (h3 h4 : Heap) (hd tl d : NodeId) (chain : List NodeId)
    (v : Int) (td : Nat) (dinv : InvD h3 hd tl d chain v td)
    (dst : DirtySt h3 hd tl chain v td 0 h4) :
    Inv0 h4 hd tl chain ∧
    (InvLive h3 chain → InvLive h4 chain) ∧
    chain.map (valOf h4) = chain.map (valOf h3) ∧
    h4.get d = h3.get d := by
  obtain ⟨hhdtl, hhdch, htlch, hchnd⟩ := nodup_facts hd tl chain dinv.nodup
  have hpredne_tl : ∀ j, predAt h3 hd chain v j ≠ tl := by
    intro j
    rcases predAt_cases h3 hd chain v j with hc | hc
    · rw [hc]
      exact hhdtl
    · have hm : predAt h3 hd chain v j ∈ chain :=
        ((mem_towers h3 chain j _).mp (List.mem_of_mem_filter hc)).1
      intro he
      exact htlch (he ▸ hm)
  have hdnp : ∀ j, j < td → d ≠ predAt h3 hd chain v j := by
    intro j _
    rcases predAt_cases h3 hd chain v j with hc | hc
    · rw [hc]
      exact dinv.dead_fresh.1
    · have hm : predAt h3 hd chain v j ∈ chain :=
        ((mem_towers h3 chain j _).mp (List.mem_of_mem_filter hc)).1
      intro he
      exact dinv.dead_fresh.2.2 (he ▸ hm)
  have hgtl : h4.get tl = h3.get tl :=
    dst.get_keep tl (fun j _ he => hpredne_tl j he.symm)
  have hval4 : ∀ x ∈ chain, valOf h4 x = valOf h3 x := by
    intro x hx
    obtain ⟨n, hg, _⟩ := dinv.chain_node x hx
    obtain ⟨n2, hg2, hv5, _, _, _⟩ := dst.shape x n hg
    have e1 : valOf h4 x = n2.val := by rw [valOf, hg2]
    have e2 : valOf h3 x = n.val := by rw [valOf, hg]
    rw [e1, e2, hv5]
  have htop4 : ∀ x ∈ chain, toplevelOf h4 x = toplevelOf h3 x := by
    intro x hx
    obtain ⟨n, hg, _⟩ := dinv.chain_node x hx
    obtain ⟨n2, hg2, _, ht5, _, _⟩ := dst.shape x n hg
    have e1 : toplevelOf h4 x = n2.toplevel := by rw [toplevelOf, hg2]
    have e2 : toplevelOf h3 x = n.toplevel := by rw [toplevelOf, hg]
    rw [e1, e2, ht5]
  have htw4 : ∀ i, towers h4 chain i = towers h3 chain i := by
    intro i
    simp only [towers]
    apply List.filter_congr
    intro x hx
    rw [htop4 x hx]
  have hmap : chain.map (valOf h4) = chain.map (valOf h3) :=
    List.map_congr_left hval4
  have hlinks : ∀ i, i < levelmax → Seg h4 i hd (towers h4 chain i ++ [tl]) := by
    intro i hi
    rw [htw4 i]
    by_cases hitd : td ≤ i
    · apply Seg_congr h3 h4 i _ hd (dinv.links_hi i hitd hi)
      intro x _
      apply dst.next_same
      intro hc
      omega
    · push_neg at hitd
      obtain ⟨hsA, hdout, hsB⟩ := dinv.links_lo i hitd
      set twA := (towers h3 chain i).filter
        (fun x => decide (valOf h3 x < v)) with htwA
      set twB := (towers h3 chain i).filter
        (fun x => ! decide (valOf h3 x < v)) with htwB
      have hsplit : towers h3 chain i = twA ++ twB :=
        sorted_split h3 v (towers h3 chain i)
          (towers_sorted h3 chain i dinv.sorted)
      rw [hsplit]
      have e1 : (twA ++ twB) ++ [tl] = twA ++ (twB ++ [tl]) := by simp
      rw [e1]
      have htwAsub : List.Sublist twA chain := by
        rw [htwA, towers]
        exact (List.filter_sublist _).trans (List.filter_sublist _)
      have hpa : predAt h3 hd chain v i = twA.getLastD hd := rfl
      apply (Seg_append h4 i twA (twB ++ [tl]) hd).mpr
      constructor
      · have hsA2 : Seg h3 i hd twA := ((Seg_append h3 i twA [d] hd).mp hsA).1
        apply Seg_congr3 h3 h4 i twA hd hsA2
        intro x hx
        apply dst.next_same
        intro hc
        obtain ⟨_, _, hceq⟩ := hc
        rcases List.eq_nil_or_concat twA with htA | ⟨ta, lastA, htA⟩
        · rw [htA] at hx
          simp at hx
        · rw [List.concat_eq_append] at htA
          have hpa2 : predAt h3 hd chain v i = lastA := by
            rw [hpa, htA, List.getLastD_concat]
          rw [hpa2] at hceq
          have hlastAchain : lastA ∈ chain := by
            apply htwAsub.mem
            rw [htA]
            exact List.mem_append_right ta (List.mem_singleton.mpr rfl)
          have hdl2 : (hd :: twA).dropLast = hd :: ta := by
            rw [htA, ← List.cons_append, List.dropLast_concat]
          rw [hdl2] at hx
          have htwAnd : twA.Nodup := htwAsub.nodup hchnd
          have hlastAta : lastA ∉ ta := by
            have h2 := htwAnd
            rw [htA] at h2
            obtain ⟨_, _, hdisj⟩ := List.nodup_append.mp h2
            intro hmem
            exact hdisj hmem (List.mem_singleton.mpr rfl)
          rcases List.mem_cons.mp hx with h5 | h5
          · rw [h5] at hceq
            exact hhdch (hceq ▸ hlastAchain)
          · rw [hceq] at h5
            exact hlastAta h5
      · obtain ⟨c, cs, hcc⟩ : ∃ c cs, twB ++ [tl] = c :: cs := by
          cases twB <;> exact ⟨_, _, rfl⟩
        have hce : twB.headD tl = c := by
          rw [← headD_append_single twB tl tl, hcc]
          rfl
        have hcs : (twB ++ [tl]).tail = cs := by
          rw [hcc, List.tail_cons]
        rw [hcc]
        apply (Seg_cons h4 i _ c cs).mpr
        constructor
        · have hnd := dst.next_done i (Nat.zero_le i) hitd
          rw [← hce]
          exact hnd
        · rw [hce, hcs] at hsB
          apply Seg_congr h3 h4 i cs c hsB
          intro x hx
          apply dst.next_same
          intro hc
          obtain ⟨_, _, hceq⟩ := hc
          have hxmem : x ∈ twB ++ [tl] := by
            rw [hcc]
            rcases hx with h5 | h5
            · rw [h5]
              exact List.mem_cons_self c cs
            · exact List.mem_cons_of_mem c h5
          have hpmem : predAt h3 hd chain v i ∈ twB ++ [tl] := by
            rw [← hceq]
            exact hxmem
          rcases predAt_cases h3 hd chain v i with hpc | hpc
          · rw [hpc] at hpmem
            rcases List.mem_append.mp hpmem with h6 | h6
            · have h7 : hd ∈ chain := by
                rw [htwB] at h6
                exact ((mem_towers h3 chain i hd).mp
                  (List.mem_of_mem_filter h6)).1
              exact hhdch h7
            · exact hhdtl (List.mem_singleton.mp h6)
          · rcases List.mem_append.mp hpmem with h6 | h6
            · have h7 := (List.mem_filter.mp hpc).2
              have h8 := (List.mem_filter.mp (htwB ▸ h6)).2
              simp only [Bool.not_eq_true', decide_eq_false_iff_not] at h8
              simp only [decide_eq_true_eq] at h7
              exact h8 h7
            · have h9 := List.mem_singleton.mp h6
              have h7 : tl ∈ chain := by
                rw [← h9]
                exact ((mem_towers h3 chain i _).mp
                  (List.mem_of_mem_filter hpc)).1
              exact htlch h7
  refine ⟨⟨?_, ?_, ?_, dinv.nodup, ?_, hlinks⟩, ?_, hmap, ?_⟩
  · obtain ⟨n, hg, hva, hto, hle, hde⟩ := dinv.head_node
    obtain ⟨n2, hg2, hv5, ht5, hd5, hl5⟩ := dst.shape hd n hg
    exact ⟨n2, hg2, by rw [hv5, hva], by rw [ht5, hto],
      by rw [hl5, hle], by rw [hd5, hde]⟩
  · rw [hgtl]
    exact dinv.tail_node
  · intro x hx
    obtain ⟨n, hg, hln, ht1, htm, hb1, hb2⟩ := dinv.chain_node x hx
    obtain ⟨n2, hg2, hv5, ht5, _, hl5⟩ := dst.shape x n hg
    exact ⟨n2, hg2, by rw [hl5, ht5, hln], by rw [ht5]; exact ht1,
      by rw [ht5]; exact htm, by rw [hv5]; exact hb1, by rw [hv5]; exact hb2⟩
  · rw [hmap]
    exact dinv.sorted
  · intro hlv x hx
    obtain ⟨n, hg, hde⟩ := hlv x hx
    obtain ⟨n2, hg2, _, _, hd5, _⟩ := dst.shape x n hg
    exact ⟨n2, hg2, by rw [hd5, hde]⟩
  · exact dst.get_keep d (fun j hj => hdnp j hj)

end MLSkip


namespace MLSkip

/-- `sl_remove` on a present value: reports 1 and leaves an invariant
state whose value list is the old one with `v` erased. -/
theorem sl_remove_present (s : IntSet) (tl : NodeId) (chain : List NodeId)
    (pos : Int → ℚ) (tbl : List ShiftEntry) (T : Nat) (v : Int)
    (fuel rf : Nat)
    (inv : Inv0 s.heap s.head tl chain) (hlive : InvLive s.heap chain)
    (htab : tableOK tbl T s.head tl) (hT : 2 ≤ T)
    (hpos : ∀ x, 0 ≤ pos x ∧ pos x < 1)
    (hv1 : VAL_MIN < v) (hv2 : v < VAL_MAX)
    (hin : v ∈ chain.map (valOf s.heap))
    (hfuel : chain.length + 3 ≤ fuel) (hrf : 1 ≤ rf) :
    ∃ h4 it,
      sl_remove s pos tbl T v fuel rf = some (1, ⟨h4, s.head⟩, it) ∧
      ∃ chain2,
        Inv0 h4 s.head tl chain2 ∧ InvLive h4 chain2 ∧
        chain2.map (valOf h4) = (chain.map (valOf s.heap)).erase v ∧
        chain2.length + 1 = chain.length := by
  have hstart : startsAtHead s.heap tbl pos T v s.head :=
    startsAtHead_of_tableOK s.heap s.head tl chain tbl pos T v inv htab hT
      hpos hv1 hv2
  obtain ⟨p2, s2, it2, hq, hl1, hl2, hchar, hwf, hsf⟩ :=
    fraser_search_clean s.heap s.head tl chain pos tbl T v false true fuel rf
      inv hstart (by omega) (by omega) hrf
      (List.replicate levelmax none) (List.replicate levelmax none) 0
      (by simp) (by simp)
  have hs0 : s2.get? 0 = some (some (succAt s.heap tl chain v 0)) :=
    (hchar 0 (by rw [levelmax]; omega)).2 rfl
  obtain ⟨nd, h3, hgd, hndval, hdel, hmrun, dinv, hlive3, hmap3, hlen3⟩ :=
    remove_marks_InvD s.heap s.head tl chain v inv hlive hv1 hv2 hin
  have hstart3 : startsAtHead h3 tbl pos T v s.head := by
    apply startsAtHead_cells h3 s.head tl tbl pos T v ?_ ?_ htab hT hpos hv1 hv2
    · obtain ⟨n, hg, hva, _⟩ := dinv.head_node
      exact ⟨n, hg, hva⟩
    · exact ⟨_, dinv.tail_node, rfl⟩
  obtain ⟨h4, p3, s3, it3, hq2, st4, _, _, _, _, _⟩ :=
    fraser_search_dirty h3 s.head tl (succAt s.heap tl chain v 0) _ v
      nd.toplevel dinv pos tbl T hstart3 false false fuel rf
      (by omega) hrf
      (List.replicate levelmax none) (List.replicate levelmax none) it2
      (by simp) (by simp)
  obtain ⟨inv4, hlive4f, hmap4, _⟩ :=
    InvD_excise h3 h4 s.head tl (succAt s.heap tl chain v 0) _ v
      nd.toplevel dinv st4
  refine ⟨h4, it3, ?_, ?_⟩
  · rw [sl_remove, hq]
    simp only [Option.bind_eq_bind, Option.some_bind, hs0, id_eq]
    rw [hgd]
    simp only [Option.some_bind]
    rw [if_pos hndval, hdel]
    simp only [Bool.false_eq_true, if_false]
    rw [hmrun]
    simp only [Option.some_bind]
    rw [hq2]
    rfl
  · refine ⟨_, inv4, hlive4f hlive3, ?_, ?_⟩
    · rw [hmap4, hmap3]
    · omega

/-- `sl_remove` on an absent value: reports 0 and the heap is untouched. -/
theorem sl_remove_absent (s : IntSet) (tl : NodeId) (chain : List NodeId)
    (pos : Int → ℚ) (tbl : List ShiftEntry) (T : Nat) (v : Int)
    (fuel rf : Nat)
    (inv : Inv0 s.heap s.head tl chain)
    (hstart : startsAtHead s.heap tbl pos T v s.head)
    (hv2 : v < VAL_MAX)
    (hout : v ∉ chain.map (valOf s.heap))
    (hfuel : chain.length + 2 ≤ fuel) (hrf : 1 ≤ rf) :
    ∃ it, sl_remove s pos tbl T v fuel rf = some (0, s, it) := by
  obtain ⟨p2, s2, it2, hq, hl1, hl2, hchar, hwf, hsf⟩ :=
    fraser_search_clean s.heap s.head tl chain pos tbl T v false true fuel rf
      inv hstart (by omega) hfuel hrf
      (List.replicate levelmax none) (List.replicate levelmax none) 0
      (by simp) (by simp)
  have hs0 : s2.get? 0 = some (some (succAt s.heap tl chain v 0)) :=
    (hchar 0 (by rw [levelmax]; omega)).2 rfl
  obtain ⟨hiff, hmem⟩ := succ0_spec s.heap s.head tl chain v inv hv2
  obtain ⟨nd, hnd⟩ := get_of_mem_or_tl s.heap s.head tl chain inv _ hmem
  have hvne : ¬ (nd.val = v) := by
    intro hc
    apply hout
    apply hiff.mp
    rw [valOf, hnd]
    exact hc
  refine ⟨it2, ?_⟩
  rw [sl_remove, hq]
  simp only [Option.bind_eq_bind, Option.some_bind, hs0, id_eq]
  rw [hnd]
  simp only [Option.some_bind]
  rw [if_neg hvne]
  rfl

end MLSkip


namespace MLSkip

/-- An operation of the sequential differential test. -/
inductive Op where
  | add : Int → Nat → Op
  | remove : Int → Op
  | contains : Int → Op
deriving DecidableEq, Repr

/-- Operand bounds: values strictly between the sentinels, generated
levels between 1 and `levelmax`. -/
def opOK : Op → Bool
  | .add v lvl => decide (VAL_MIN < v) && decide (v < VAL_MAX)
      && decide (1 ≤ lvl) && decide (lvl ≤ levelmax)
  | .remove v => decide (VAL_MIN < v) && decide (v < VAL_MAX)
  | .contains v => decide (VAL_MIN < v) && decide (v < VAL_MAX)

/-- One step of the reference ordered-set model: add reports 1 iff the
value was absent, remove reports 1 iff it was present, contains reports
membership. -/
def mStep (m : List Int) : Op → Int × List Int
  | .add v _ => if v ∈ m then (0, m) else (1, m.orderedInsert (· ≤ ·) v)
  | .remove v => if v ∈ m then (1, m.erase v) else (0, m)
  | .contains v => (if v ∈ m then 1 else 0, m)

/-- Replay a sequence of operations against the reference model,
collecting the reported outcomes. -/
def mRun : List Int → List Op → List Int × List Int
  | m, [] => ([], m)
  | m, op :: ops =>
    ((mStep m op).1 :: (mRun (mStep m op).2 ops).1,
      (mRun (mStep m op).2 ops).2)

/-- One operation against the skip list. -/
def implStep (pos : Int → ℚ) (tbl : List ShiftEntry) (T : Nat)
    (fuel rf arf : Nat) (s : IntSet) : Op → Option (Int × IntSet)
  | .add v lvl => (sl_add s pos tbl T v lvl fuel rf arf).map
      (fun r => (r.1, r.2.1))
  | .remove v => (sl_remove s pos tbl T v fuel rf).map
      (fun r => (r.1, r.2.1))
  | .contains v => (sl_contains s pos tbl T v fuel rf).map
      (fun r => (r.1, r.2.1))

/-- Replay a sequence of operations against the skip list. -/
def runOps (pos : Int → ℚ) (tbl : List ShiftEntry) (T : Nat)
    (fuel rf arf : Nat) : IntSet → List Op → Option (List Int × IntSet)
  | s, [] => some ([], s)
  | s, op :: ops => do
    let p ← implStep pos tbl T fuel rf arf s op
    let q ← runOps pos tbl T fuel rf arf p.2 ops
    pure (p.1 :: q.1, q.2)

/-- The value `sl_set_new` computes. -/
def freshSet : IntSet :=
  ⟨⟨[some ⟨VAL_MAX, false, levelmax, List.replicate levelmax Ptr.null⟩,
     some ⟨VAL_MIN, false, levelmax,
       List.replicate levelmax (Ptr.mk (some 0) false)⟩]⟩, 1⟩

theorem sl_set_new_eq : sl_set_new = some freshSet := by decide

theorem fresh_Inv0 : Inv0 freshSet.heap freshSet.head 0 [] := by
  refine ⟨?_, ?_, ?_, ?_, ?_, ?_⟩
  · exact ⟨_, rfl, rfl, rfl, by simp, rfl⟩
  · rfl
  · intro x hx
    exact absurd hx (List.not_mem_nil x)
  · decide
  · simp
  · intro i hi
    apply (Seg_cons freshSet.heap i 1 0 []).mpr
    refine ⟨?_, Seg.nil 0⟩
    have e1 : freshSet.heap.nextAt 1 i
        = (List.replicate levelmax (Ptr.mk (some 0) false)).get? i := by
      rw [Heap.nextAt]
      rfl
    rw [e1, List.get?_eq_getElem?, List.getElem?_replicate, if_pos hi]

theorem fresh_InvLive : InvLive freshSet.heap [] := by
  intro x hx
  exact absurd hx (List.not_mem_nil x)

/-- Transfer of the invariant along a heap whose every cell reads the
same. -/
theorem Inv0_congr_all (h h2 : Heap) (hd tl : NodeId) (chain : List NodeId)
    (hc : ∀ x, h2.get x = h.get x) (inv : Inv0 h hd tl chain) :
    Inv0 h2 hd tl chain := by
  have hcc : ∀ x ∈ chain, h2.get x = h.get x := fun x _ => hc x
  refine ⟨?_, ?_, ?_, inv.nodup, ?_, ?_⟩
  · obtain ⟨n, hg, rest⟩ := inv.head_node
    exact ⟨n, by rw [hc hd]; exact hg, rest⟩
  · rw [hc tl]
    exact inv.tail_node
  · intro x hx
    obtain ⟨n, hg, rest⟩ := inv.chain_node x hx
    exact ⟨n, by rw [hc x]; exact hg, rest⟩
  · rw [map_valOf_congr h h2 chain hcc]
    exact inv.sorted
  · intro i hi
    rw [towers_congr h h2 chain i hcc]
    apply Seg_congr h h2 i _ hd (inv.links i hi)
    intro x _
    exact nextAt_congr h h2 x i (hc x)

theorem InvLive_congr_all (h h2 : Heap) (chain : List NodeId)
    (hc : ∀ x, h2.get x = h.get x) (hl : InvLive h chain) :
    InvLive h2 chain := by
  intro x hx
  obtain ⟨n, hg, hd⟩ := hl x hx
  exact ⟨n, by rw [hc x]; exact hg, hd⟩

/-- The sequential replay agrees with the reference model, op by op,
from any invariant state. -/
theorem runOps_model (tl : NodeId) (pos : Int → ℚ) (tbl : List ShiftEntry)
    (T : Nat) (fuel rf arf : Nat)
    (hT : 2 ≤ T) (hpos : ∀ x, 0 ≤ pos x ∧ pos x < 1)
    (hrf : 1 ≤ rf) (harf : 1 ≤ arf) :
    ∀ (ops : List Op) (s : IntSet) (chain : List NodeId),
      Inv0 s.heap s.head tl chain → InvLive s.heap chain →
      tableOK tbl T s.head tl →
      (∀ op ∈ ops, opOK op = true) →
      chain.length + ops.length + 3 ≤ fuel →
      ∃ sfin chainfin,
        runOps pos tbl T fuel rf arf s ops
          = some ((mRun (chain.map (valOf s.heap)) ops).1, sfin) ∧
        Inv0 sfin.heap sfin.head tl chainfin ∧
        chainfin.map (valOf sfin.heap)
          = (mRun (chain.map (valOf s.heap)) ops).2 := by
  intro ops
  induction ops with
  | nil =>
    intro s chain inv hlive htab hops hfuel
    exact ⟨s, chain, rfl, inv, rfl⟩
  | cons op ops ih =>
    intro s chain inv hlive htab hops hfuel
    rw [List.length_cons] at hfuel
    have hopok := hops op (List.mem_cons_self op ops)
    have hopsrest : ∀ o ∈ ops, opOK o = true :=
      fun o ho => hops o (List.mem_cons_of_mem op ho)
    cases op with
    | contains v =>
      simp only [opOK, Bool.and_eq_true, decide_eq_true_eq] at hopok
      obtain ⟨hv1, hv2⟩ := hopok
      have hstart := startsAtHead_of_tableOK s.heap s.head tl chain tbl pos
        T v inv htab hT hpos hv1 hv2
      obtain ⟨it, hrun⟩ := sl_contains_clean s tl chain pos tbl T v fuel rf
        inv hlive hstart hv2 (by omega) hrf
      obtain ⟨sfin, cfin, hrec, invfin, hmapfin⟩ :=
        ih s chain inv hlive htab hopsrest (by omega)
      refine ⟨sfin, cfin, ?_, invfin, ?_⟩
      · rw [runOps]
        simp only [implStep, Option.bind_eq_bind]
        rw [hrun]
        simp only [Option.map_some', Option.some_bind]
        rw [hrec]
        simp only [Option.some_bind]
        rw [mRun]
        simp only [mStep]
        rfl
      · rw [mRun]
        simp only [mStep]
        exact hmapfin
    | remove v =>
      simp only [opOK, Bool.and_eq_true, decide_eq_true_eq] at hopok
      obtain ⟨hv1, hv2⟩ := hopok
      by_cases hin : v ∈ chain.map (valOf s.heap)
      · obtain ⟨h4, it, hrun, chain2, inv2, hlive2, hmap2, hlen2⟩ :=
          sl_remove_present s tl chain pos tbl T v fuel rf inv hlive htab hT
            hpos hv1 hv2 hin (by omega) hrf
        obtain ⟨sfin, cfin, hrec, invfin, hmapfin⟩ :=
          ih ⟨h4, s.head⟩ chain2 inv2 hlive2 htab hopsrest (by omega)
        refine ⟨sfin, cfin, ?_, invfin, ?_⟩
        · rw [runOps]
          simp only [implStep, Option.bind_eq_bind]
          rw [hrun]
          simp only [Option.map_some', Option.some_bind]
          rw [hrec]
          simp only [Option.some_bind]
          rw [mRun]
          simp only [mStep, if_pos hin]
          rw [← hmap2]
          rfl
        · rw [mRun]
          simp only [mStep, if_pos hin]
          rw [← hmap2]
          exact hmapfin
      · have hstart := startsAtHead_of_tableOK s.heap s.head tl chain tbl pos
          T v inv htab hT hpos hv1 hv2
        obtain ⟨it, hrun⟩ := sl_remove_absent s tl chain pos tbl T v fuel rf
          inv hstart hv2 hin (by omega) hrf
        obtain ⟨sfin, cfin, hrec, invfin, hmapfin⟩ :=
          ih s chain inv hlive htab hopsrest (by omega)
        refine ⟨sfin, cfin, ?_, invfin, ?_⟩
        · rw [runOps]
          simp only [implStep, Option.bind_eq_bind]
          rw [hrun]
          simp only [Option.map_some', Option.some_bind]
          rw [hrec]
          simp only [Option.some_bind]
          rw [mRun]
          simp only [mStep, if_neg hin]
          rfl
        · rw [mRun]
          simp only [mStep, if_neg hin]
          exact hmapfin
    | add v lvl =>
      simp only [opOK, Bool.and_eq_true, decide_eq_true_eq] at hopok
      obtain ⟨⟨⟨hv1, hv2⟩, hl1⟩, hl2⟩ := hopok
      by_cases hin : v ∈ chain.map (valOf s.heap)
      · obtain ⟨it, hrun⟩ := sl_add_present s tl chain pos tbl T v lvl fuel
          rf arf inv hlive htab hT hpos hv1 hv2 hin (by omega) hrf harf
        have hget2 : ∀ x, (Heap.mk (s.heap.nodes ++ [none])).get x
            = s.heap.get x := get_append_none s.heap
        have inv2 : Inv0 (Heap.mk (s.heap.nodes ++ [none])) s.head tl chain :=
          Inv0_congr_all s.heap _ s.head tl chain hget2 inv
        have hlive2 : InvLive (Heap.mk (s.heap.nodes ++ [none])) chain :=
          InvLive_congr_all s.heap _ chain hget2 hlive
        have hmapeq : chain.map (valOf (Heap.mk (s.heap.nodes ++ [none])))
            = chain.map (valOf s.heap) :=
          map_valOf_congr s.heap _ chain (fun x _ => hget2 x)
        obtain ⟨sfin, cfin, hrec, invfin, hmapfin⟩ :=
          ih ⟨⟨s.heap.nodes ++ [none]⟩, s.head⟩ chain inv2 hlive2 htab
            hopsrest (by omega)
        refine ⟨sfin, cfin, ?_, invfin, ?_⟩
        · rw [runOps]
          simp only [implStep, Option.bind_eq_bind]
          rw [hrun]
          simp only [Option.map_some', Option.some_bind]
          rw [hrec]
          simp only [Option.some_bind]
          rw [mRun]
          simp only [mStep, if_pos hin]
          rw [hmapeq]
          rfl
        · rw [mRun]
          simp only [mStep, if_pos hin]
          rw [← hmapeq]
          exact hmapfin
      · obtain ⟨chain2, h4, it, hrun, inv2, hlive2, hlen2, hmap2⟩ :=
          sl_add_insert s tl chain pos tbl T v lvl fuel rf arf inv hlive htab
            hT hpos hv1 hv2 hin hl1 hl2 (by omega) hrf harf
        obtain ⟨sfin, cfin, hrec, invfin, hmapfin⟩ :=
          ih ⟨h4, s.head⟩ chain2 inv2 hlive2 htab hopsrest (by omega)
        refine ⟨sfin, cfin, ?_, invfin, ?_⟩
        · rw [runOps]
          simp only [implStep, Option.bind_eq_bind]
          rw [hrun]
          simp only [Option.map_some', Option.some_bind]
          rw [hrec]
          simp only [Option.some_bind]
          rw [mRun]
          simp only [mStep, if_neg hin]
          rw [← hmap2]
          rfl
        · rw [mRun]
          simp only [mStep, if_neg hin]
          rw [← hmap2]
          exact hmapfin

/-- C1, counterexample to the claim as stated: on a freshly created set
(with its freshly built table) the implementation reports `INT_MAX` as a
member while the reference ordered-set model does not contain it. -/
theorem sl_seq_model_counterexample :
    sl_set_new = some freshSet ∧
    populate_shift_table freshSet (fun _ => 0) 2 (new_shift_table 2)
      = some [⟨1, 0, some 1⟩, ⟨1, 0, some 0⟩] ∧
    runOps (fun _ => 0) [⟨1, 0, some 1⟩, ⟨1, 0, some 0⟩] 2 3 1 1 freshSet
      [Op.contains VAL_MAX] = some ([1], freshSet) ∧
    (mRun [] [Op.contains VAL_MAX]).1 = [0] :=
  ⟨sl_set_new_eq, by decide, by decide, by decide⟩

/-- C1 (amended: operand values strictly between the sentinels
`INT_MIN`/`INT_MAX`, generated levels between 1 and `levelmax`): starting
from a freshly created set with a table built over it, every sequence of
`sl_add`, `sl_remove` and `sl_contains` calls returns exactly the
outcomes of the reference ordered-set model replay. -/
theorem sl_sequential_refines_model (pos : Int → ℚ) (tbl : List ShiftEntry)
    (T : Nat) (s0 : IntSet) (ops : List Op) (fuel rf arf : Nat)
    (hnew : sl_set_new = some s0)
    (hpop : populate_shift_table s0 pos T (new_shift_table T) = some tbl)
    (hT : 2 ≤ T) (hpos : ∀ x, 0 ≤ pos x ∧ pos x < 1)
    (hops : ∀ op ∈ ops, opOK op = true)
    (hfuel : ops.length + 3 ≤ fuel) (hrf : 1 ≤ rf) (harf : 1 ≤ arf) :
    ∃ sfin, runOps pos tbl T fuel rf arf s0 ops
      = some ((mRun [] ops).1, sfin) := by
  have hs0 : s0 = freshSet := by
    rw [sl_set_new_eq] at hnew
    exact (Option.some_inj.mp hnew).symm
  subst hs0
  have htab : tableOK tbl T freshSet.head 0 :=
    fresh_tableOK freshSet pos T 0 tbl hT hpos (by decide) (by decide) hpop
  obtain ⟨sfin, cfin, hrun, _, _⟩ :=
    runOps_model 0 pos tbl T fuel rf arf hT hpos hrf harf ops freshSet []
      fresh_Inv0 fresh_InvLive htab hops (by simpa using hfuel)
  exact ⟨sfin, hrun⟩

theorem sl_sequential_refines_model_witness :
    ∃ sfin, runOps (fun _ => 0) [⟨1, 0, some 1⟩, ⟨1, 0, some 0⟩] 2 7 1 1
      freshSet [Op.add 5 1, Op.contains 5, Op.remove 5, Op.contains 5]
      = some ((mRun [] [Op.add 5 1, Op.contains 5, Op.remove 5,
          Op.contains 5]).1, sfin) :=
  sl_sequential_refines_model (fun _ => 0)
    [⟨1, 0, some 1⟩, ⟨1, 0, some 0⟩] 2 freshSet
    [Op.add 5 1, Op.contains 5, Op.remove 5, Op.contains 5] 7 1 1
    sl_set_new_eq (by decide) (by decide)
    (fun x => ⟨le_refl 0, by norm_num⟩) (by decide) (by decide)
    (by decide) (by decide)

end MLSkip


namespace MLSkip

/-- Marking the forward pointers of an already-deleted node carrying the
target value takes an invariant state to the dirty-state invariant on the
chain without that node (the `sl_add` retry path). -/
theorem add_marks_InvD (h : Heap) (hd tl : NodeId) (chainF : List NodeId)
    (v : Int) (inv : Inv0 h hd tl chainF)
    (hliveo : ∀ x ∈ chainF, x ≠ succAt h tl chainF v 0 →
      ∃ n, h.get x = some n ∧ n.deleted = false)
    (hv1 : VAL_MIN < v) (hv2 : v < VAL_MAX)
    (hin : v ∈ chainF.map (valOf h))
    (hdeleted : ∀ n, h.get (succAt h tl chainF v 0) = some n →
      n.deleted = true) :
    ∃ nd h3,
      h.get (succAt h tl chainF v 0) = some nd ∧ nd.val = v ∧
      nd.deleted = true ∧
      mark_node_ptrs h (succAt h tl chainF v 0) = some h3 ∧
      InvD h3 hd tl (succAt h tl chainF v 0)
        (chainF.filter (fun x => decide (valOf h x < v))
          ++ (chainF.filter (fun x => ! decide (valOf h x < v))).tail)
        v nd.toplevel ∧
      InvLive h3
        (chainF.filter (fun x => decide (valOf h x < v))
          ++ (chainF.filter (fun x => ! decide (valOf h x < v))).tail) ∧
      ((chainF.filter (fun x => decide (valOf h x < v))
          ++ (chainF.filter (fun x => ! decide (valOf h x < v))).tail).map
        (valOf h3) = (chainF.map (valOf h)).erase v) ∧
      (chainF.filter (fun x => decide (valOf h x < v))
          ++ (chainF.filter (fun x => ! decide (valOf h x < v))).tail).length + 1
        = chainF.length ∧
      (∀ x, x ≠ succAt h tl chainF v 0 → h3.get x = h.get x) := by
  obtain ⟨B0, hchainF, hvald, hdchain, hAv, hBv⟩ :=
    present_split h hd tl chainF v inv hv2 hin
  set d := succAt h tl chainF v 0 with hddef
  set A0 := chainF.filter (fun x => decide (valOf h x < v)) with hA0
  have htail : (chainF.filter (fun x => ! decide (valOf h x < v))).tail = B0 := by
    have hBfull : chainF.filter (fun x => ! decide (valOf h x < v)) = d :: B0 := by
      have hsplit := sorted_split h v chainF inv.sorted
      rw [← hA0] at hsplit
      have h5 : A0 ++ chainF.filter (fun x => ! decide (valOf h x < v))
          = A0 ++ d :: B0 := by
        rw [← hsplit]
        exact hchainF
      exact List.append_cancel_left h5
    rw [hBfull, List.tail_cons]
  rw [htail]
  obtain ⟨nd, hgd, hndlen, hndtop1, hndtopmax, hndvmin, hndvmax⟩ :=
    inv.chain_node d hdchain
  have hdel : nd.deleted = true := hdeleted nd hgd
  have hndval : nd.val = v := by
    rw [valOf, hgd] at hvald
    exact hvald
  have htopd : toplevelOf h d = nd.toplevel := by
    rw [toplevelOf, hgd]
  obtain ⟨hhdtl, hhdch, htlch, hchnd⟩ := nodup_facts hd tl chainF inv.nodup
  have hdA0B0 : d ∉ A0 ++ B0 := by
    have h5 : chainF.Nodup := hchnd
    rw [hchainF] at h5
    have h6 := (List.perm_middle.nodup_iff).mp h5
    exact (List.nodup_cons.mp h6).1
  have hdne_hd : d ≠ hd := by
    intro hc
    exact hhdch (hc ▸ hdchain)
  have hdne_tl : d ≠ tl := by
    intro hc
    exact htlch (hc ▸ hdchain)
  have hdlen : d < h.nodes.length := get_lt_length h d (by rw [hgd]; rfl)
  -- the per-level decomposition in `h`
  have htwsplit : ∀ j, towers h chainF j
      = towers h A0 j ++ (if j < nd.toplevel then d :: towers h B0 j
        else towers h B0 j) := by
    intro j
    rw [hchainF]
    simp only [towers, List.filter_append, List.filter_cons]
    have e1 : (decide (j < toplevelOf h d)) = decide (j < nd.toplevel) := by
      rw [htopd]
    rw [e1]
    by_cases hj : j < nd.toplevel
    · rw [if_pos (by simpa using hj), if_pos hj]
    · rw [if_neg (by simpa using hj), if_neg hj]
  have hlevels : ∀ j, j < nd.toplevel →
      Seg h j hd (towers h A0 j ++ [d]) ∧
      h.nextAt d j = some (Ptr.mk (some
        ((towers h B0 j ++ [tl]).headD tl)) false) ∧
      Seg h j ((towers h B0 j ++ [tl]).headD tl)
        ((towers h B0 j ++ [tl]).tail) := by
    intro j hj
    have hfull := inv.links j (by omega)
    rw [htwsplit j, if_pos hj] at hfull
    have hfull2 : Seg h j hd (towers h A0 j
        ++ (d :: (towers h B0 j ++ [tl]))) := by
      have e1 : (towers h A0 j ++ d :: towers h B0 j) ++ [tl]
          = towers h A0 j ++ (d :: (towers h B0 j ++ [tl])) := by simp
      rw [e1] at hfull
      exact hfull
    have hdec := (Seg_append h j (towers h A0 j)
      (d :: (towers h B0 j ++ [tl])) hd).mp hfull2
    have hdec2 := hdec.2
    rw [Seg_cons] at hdec2
    obtain ⟨c, cs, hcc⟩ : ∃ c cs, towers h B0 j ++ [tl] = c :: cs := by
      cases towers h B0 j <;> exact ⟨_, _, rfl⟩
    have hdec3 := hdec2.2
    rw [hcc, Seg_cons] at hdec3
    refine ⟨?_, ?_, ?_⟩
    · apply (Seg_append h j (towers h A0 j) [d] hd).mpr
      refine ⟨hdec.1, ?_⟩
      apply (Seg_cons h j _ d []).mpr
      exact ⟨hdec2.1, Seg.nil d⟩
    · rw [hcc]
      simp only [List.headD]
      exact hdec3.1
    · rw [hcc]
      simp only [List.headD, List.tail]
      exact hdec3.2
  -- mark the pointers of the already-deleted node
  obtain ⟨h3, nx, hmrun, hg3d, hnxlen, hnxmk, hg3o⟩ :=
    mark_node_ptrs_spec h d nd hgd hndlen
      (by
        intro j hj
        obtain ⟨_, hdout, _⟩ := hlevels j hj
        rw [Heap.nextAt, hgd] at hdout
        simp only [Option.bind_eq_bind, Option.some_bind] at hdout
        exact ⟨_, hdout, rfl⟩)
  have hg3cells : ∀ x, x ≠ d → h3.get x = h.get x := fun x hx => hg3o x hx
  have hval3 : ∀ x, x ≠ d → valOf h3 x = valOf h x := by
    intro x hx
    rw [valOf, valOf, hg3cells x hx]
  have htop3 : ∀ x, x ≠ d → toplevelOf h3 x = toplevelOf h x := by
    intro x hx
    rw [toplevelOf, toplevelOf, hg3cells x hx]
  have hchne : ∀ x, x ∈ A0 ++ B0 → x ≠ d := by
    intro x hx hc
    exact hdA0B0 (hc ▸ hx)
  have htw3 : ∀ j, towers h3 (A0 ++ B0) j = towers h A0 j ++ towers h B0 j := by
    intro j
    rw [towers]
    have e1 : (A0 ++ B0).filter (fun x => decide (j < toplevelOf h3 x))
        = (A0 ++ B0).filter (fun x => decide (j < toplevelOf h x)) := by
      apply List.filter_congr
      intro x hx
      rw [htop3 x (hchne x hx)]
    rw [e1, List.filter_append]
    rfl
  have hsubA0 : ∀ j, ∀ x ∈ towers h A0 j, x ∈ A0 :=
    fun j x hx => ((mem_towers h A0 j x).mp hx).1
  have hsubB0 : ∀ j, ∀ x ∈ towers h B0 j, x ∈ B0 :=
    fun j x hx => ((mem_towers h B0 j x).mp hx).1
  have hfltA : ∀ j, (towers h3 (A0 ++ B0) j).filter
      (fun x => decide (valOf h3 x < v)) = towers h A0 j := by
    intro j
    rw [htw3 j, List.filter_append]
    have e1 : (towers h A0 j).filter (fun x => decide (valOf h3 x < v))
        = towers h A0 j := by
      rw [List.filter_eq_self]
      intro x hx
      rw [hval3 x (hchne x (List.mem_append_left B0 (hsubA0 j x hx)))]
      simp
      exact hAv x (hsubA0 j x hx)
    have e2 : (towers h B0 j).filter (fun x => decide (valOf h3 x < v))
        = [] := by
      rw [List.filter_eq_nil_iff]
      intro x hx
      rw [hval3 x (hchne x (List.mem_append_right A0 (hsubB0 j x hx)))]
      simp
      have := hBv x (hsubB0 j x hx)
      omega
    rw [e1, e2, List.append_nil]
  have hfltB : ∀ j, (towers h3 (A0 ++ B0) j).filter
      (fun x => ! decide (valOf h3 x < v)) = towers h B0 j := by
    intro j
    rw [htw3 j, List.filter_append]
    have e1 : (towers h A0 j).filter (fun x => ! decide (valOf h3 x < v))
        = [] := by
      rw [List.filter_eq_nil_iff]
      intro x hx
      rw [hval3 x (hchne x (List.mem_append_left B0 (hsubA0 j x hx)))]
      simp
      exact hAv x (hsubA0 j x hx)
    have e2 : (towers h B0 j).filter (fun x => ! decide (valOf h3 x < v))
        = towers h B0 j := by
      rw [List.filter_eq_self]
      intro x hx
      rw [hval3 x (hchne x (List.mem_append_right A0 (hsubB0 j x hx)))]
      simp
      have := hBv x (hsubB0 j x hx)
      omega
    rw [e1, e2, List.nil_append]
  refine ⟨nd, h3, hgd, hndval, hdel, hmrun, ?_, ?_, ?_, ?_, hg3cells⟩
  · -- InvD
    refine ⟨?_, ?_, ?_, ?_, ⟨hdne_hd, hdne_tl, hdA0B0⟩, hndtop1, hndtopmax,
      hv1, hv2, ?_, ?_, ?_, ?_, ?_⟩
    · obtain ⟨n, hg, rest⟩ := inv.head_node
      exact ⟨n, by rw [hg3cells hd hdne_hd.symm]; exact hg, rest⟩
    · rw [hg3cells tl hdne_tl.symm]
      exact inv.tail_node
    · intro x hx
      obtain ⟨n, hg, rest⟩ := inv.chain_node x (by
        rw [hchainF]
        rcases List.mem_append.mp hx with h5 | h5
        · exact List.mem_append_left _ h5
        · exact List.mem_append_right _ (List.mem_cons_of_mem d h5))
      exact ⟨n, by rw [hg3cells x (hchne x hx)]; exact hg, rest⟩
    · exact ⟨{ nd with next := nx }, hg3d, hndval, rfl, hdel⟩
    · -- nodup
      have hsub : List.Sublist ((hd :: (A0 ++ B0)) ++ [tl])
          ((hd :: chainF) ++ [tl]) := by
        rw [hchainF]
        apply List.Sublist.append _ (List.Sublist.refl [tl])
        apply List.Sublist.cons₂
        exact List.Sublist.append_left (List.sublist_cons_self d B0) A0
      have hfull : ((hd :: chainF) ++ [tl]).Nodup := by
        have := inv.nodup
        rw [List.cons_append] at this
        rw [List.cons_append]
        exact this
      have := hsub.nodup hfull
      rw [List.cons_append] at this ⊢
      exact this
    · -- sorted
      have e1 : (A0 ++ B0).map (valOf h3) = (A0 ++ B0).map (valOf h) :=
        List.map_congr_left (fun x hx => hval3 x (hchne x hx))
      rw [e1]
      have hsub : List.Sublist (A0 ++ B0) chainF := by
        rw [hchainF]
        exact List.Sublist.append_left (List.sublist_cons_self d B0) A0
      exact inv.sorted.sublist (hsub.map (valOf h))
    · -- vnot
      intro hc
      obtain ⟨x, hx, hvx⟩ := List.mem_map.mp hc
      rw [hval3 x (hchne x hx)] at hvx
      rcases List.mem_append.mp hx with h5 | h5
      · have := hAv x h5
        omega
      · have := hBv x h5
        omega
    · -- links_hi
      intro j hjtd hjmax
      have hfull := inv.links j hjmax
      rw [htwsplit j, if_neg (by omega)] at hfull
      have e1 : towers h3 (A0 ++ B0) j = towers h A0 j ++ towers h B0 j :=
        htw3 j
      rw [e1]
      apply Seg_congr h h3 j _ hd hfull
      intro x hx
      apply nextAt_congr
      apply hg3cells
      rcases hx with rfl | hx
      · exact hdne_hd.symm
      · rcases List.mem_append.mp hx with h5 | h5
        · rcases List.mem_append.mp h5 with h6 | h6
          · exact hchne x (List.mem_append_left B0 (hsubA0 j x h6))
          · exact hchne x (List.mem_append_right A0 (hsubB0 j x h6))
        · rw [List.mem_singleton] at h5
          rw [h5]
          exact hdne_tl.symm
    · -- links_lo
      intro j hjtd
      obtain ⟨hsA, hdout, hsB⟩ := hlevels j hjtd
      refine ⟨?_, ?_, ?_⟩
      · rw [hfltA j]
        apply Seg_congr3 h h3 j _ hd hsA
        intro x hx
        have hdl2 : (hd :: (towers h A0 j ++ [d])).dropLast
            = hd :: towers h A0 j := by
          rw [← List.cons_append, List.dropLast_concat]
        rw [hdl2] at hx
        apply nextAt_congr
        apply hg3cells
        rcases List.mem_cons.mp hx with h5 | h5
        · rw [h5]
          exact hdne_hd.symm
        · exact hchne x (List.mem_append_left B0 (hsubA0 j x h5))
      · rw [hfltB j]
        obtain ⟨p, hp, hp2⟩ := hnxmk j (by simpa using hjtd)
        have hdout2 : nd.next.get? j
            = some (Ptr.mk (some ((towers h B0 j ++ [tl]).headD tl)) false) := by
          rw [Heap.nextAt, hgd] at hdout
          simp only [Option.bind_eq_bind, Option.some_bind] at hdout
          exact hdout
        have hpv : p = Ptr.mk (some ((towers h B0 j ++ [tl]).headD tl)) false := by
          rw [hdout2] at hp
          exact (Option.some_inj.mp hp).symm
        rw [Heap.nextAt, hg3d]
        simp only [Option.bind_eq_bind, Option.some_bind]
        rw [hp2, hpv]
        rw [headD_append_single]
        rfl
      · rw [hfltB j]
        rw [headD_append_single] at hsB
        apply Seg_congr h h3 j _ _ hsB
        intro x hx
        apply nextAt_congr
        apply hg3cells
        have hmem2 : ∀ y, y ∈ towers h B0 j ++ [tl] → y ≠ d := by
          intro y hy
          rcases List.mem_append.mp hy with h5 | h5
          · exact hchne y (List.mem_append_right A0 (hsubB0 j y h5))
          · rw [List.mem_singleton] at h5
            rw [h5]
            exact hdne_tl.symm
        rcases hx with rfl | hx
        · apply hmem2
          rcases hBe : towers h B0 j with _ | ⟨b, B2⟩
          · simp
          · simp
        · apply hmem2
          exact (List.tail_sublist (towers h B0 j ++ [tl])).mem hx
  · -- InvLive
    intro x hx
    obtain ⟨n, hg, hd5⟩ := hliveo x (by
      rw [hchainF]
      rcases List.mem_append.mp hx with h5 | h5
      · exact List.mem_append_left _ h5
      · exact List.mem_append_right _ (List.mem_cons_of_mem d h5))
      (hchne x hx)
    exact ⟨n, by rw [hg3cells x (hchne x hx)]; exact hg, hd5⟩
  · -- the value list is the erase
    have e1 : (A0 ++ B0).map (valOf h3) = (A0 ++ B0).map (valOf h) :=
      List.map_congr_left (fun x hx => hval3 x (hchne x hx))
    rw [e1]
    have e2 : chainF.map (valOf h) = A0.map (valOf h) ++ v :: B0.map (valOf h) := by
      rw [hchainF, List.map_append, List.map_cons, hvald]
    rw [e2, List.map_append]
    rw [erase_split v (A0.map (valOf h)) (B0.map (valOf h))]
    intro x hx
    obtain ⟨y, hy, hvy⟩ := List.mem_map.mp hx
    have := hAv y hy
    omega
  · -- lengths
    have := congrArg List.length hchainF
    simp only [List.length_append, List.length_cons] at this
    rw [List.length_append]
    omega

end MLSkip


namespace MLSkip


end MLSkip


namespace MLSkip

theorem predAt_congr_vt (h h2 : Heap) (hd : NodeId) (chain : List NodeId)
    (v : Int) (i : Nat)
    (hval : ∀ x ∈ chain, valOf h2 x = valOf h x)
    (htop : ∀ x ∈ chain, toplevelOf h2 x = toplevelOf h x) :
    predAt h2 hd chain v i = predAt h hd chain v i := by
  rw [predAt, predAt]
  have e1 : towers h2 chain i = towers h chain i := by
    simp only [towers]
    apply List.filter_congr
    intro x hx
    rw [htop x hx]
  rw [e1]
  have e2 : (towers h chain i).filter (fun x => decide (valOf h2 x < v))
      = (towers h chain i).filter (fun x => decide (valOf h x < v)) := by
    apply List.filter_congr
    intro x hx
    rw [hval x ((mem_towers h chain i x).mp hx).1]
  rw [e2]

theorem succAt_congr_vt (h h2 : Heap) (tl : NodeId) (chain : List NodeId)
    (v : Int) (i : Nat)
    (hval : ∀ x ∈ chain, valOf h2 x = valOf h x)
    (htop : ∀ x ∈ chain, toplevelOf h2 x = toplevelOf h x) :
    succAt h2 tl chain v i = succAt h tl chain v i := by
  rw [succAt, succAt]
  have e1 : towers h2 chain i = towers h chain i := by
    simp only [towers]
    apply List.filter_congr
    intro x hx
    rw [htop x hx]
  rw [e1]
  have e2 : (towers h chain i).filter (fun x => ! decide (valOf h2 x < v))
      = (towers h chain i).filter (fun x => ! decide (valOf h x < v)) := by
    apply List.filter_congr
    intro x hx
    rw [hval x ((mem_towers h chain i x).mp hx).1]
  rw [e2]

/-- `sl_add` on a value whose level-0 carrier is a deleted node: it never
resurrects that node; it marks its pointers, retries, and splices a newly
allocated node object (the fresh id `s.heap.nodes.length`) while the dead
node leaves the chain. -/
theorem sl_add_deleted_retry (s : IntSet) (tl : NodeId)
    (chainF : List NodeId) (pos : Int → ℚ) (tbl : List ShiftEntry)
    (T : Nat) (v : Int) (lvl : Nat) (fuel rf arf : Nat)
    (inv : Inv0 s.heap s.head tl chainF)
    (hliveo : ∀ x ∈ chainF, x ≠ succAt s.heap tl chainF v 0 →
      ∃ n, s.heap.get x = some n ∧ n.deleted = false)
    (hdeleted : ∀ n, s.heap.get (succAt s.heap tl chainF v 0) = some n →
      n.deleted = true)
    (htab : tableOK tbl T s.head tl) (hT : 2 ≤ T)
    (hpos : ∀ x, 0 ≤ pos x ∧ pos x < 1)
    (hv1 : VAL_MIN < v) (hv2 : v < VAL_MAX)
    (hin : v ∈ chainF.map (valOf s.heap))
    (hlvl1 : 1 ≤ lvl) (hlvlmax : lvl ≤ levelmax)
    (hfuel : chainF.length + 3 ≤ fuel) (hrf : 1 ≤ rf) (harf : 2 ≤ arf) :
    ∃ A B h4 it,
      sl_add s pos tbl T v lvl fuel rf arf = some (1, ⟨h4, s.head⟩, it) ∧
      Inv0 h4 s.head tl (A ++ s.heap.nodes.length :: B) ∧
      succAt s.heap tl chainF v 0 ∉ A ++ s.heap.nodes.length :: B ∧
      succAt s.heap tl chainF v 0 ≠ s.heap.nodes.length ∧
      (A ++ s.heap.nodes.length :: B).map (valOf h4)
        = ((chainF.map (valOf s.heap)).erase v).orderedInsert (· ≤ ·) v := by
  rcases arf with _ | arf3
  · omega
  rcases arf3 with _ | arf2
  · omega
  set newId := s.heap.nodes.length with hnewIddef
  set h1 := (s.heap.alloc (sl_new_simple_node v lvl)).1 with hh1
  have hc : ∀ x ∈ chainF, h1.get x = s.heap.get x := by
    intro x hx
    obtain ⟨nx0, hg, _⟩ := inv.chain_node x hx
    exact get_alloc s.heap _ x (by rw [hg]; rfl)
  have inv1 : Inv0 h1 s.head tl chainF := Inv0_alloc s.heap s.head tl chainF _ inv
  have hstart1 : startsAtHead h1 tbl pos T v s.head :=
    startsAtHead_of_tableOK h1 s.head tl chainF tbl pos T v inv1 htab hT
      hpos hv1 hv2
  have hin1 : v ∈ chainF.map (valOf h1) := by
    rw [map_valOf_congr s.heap h1 chainF hc]
    exact hin
  have hd1d : succAt h1 tl chainF v 0 = succAt s.heap tl chainF v 0 :=
    succAt_congr_vt s.heap h1 tl chainF v 0
      (fun x hx => valOf_congr s.heap h1 x (hc x hx))
      (fun x hx => toplevelOf_congr s.heap h1 x (hc x hx))
  obtain ⟨p2, s2, it2, hq1, hl1, hl2, hchar1, _, _⟩ :=
    fraser_search_clean h1 s.head tl chainF pos tbl T v true true fuel rf
      inv1 hstart1 (le_of_lt hv2) (by omega) hrf
      (List.replicate levelmax none) (List.replicate levelmax none) 0
      (by simp) (by simp)
  have hs0 : s2.get? 0 = some (some (succAt h1 tl chainF v 0)) :=
    (hchar1 0 (by rw [levelmax]; omega)).2 rfl
  obtain ⟨hiff1, hmem1⟩ := succ0_spec h1 s.head tl chainF v inv1 hv2
  have hval1 : valOf h1 (succAt h1 tl chainF v 0) = v := hiff1.mpr hin1
  have hd1chain : succAt h1 tl chainF v 0 ∈ chainF := by
    rcases hmem1 with h1m | h1m
    · exact h1m
    · exfalso
      have hvt : valOf h1 tl = VAL_MAX := by rw [valOf, inv1.tail_node]
      rw [h1m, hvt] at hval1
      rw [VAL_MAX] at hval1 hv2
      omega
  have hliveo1 : ∀ x ∈ chainF, x ≠ succAt h1 tl chainF v 0 →
      ∃ n, h1.get x = some n ∧ n.deleted = false := by
    intro x hx hne
    rw [hd1d] at hne
    obtain ⟨n, hg, hd5⟩ := hliveo x hx hne
    exact ⟨n, by rw [hc x hx]; exact hg, hd5⟩
  have hdeleted1 : ∀ n, h1.get (succAt h1 tl chainF v 0) = some n →
      n.deleted = true := by
    intro n hg
    apply hdeleted n
    rw [← hd1d]
    rw [← hc _ hd1chain]
    exact hg
  obtain ⟨nd, h3, hgd1, hndval, hdel, hmrun, dinv, hlive3, hmap3, hlen3,
      hcells3⟩ :=
    add_marks_InvD h1 s.head tl chainF v inv1 hliveo1 hv1 hv2 hin1 hdeleted1
  have hstart3 : startsAtHead h3 tbl pos T v s.head := by
    apply startsAtHead_cells h3 s.head tl tbl pos T v ?_ ?_ htab hT hpos hv1 hv2
    · obtain ⟨n, hg, hva, _⟩ := dinv.head_node
      exact ⟨n, hg, hva⟩
    · exact ⟨_, dinv.tail_node, rfl⟩
  obtain ⟨h4A, p3, s3, it3, hq2, st4, hl3, hl4, hchar2, _, _⟩ :=
    fraser_search_dirty h3 s.head tl (succAt h1 tl chainF v 0) _ v
      nd.toplevel dinv pos tbl T hstart3 true true fuel rf
      (by omega) hrf p2 s2 it2
      (by rw [hl1, List.length_replicate]) (by rw [hl2, List.length_replicate])
  obtain ⟨inv4A, hliveTrans, hmap4A, hgd4A⟩ :=
    InvD_excise h3 h4A s.head tl (succAt h1 tl chainF v 0) _ v
      nd.toplevel dinv st4
  have hvalc : ∀ x ∈ (chainF.filter (fun x => decide (valOf h1 x < v))
      ++ (chainF.filter (fun x => ! decide (valOf h1 x < v))).tail),
      valOf h4A x = valOf h3 x := by
    intro x hx
    obtain ⟨n, hg, _⟩ := dinv.chain_node x hx
    obtain ⟨n2, hg2, hv5, _, _, _⟩ := st4.shape x n hg
    have e1 : valOf h4A x = n2.val := by rw [valOf, hg2]
    have e2 : valOf h3 x = n.val := by rw [valOf, hg]
    rw [e1, e2, hv5]
  have htopc : ∀ x ∈ (chainF.filter (fun x => decide (valOf h1 x < v))
      ++ (chainF.filter (fun x => ! decide (valOf h1 x < v))).tail),
      toplevelOf h4A x = toplevelOf h3 x := by
    intro x hx
    obtain ⟨n, hg, _⟩ := dinv.chain_node x hx
    obtain ⟨n2, hg2, _, ht5, _, _⟩ := st4.shape x n hg
    have e1 : toplevelOf h4A x = n2.toplevel := by rw [toplevelOf, hg2]
    have e2 : toplevelOf h3 x = n.toplevel := by rw [toplevelOf, hg]
    rw [e1, e2, ht5]
  have hPe : ∀ j, predAt h4A s.head (chainF.filter
        (fun x => decide (valOf h1 x < v))
      ++ (chainF.filter (fun x => ! decide (valOf h1 x < v))).tail) v j
      = predAt h3 s.head (chainF.filter (fun x => decide (valOf h1 x < v))
      ++ (chainF.filter (fun x => ! decide (valOf h1 x < v))).tail) v j :=
    fun j => predAt_congr_vt h3 h4A s.head _ v j hvalc htopc
  have hSe : ∀ j, succAt h4A tl (chainF.filter
        (fun x => decide (valOf h1 x < v))
      ++ (chainF.filter (fun x => ! decide (valOf h1 x < v))).tail) v j
      = succAt h3 tl (chainF.filter (fun x => decide (valOf h1 x < v))
      ++ (chainF.filter (fun x => ! decide (valOf h1 x < v))).tail) v j :=
    fun j => succAt_congr_vt h3 h4A tl _ v j hvalc htopc
  have hchain1mem : ∀ x ∈ (chainF.filter (fun x => decide (valOf h1 x < v))
      ++ (chainF.filter (fun x => ! decide (valOf h1 x < v))).tail),
      x ∈ chainF := by
    intro x hx
    rcases List.mem_append.mp hx with h5 | h5
    · exact List.mem_of_mem_filter h5
    · exact List.mem_of_mem_filter ((List.tail_sublist _).mem h5)
  have hlowid : ∀ x, x = s.head ∨ x = tl ∨
      x ∈ (chainF.filter (fun x => decide (valOf h1 x < v))
        ++ (chainF.filter (fun x => ! decide (valOf h1 x < v))).tail) →
      x < newId := by
    intro x hx
    rcases hx with h5 | h5 | h5
    · obtain ⟨n, hg, _⟩ := inv.head_node
      rw [h5]
      exact get_lt_length s.heap s.head (by rw [hg]; rfl)
    · rw [h5]
      exact get_lt_length s.heap tl (by rw [inv.tail_node]; rfl)
    · obtain ⟨n, hg, _⟩ := inv.chain_node x (hchain1mem x h5)
      exact get_lt_length s.heap x (by rw [hg]; rfl)
  have hd1lt : succAt h1 tl chainF v 0 < newId := by
    obtain ⟨n, hg, _⟩ := inv.chain_node _ hd1chain
    exact get_lt_length s.heap _ (by rw [hg]; rfl)
  have hd1ne : succAt h1 tl chainF v 0 ≠ newId := Nat.ne_of_lt hd1lt
  have hgnew3 : h3.get newId = some (sl_new_simple_node v lvl) := by
    rw [hcells3 newId (fun he => hd1ne he.symm)]
    exact get_alloc_self s.heap (sl_new_simple_node v lvl)
  have hgnew4A : h4A.get newId = some (sl_new_simple_node v lvl) := by
    rw [st4.get_keep newId ?_]
    · exact hgnew3
    · intro j hj he
      rcases predAt_cases h3 s.head (chainF.filter
          (fun x => decide (valOf h1 x < v))
          ++ (chainF.filter (fun x => ! decide (valOf h1 x < v))).tail) v j
        with hpc | hpc
      · rw [hpc] at he
        have h6 := hlowid s.head (Or.inl rfl)
        exact absurd he.symm (Nat.ne_of_lt h6)
      · have hm : predAt h3 s.head (chainF.filter
            (fun x => decide (valOf h1 x < v))
            ++ (chainF.filter (fun x => ! decide (valOf h1 x < v))).tail) v j
            ∈ (chainF.filter (fun x => decide (valOf h1 x < v))
            ++ (chainF.filter (fun x => ! decide (valOf h1 x < v))).tail) :=
          ((mem_towers h3 _ j _).mp (List.mem_of_mem_filter hpc)).1
        have h6 := hlowid _ (Or.inr (Or.inr hm))
        exact absurd he.symm (Nat.ne_of_lt h6)
  have hfresh : ∀ x, x = s.head ∨ x = tl ∨
      x ∈ (chainF.filter (fun x => decide (valOf h1 x < v))
        ++ (chainF.filter (fun x => ! decide (valOf h1 x < v))).tail) →
      x ≠ newId :=
    fun x hx => Nat.ne_of_lt (hlowid x hx)
  have hvnot : v ∉ ((chainF.filter (fun x => decide (valOf h1 x < v))
      ++ (chainF.filter (fun x => ! decide (valOf h1 x < v))).tail).map
        (valOf h4A)) := by
    rw [hmap4A, hmap3]
    have hnd5 : (chainF.map (valOf h1)).Nodup :=
      List.Pairwise.imp (fun hlt => ne_of_lt hlt) inv1.sorted
    exact hnd5.not_mem_erase
  obtain ⟨h4f, hloop, inv4f, hlive4f, hmap4f⟩ :=
    sl_add_loop_post h4A s.head tl _ pos tbl T v newId lvl fuel rf arf2 h3
      p2 s2 p3 s3 it2 it3 hq2 inv4A (hliveTrans hlive3) hgnew4A hfresh
      (fun j hj => by
        rw [hPe j]
        exact (hchar2 j (lt_of_lt_of_le hj hlvlmax)).1 rfl)
      (fun j hj => by
        rw [hSe j]
        exact (hchar2 j (lt_of_lt_of_le hj hlvlmax)).2 rfl)
      (by
        rw [hSe 0]
        exact (hchar2 0 (by rw [levelmax]; omega)).2 rfl)
      hv1 hv2 hvnot hlvl1 hlvlmax (by omega)
  refine ⟨_, _, h4f, it3, ?_, inv4f, ?_, ?_, ?_⟩
  · rw [sl_add]
    simp only [Option.bind_eq_bind]
    rw [sl_add_loop, hq1]
    simp only [Option.bind_eq_bind, Option.some_bind, hs0, id_eq]
    rw [hgd1]
    simp only [Option.some_bind]
    rw [if_pos hndval, hdel]
    simp only [if_true]
    rw [hmrun]
    simp only [Option.some_bind]
    rw [show (s.heap.alloc (sl_new_simple_node v lvl)).2 = newId from rfl]
    rw [hloop]
    rfl
  · rw [← hd1d]
    intro hmem5
    rcases List.mem_append.mp hmem5 with h5 | h5
    · exact dinv.dead_fresh.2.2 (List.mem_of_mem_filter h5)
    · rcases List.mem_cons.mp h5 with h6 | h6
      · exact hd1ne h6
      · exact dinv.dead_fresh.2.2 (List.mem_of_mem_filter h6)
  · rw [← hd1d]
    exact hd1ne
  · rw [hmap4f, hmap4A, hmap3, map_valOf_congr s.heap h1 chainF hc]

end MLSkip


namespace MLSkip

/-- C6: `sl_add` on a live present value mutates nothing: it reports 0,
the freed pre-allocated node leaves only a hole appended to the heap, and
every cell — hence the whole pointer structure and the live chain — reads
exactly as before. -/
theorem sl_add_present_no_mutation (s : IntSet) (tl : NodeId)
    (chain : List NodeId) (pos : Int → ℚ) (tbl : List ShiftEntry) (T : Nat)
    (v : Int) (lvl : Nat) (fuel rf arf : Nat)
    (inv : Inv0 s.heap s.head tl chain) (hlive : InvLive s.heap chain)
    (htab : tableOK tbl T s.head tl) (hT : 2 ≤ T)
    (hpos : ∀ x, 0 ≤ pos x ∧ pos x < 1)
    (hv1 : VAL_MIN < v) (hv2 : v < VAL_MAX)
    (hin : v ∈ chain.map (valOf s.heap))
    (hfuel : chain.length + 2 ≤ fuel) (hrf : 1 ≤ rf) (harf : 1 ≤ arf) :
    ∃ it,
      sl_add s pos tbl T v lvl fuel rf arf
        = some (0, ⟨⟨s.heap.nodes ++ [none]⟩, s.head⟩, it) ∧
      (∀ x, (Heap.mk (s.heap.nodes ++ [none])).get x = s.heap.get x) ∧
      Inv0 (Heap.mk (s.heap.nodes ++ [none])) s.head tl chain ∧
      InvLive (Heap.mk (s.heap.nodes ++ [none])) chain ∧
      chain.map (valOf (Heap.mk (s.heap.nodes ++ [none])))
        = chain.map (valOf s.heap) := by
  obtain ⟨it, hrun⟩ := sl_add_present s tl chain pos tbl T v lvl fuel rf arf
    inv hlive htab hT hpos hv1 hv2 hin hfuel hrf harf
  exact ⟨it, hrun, get_append_none s.heap,
    Inv0_congr_all s.heap _ s.head tl chain (get_append_none s.heap) inv,
    InvLive_congr_all s.heap _ chain (get_append_none s.heap) hlive,
    map_valOf_congr s.heap _ chain (fun x _ => get_append_none s.heap x)⟩

/-- The head tower of the two-sentinel demonstration state with one
level-1 node at id 2. -/
def demoNext : List Ptr :=
  Ptr.mk (some 2) false :: List.replicate 31 (Ptr.mk (some 0) false)

/-- A three-cell state: tail at 0, head at 1, a value-5 node of height 1
at 2 whose deleted flag is `b`. -/
def demoHeap (b : Bool) : Heap :=
  ⟨[some ⟨VAL_MAX, false, levelmax, List.replicate levelmax Ptr.null⟩,
    some ⟨VAL_MIN, false, levelmax, demoNext⟩,
    some ⟨5, b, 1, [Ptr.mk (some 0) false]⟩]⟩

theorem demo_Inv0 (b : Bool) : Inv0 (demoHeap b) 1 0 [2] := by
  refine ⟨?_, ?_, ?_, ?_, ?_, ?_⟩
  · exact ⟨_, rfl, rfl, rfl, by decide, rfl⟩
  · rfl
  · intro x hx
    rw [List.mem_singleton] at hx
    subst hx
    exact ⟨_, rfl, rfl, by show (1:Nat) ≤ 1; decide,
      by show (1:Nat) ≤ levelmax; decide,
      by show VAL_MIN < (5:Int); decide, by show (5:Int) < VAL_MAX; decide⟩
  · decide
  · simp
  · intro i hi
    by_cases h0 : i = 0
    · subst h0
      have ht : towers (demoHeap b) [2] 0 = [2] := rfl
      rw [ht]
      exact (Seg_cons _ 0 1 2 [0]).mpr ⟨rfl,
        (Seg_cons _ 0 2 0 []).mpr ⟨rfl, Seg.nil 0⟩⟩
    · rw [levelmax] at hi
      have ht : towers (demoHeap b) [2] i = [] := by
        rw [towers, List.filter_cons]
        have e : toplevelOf (demoHeap b) 2 = 1 := rfl
        rw [e, if_neg (by simp; omega)]
        rfl
      rw [ht]
      refine (Seg_cons _ i 1 0 []).mpr ⟨?_, Seg.nil 0⟩
      have e1 : (demoHeap b).nextAt 1 i = demoNext.get? i := rfl
      obtain ⟨j, rfl⟩ : ∃ j, i = j + 1 := ⟨i - 1, by omega⟩
      rw [e1, demoNext, List.get?_cons_succ, List.get?_eq_getElem?,
        List.getElem?_replicate, if_pos (by omega)]

theorem demo_InvLive : InvLive (demoHeap false) [2] := by
  intro x hx
  rw [List.mem_singleton] at hx
  subst hx
  exact ⟨_, rfl, rfl⟩

theorem demo_tableOK :
    tableOK [⟨1, 0, some 1⟩, ⟨1, 0, some 0⟩] 2 1 0 := by
  refine ⟨rfl, rfl, ?_⟩
  intro k hk
  interval_cases k
  · exact ⟨_, rfl, Or.inl rfl⟩
  · exact ⟨_, rfl, Or.inr rfl⟩

theorem sl_add_present_no_mutation_witness :
    ∃ it,
      sl_add ⟨demoHeap false, 1⟩ (fun _ => 0)
          [⟨1, 0, some 1⟩, ⟨1, 0, some 0⟩] 2 5 1 3 1 1
        = some (0, ⟨⟨(demoHeap false).nodes ++ [none]⟩, 1⟩, it) ∧
      (∀ x, (Heap.mk ((demoHeap false).nodes ++ [none])).get x
        = (demoHeap false).get x) ∧
      Inv0 (Heap.mk ((demoHeap false).nodes ++ [none])) 1 0 [2] ∧
      InvLive (Heap.mk ((demoHeap false).nodes ++ [none])) [2] ∧
      [2].map (valOf (Heap.mk ((demoHeap false).nodes ++ [none])))
        = [2].map (valOf (demoHeap false)) :=
  sl_add_present_no_mutation ⟨demoHeap false, 1⟩ 0 [2] (fun _ => 0)
    [⟨1, 0, some 1⟩, ⟨1, 0, some 0⟩] 2 5 1 3 1 1
    (demo_Inv0 false) demo_InvLive demo_tableOK (by decide)
    (fun x => ⟨le_refl 0, by norm_num⟩) (by decide) (by decide) (by decide)
    (by decide) (by decide) (by decide)

end MLSkip

namespace MLList

theorem lget_lt_length (h : Heap) (x : NodeId) (hx : (h.get x).isSome) :
    x < h.nodes.length := by
  by_contra hge
  rw [Heap.get, List.getD_eq_default] at hx
  · simp at hx
  · exact Nat.le_of_not_lt hge

theorem lget_setNode_ne (h : Heap) (a : NodeId) (n : Node) (x : NodeId)
    (hx : x ≠ a) : (h.setNode a n).get x = h.get x := by
  rw [Heap.setNode, Heap.get, Heap.get]
  simp only [List.getD]
  rw [List.get?_set_ne _ _ (fun he => hx he.symm)]

theorem lget_setNode_self (h : Heap) (a : NodeId) (n : Node)
    (ha : a < h.nodes.length) : (h.setNode a n).get a = some n := by
  rw [Heap.setNode, Heap.get]
  simp only [List.getD]
  rw [List.get?_set_eq_of_lt]
  · rfl
  · exact ha

/-- The list variant's `sl_add` on a deleted carrier: it resurrects the
same node object in place — same id, no allocation, heap size unchanged,
only the deleted flag cleared. -/
theorem sl_add_resurrects (s : IntSet) (tbl : List ShiftEntry)
    (pos : Int → ℚ) (T : Nat) (v : Int) (p0 q : NodeId) (hd0 : Node)
    (c0 pr curr : NodeId) (c : Node)
    (hbkt : entryNode tbl (bucketOf pos T v) = some p0)
    (hshort : shortcut s.heap tbl v p0 (bucketOf pos T v) = some q)
    (hhd : s.heap.get s.head = some hd0)
    (hc0 : hd0.next = some c0)
    (hscan : scan s.heap v s.head c0 (s.heap.nodes.length + 1)
      = some (pr, curr))
    (hcurr : s.heap.get curr = some c)
    (hval : c.val = v) (hdel : c.deleted = true) :
    sl_add s tbl pos T v
      = some (1, ⟨s.heap.setNode curr { c with deleted := false }, s.head⟩) ∧
    (s.heap.setNode curr { c with deleted := false }).nodes.length
      = s.heap.nodes.length ∧
    (s.heap.setNode curr { c with deleted := false }).get curr
      = some { c with deleted := false } ∧
    (∀ x, x ≠ curr →
      (s.heap.setNode curr { c with deleted := false }).get x
        = s.heap.get x) := by
  refine ⟨?_, ?_, ?_, ?_⟩
  · rw [sl_add, hbkt]
    simp only [Option.bind_eq_bind, Option.some_bind]
    rw [hshort]
    simp only [Option.some_bind]
    rw [hhd]
    simp only [Option.some_bind]
    rw [hc0]
    simp only [Option.some_bind]
    rw [hscan]
    simp only [Option.some_bind]
    rw [hcurr]
    simp only [Option.some_bind]
    rw [if_pos hval, hdel]
    rfl
  · rw [Heap.setNode]
    simp
  · exact lget_setNode_self s.heap curr _
      (lget_lt_length s.heap curr (by rw [hcurr]; rfl))
  · intro x hx
    exact lget_setNode_ne s.heap curr _ x hx

end MLList

/-- C7: when `Add(v)` meets a node carrying `v` whose deleted flag is set,
the plain-list variant resurrects that same node object in place, while
the skip-list variant never does: it marks the dead node's pointers,
retries, and the final state carries `v` in a newly allocated node — the
dead node is gone from the chain and its id differs from the new one. -/
theorem add_deleted_resurrect_vs_new_node :
    (∀ (s : MLList.IntSet) (tbl : List ShiftEntry) (pos : Int → ℚ)
        (T : Nat) (v : Int) (p0 q : NodeId) (hd0 : MLList.Node)
        (c0 pr curr : NodeId) (c : MLList.Node),
      entryNode tbl (bucketOf pos T v) = some p0 →
      MLList.shortcut s.heap tbl v p0 (bucketOf pos T v) = some q →
      s.heap.get s.head = some hd0 →
      hd0.next = some c0 →
      MLList.scan s.heap v s.head c0 (s.heap.nodes.length + 1)
        = some (pr, curr) →
      s.heap.get curr = some c →
      c.val = v → c.deleted = true →
      MLList.sl_add s tbl pos T v
        = some (1, ⟨s.heap.setNode curr { c with deleted := false },
            s.head⟩) ∧
      (s.heap.setNode curr { c with deleted := false }).nodes.length
        = s.heap.nodes.length ∧
      (s.heap.setNode curr { c with deleted := false }).get curr
        = some { c with deleted := false }) ∧
    (∀ (s : MLSkip.IntSet) (tl : NodeId) (chainF : List NodeId)
        (pos : Int → ℚ) (tbl : List ShiftEntry) (T : Nat) (v : Int)
        (lvl : Nat) (fuel rf arf : Nat),
      MLSkip.Inv0 s.heap s.head tl chainF →
      (∀ x ∈ chainF, x ≠ MLSkip.succAt s.heap tl chainF v 0 →
        ∃ n, s.heap.get x = some n ∧ n.deleted = false) →
      (∀ n, s.heap.get (MLSkip.succAt s.heap tl chainF v 0) = some n →
        n.deleted = true) →
      MLSkip.tableOK tbl T s.head tl → 2 ≤ T →
      (∀ x, 0 ≤ pos x ∧ pos x < 1) →
      VAL_MIN < v → v < VAL_MAX →
      v ∈ chainF.map (MLSkip.valOf s.heap) →
      1 ≤ lvl → lvl ≤ levelmax →
      chainF.length + 3 ≤ fuel → 1 ≤ rf → 2 ≤ arf →
      ∃ A B h4 it,
        MLSkip.sl_add s pos tbl T v lvl fuel rf arf
          = some (1, ⟨h4, s.head⟩, it) ∧
        MLSkip.Inv0 h4 s.head tl (A ++ s.heap.nodes.length :: B) ∧
        MLSkip.succAt s.heap tl chainF v 0 ∉ A ++ s.heap.nodes.length :: B ∧
        MLSkip.succAt s.heap tl chainF v 0 ≠ s.heap.nodes.length ∧
        (A ++ s.heap.nodes.length :: B).map (MLSkip.valOf h4)
          = ((chainF.map (MLSkip.valOf s.heap)).erase v).orderedInsert
              (· ≤ ·) v) := by
  constructor
  · intro s tbl pos T v p0 q hd0 c0 pr curr c hbkt hshort hhd hc0 hscan
      hcurr hval hdel
    obtain ⟨h1, h2, h3, _⟩ := MLList.sl_add_resurrects s tbl pos T v p0 q
      hd0 c0 pr curr c hbkt hshort hhd hc0 hscan hcurr hval hdel
    exact ⟨h1, h2, h3⟩
  · intro s tl chainF pos tbl T v lvl fuel rf arf inv hliveo hdeleted htab
      hT hpos hv1 hv2 hin hlvl1 hlvlmax hfuel hrf harf
    exact MLSkip.sl_add_deleted_retry s tl chainF pos tbl T v lvl fuel rf
      arf inv hliveo hdeleted htab hT hpos hv1 hv2 hin hlvl1 hlvlmax hfuel
      hrf harf

/-- The demonstration list state: tail at 0, head at 1 pointing at a
deleted value-5 node at 2. -/
def lDemo : MLList.IntSet :=
  ⟨⟨[some ⟨VAL_MAX, false, none⟩, some ⟨VAL_MIN, false, some 2⟩,
     some ⟨5, true, some 0⟩]⟩, 1⟩

theorem add_deleted_resurrect_vs_new_node_witness :
    (MLList.sl_add lDemo [⟨1, 0, some 1⟩, ⟨1, 0, some 0⟩] (fun _ => 0) 2 5
        = some (1, ⟨lDemo.heap.setNode 2
            { val := 5, deleted := false, next := some 0 }, 1⟩) ∧
      (lDemo.heap.setNode 2
          { val := 5, deleted := false, next := some 0 }).nodes.length
        = lDemo.heap.nodes.length ∧
      (lDemo.heap.setNode 2
          { val := 5, deleted := false, next := some 0 }).get 2
        = some { val := 5, deleted := false, next := some 0 }) ∧
    (∃ A B h4 it,
      MLSkip.sl_add ⟨MLSkip.demoHeap true, 1⟩ (fun _ => 0)
          [⟨1, 0, some 1⟩, ⟨1, 0, some 0⟩] 2 5 1 4 1 2
        = some (1, ⟨h4, 1⟩, it) ∧
      MLSkip.Inv0 h4 1 0 (A ++ (MLSkip.demoHeap true).nodes.length :: B) ∧
      MLSkip.succAt (MLSkip.demoHeap true) 0 [2] 5 0
        ∉ A ++ (MLSkip.demoHeap true).nodes.length :: B ∧
      MLSkip.succAt (MLSkip.demoHeap true) 0 [2] 5 0
        ≠ (MLSkip.demoHeap true).nodes.length ∧
      (A ++ (MLSkip.demoHeap true).nodes.length :: B).map (MLSkip.valOf h4)
        = ((([2]).map (MLSkip.valOf (MLSkip.demoHeap true))).erase 5
            ).orderedInsert (· ≤ ·) 5) :=
  ⟨add_deleted_resurrect_vs_new_node.1 lDemo
      [⟨1, 0, some 1⟩, ⟨1, 0, some 0⟩] (fun _ => 0) 2 5 1 1
      ⟨VAL_MIN, false, some 2⟩ 2 1 2 ⟨5, true, some 0⟩
      (by decide) (by decide) (by decide) (by decide) (by decide)
      (by decide) (by decide) (by decide),
    add_deleted_resurrect_vs_new_node.2 ⟨MLSkip.demoHeap true, 1⟩ 0 [2]
      (fun _ => 0) [⟨1, 0, some 1⟩, ⟨1, 0, some 0⟩] 2 5 1 4 1 2
      (MLSkip.demo_Inv0 true)
      (by
        intro x hx hne
        rw [List.mem_singleton] at hx
        subst hx
        exact absurd rfl hne)
      (by
        intro n hg
        rw [← Option.some_inj.mp hg])
      MLSkip.demo_tableOK (by decide)
      (fun x => ⟨le_refl 0, by norm_num⟩) (by decide) (by decide)
      (by decide) (by decide) (by decide) (by decide) (by decide)
      (by decide)⟩

end SmartSkip
